import Mathlib

/-!
# A verification model of the csvc99 parser (`src/csv.c`)

This file gives a shallow embedding of the parsing engine of csvc99:

* `csv_open`      — configuration construction (quote/escape/delimiter defaults,
                    bounded null-marker string), from `csv.c:465-495`;
* `scanNext`      — the ByteScanner: the SIMD code (`fillbmap`, `__scan_forward`,
                    `scan_next`, `scan_reset` at `csv.c:69-112`) computes, for the
                    window `[p,q)`, the ascending sequence of positions of bytes in
                    the 5-byte special set `{qte, esc, delim, CR, LF}`; it is modeled
                    by its functional contract: the least special position `≥ i`;
* `runFuel`       — the row state machine `csv_line` (`csv.c:247-398`), with the
                    `goto`-based control flow (`START_VAL`/`QUOTED_VAL`/`FINISH`/
                    `FINROW`) rendered as a fuel-indexed transition function on an
                    explicit machine state.  The fld-array growth (`expand`) is
                    modeled by an unbounded list (allocation failure, an OS event,
                    is not modeled);
* `touchup`       — the in-place finalization pass (`csv.c:169-243`), including the
                    exact windowed (16-byte) squeeze loop and the C-string tail copy;
* `csv_feed`, `csv_feed_last` — the feed wrappers (`csv.c:402-462`);
* `csv_scan`      — the streaming driver (`csv.c:520-632`).  Buffers are modeled
                    functionally (the `memmove` compaction and `realloc` growth of
                    the C driver relocate bytes without changing their sequence, so
                    the model keeps the unconsumed bytes as a list); the fill
                    callback is modeled by a list of chunks, each delivered whole
                    by one `on_bufempty` call, with `[]`/end-of-list meaning the
                    fill function returned 0 (end of stream).

Bytes are natural numbers (`'"' = 34`, `',' = 44`, CR `= 13`, LF `= 10`).  Reads of
bytes use `List.getD _ _ 0`; all reads performed on reachable paths are in bounds.
-/

namespace Csv

/-- A byte of the input. -/
abbrev Byte := Nat

/-- The error kinds of the parser (the `CSV_E...` constants of `csv.h`, which is
not part of the sources; only the kind, not its numeric value, is modeled). -/
inductive CsvErr where
  | eparam
  | eoutofmemory
  | equote
  | ecrlf
  | eextrainput
  deriving Repr, DecidableEq

/-- Parser configuration, immutable after `csv_open`: quote, escape and delimiter
bytes, the stored null-marker string and its length (`nullstr`/`nullstrsz` of
`csv_parse_t`, `csv.c:42-44`). -/
structure CsvConfig where
  qte : Byte
  esc : Byte
  delim : Byte
  nullstr : List Byte
  nullstrsz : Nat
  deriving Repr, DecidableEq

/-- Model of the 20-byte array `char nullstr[20]` after
`strncpy(cp->nullstr, nullstr, sizeof(cp->nullstr))` (`csv.c:479`): `strncpy`
copies the source C string (bytes before its first NUL) up to 20 bytes and pads
with NULs when shorter. -/
def strncpyBuf20 (src : List Byte) : List Byte :=
  let copied := (src.takeWhile (· != 0)).take 20
  copied ++ List.replicate (20 - copied.length) 0

/-- `csv_open` (`csv.c:465-495`): apply the defaults (`'"'`, escape = quote,
`','`, empty marker), copy the null marker into the bounded array, force a NUL
at index 19 (`csv.c:480`) and take `strlen` of the result. -/
def csv_open (qte esc delim : Byte) (nullstr : Option (List Byte)) : CsvConfig :=
  let q := if qte = 0 then 34 else qte
  let e := if esc = 0 then q else esc
  let d := if delim = 0 then 44 else delim
  let ns := nullstr.getD []
  let arr := (strncpyBuf20 ns).set 19 0
  let stored := arr.takeWhile (· != 0)
  { qte := q, esc := e, delim := d, nullstr := stored, nullstrsz := stored.length }

/-- Is `b` in the special-byte set `{qte, esc, delim, CR, LF}` (the 5-byte match
vector `v4` of `csv_open`, `csv.c:490-492`)? -/
def specialb (cfg : CsvConfig) (b : Byte) : Bool :=
  b == cfg.qte || b == cfg.esc || b == cfg.delim || b == 13 || b == 10

/-- Index of the first special byte of a byte list (`none` if there is none). -/
def findSpec (cfg : CsvConfig) : List Byte → Option Nat
  | [] => none
  | b :: bs => if specialb cfg b then some 0 else (findSpec cfg bs).map (· + 1)

/-- The ByteScanner contract (`scan_next`, `csv.c:103-112`): the position of the
next special byte at or after `i`, or `none` when no special byte remains. -/
def scanNext (cfg : CsvConfig) (buf : List Byte) (i : Nat) : Option Nat :=
  (findSpec cfg (buf.drop i)).map (i + ·)

/-- One parsed field, as recorded by `FINISH` (`csv.c:348-360`): start index and
length of its byte span in the row buffer, and the index of the first escape
byte of a quoted field (`escptr`), if any. -/
structure Field where
  start : Nat
  len : Nat
  escptr : Option Nat
  deriving Repr, DecidableEq

/-- Outcome of one `csv_line` row-parse attempt: a completed row (consumed byte
count, the fields, and the number of lines spanned, already including the
`nline++` of `FINROW`), an incomplete row (more input needed), or an error with
the arguments passed to `reterr`. -/
inductive LineOut where
  | complete (rowsz : Nat) (flds : List Field) (nline : Nat)
  | incomplete
  | err (e : CsvErr) (cno : Nat) (nline : Nat) (nchar : Nat)
  deriving Repr, DecidableEq

/-- Machine state of the row state machine: at `START_VAL` (`csv.c:275`), or
inside a quoted value (`QUOTED_VAL`, `csv.c:305`) with the recorded field start
and first-escape position. -/
inductive MState where
  | fstart
  | quoted (fldstart : Nat) (escptr : Option Nat)
  deriving Repr, DecidableEq

/-- Result of the `FINISH` block: a final outcome, or "start the next field at
`i`" (the `goto START_VAL` on a delimiter). -/
inductive FinishRes where
  | out (o : LineOut)
  | nextField (i cno nline : Nat) (acc : List Field)
  deriving Repr, DecidableEq

/-- The field record written by `FINISH` (`csv.c:352-359`): length is the
distance from the field start to the terminator; a quoted field drops its two
enclosing quote bytes. -/
def mkField (quoted : Bool) (fldstart j : Nat) (escptr : Option Nat) : Field :=
  if quoted then ⟨fldstart + 1, j - fldstart - 2, escptr⟩
  else ⟨fldstart, j - fldstart, escptr⟩

theorem mkField_false (fldstart j : Nat) (escptr : Option Nat) :
    mkField false fldstart j escptr = ⟨fldstart, j - fldstart, escptr⟩ := rfl

theorem mkField_true (fldstart j : Nat) (escptr : Option Nat) :
    mkField true fldstart j escptr = ⟨fldstart + 1, j - fldstart - 2, escptr⟩ := rfl

/-- The `FINISH` block (`csv.c:348-386`): record the field, eat the terminator
byte at `j`; a delimiter starts the next field; LF completes the row; CR
completes the row only when immediately followed by an available LF (consuming
it too), else `CSV_ECRLF`; any other byte is `CSV_ECRLF` ("CRLF expected"). -/
def finishStep (cfg : CsvConfig) (buf : List Byte) (fldstart j : Nat)
    (escptr : Option Nat) (quoted : Bool) (cno nline : Nat) (acc : List Field) :
    FinishRes :=
  let acc' := acc ++ [mkField quoted fldstart j escptr]
  let cur := buf.getD j 0
  let i' := j + 1
  if cur = cfg.delim then .nextField i' (cno + 1) nline acc'
  else if cur = 10 then .out (.complete i' acc' (nline + 1))
  else if cur = 13 then
    if i' < buf.length ∧ buf.getD i' 0 = 10 then .out (.complete (i' + 1) acc' (nline + 1))
    else .out (.err .ecrlf (cno + 1) nline i')
  else .out (.err .ecrlf (cno + 1) nline i')

/-- The row state machine of `csv_line` (`csv.c:247-398`), as a fuel-indexed
transition function.  `i` is the current scan position (the C code keeps the
scanner cursor and `ppp` in lock-step at every `START_VAL`/`QUOTED_VAL` entry).
Each transition strictly advances `i`, so fuel `buf.length + 1` never runs out;
exhausted fuel returns `incomplete`, which is also what an exhausted scan
returns. -/
def runFuel (cfg : CsvConfig) (buf : List Byte) :
    Nat → MState → Nat → Nat → Nat → List Field → LineOut
  | 0, _, _, _, _, _ => .incomplete
  | fuel + 1, .fstart, i, cno, nline, acc =>
    match scanNext cfg buf i with
    | none => .incomplete
    | some j =>
      -- quoted iff the special byte is the field's first char and is the quote
      if j = i ∧ buf.getD j 0 = cfg.qte then
        runFuel cfg buf fuel (.quoted i none) (j + 1) cno nline acc
      else
        match finishStep cfg buf i j none false cno nline acc with
        | .out o => o
        | .nextField i' cno' nline' acc' => runFuel cfg buf fuel .fstart i' cno' nline' acc'
  | fuel + 1, .quoted fs ep, i, cno, nline, acc =>
    match scanNext cfg buf i with
    | none => .incomplete
    | some j =>
      if buf.getD j 0 = cfg.qte then
        match scanNext cfg buf (j + 1) with
        | none => .incomplete
        | some x =>
          -- the byte right after a quote must itself be special
          if x ≠ j + 1 then .err .equote cno nline j
          else if cfg.esc = cfg.qte ∧ buf.getD x 0 = cfg.qte then
            -- doubled quote: record the first escape position and stay in the field
            runFuel cfg buf fuel (.quoted fs (some (ep.getD j))) (x + 1) cno nline acc
          else
            match finishStep cfg buf fs x ep true cno nline acc with
            | .out o => o
            | .nextField i' cno' nline' acc' => runFuel cfg buf fuel .fstart i' cno' nline' acc'
      else if buf.getD j 0 = cfg.esc then
        -- distinct escape char: record it, skip two bytes, re-anchor the scan
        if buf.length ≤ j + 2 then .incomplete
        else runFuel cfg buf fuel (.quoted fs (some (ep.getD j))) (j + 2) cno nline acc
      else
        -- delimiter / CR / LF inside quotes are literal; LF counts a line
        runFuel cfg buf fuel (.quoted fs ep) (j + 1) cno
          (nline + if buf.getD j 0 = 10 then 1 else 0) acc

/-- `csv_line`'s parse of a whole buffer, starting at `START_VAL` with field 0.
An empty buffer yields `incomplete` (the C code returns 0 for `bufsz == 0`). -/
def csvLineRun (cfg : CsvConfig) (buf : List Byte) : LineOut :=
  runFuel cfg buf (buf.length + 1) .fstart 0 0 0 []

/-- The per-instance running counters and error record of `csv_parse_t.state`
(`csv.c:48-60`). -/
structure CsvState where
  linenum : Int
  charnum : Int
  rownum : Int
  errnum : Option CsvErr
  elinenum : Int
  echarnum : Int
  erownum : Int
  efldnum : Int
  deriving Repr, DecidableEq

/-- The zeroed state of a freshly `calloc`ed parser (`csv.c:476`). -/
def initCsvState : CsvState :=
  { linenum := 0, charnum := 0, rownum := 0, errnum := none,
    elinenum := 0, echarnum := 0, erownum := 0, efldnum := 0 }

/-- `reterr` (`csv.c:143-157`): record the error kind and the positional
snapshot computed from the running counters plus the in-call offsets. -/
def reterr (st : CsvState) (e : CsvErr) (cno nline nchar : Nat) : CsvState :=
  { st with errnum := some e,
            elinenum := st.linenum + nline,
            echarnum := st.charnum + nchar,
            erownum := st.rownum + 1,
            efldnum := cno }

/-- `csv_line` (`csv.c:247-398`): returns the consumed byte count of a completed
row (advancing `linenum`/`rownum`/`charnum` as in `FINROW`, `csv.c:389-397`),
`0` when more input is needed (no state change), or `-1` after `reterr`.  The
fields are those recorded in `cp->fld[0..fldtop)`. -/
def csv_line (cfg : CsvConfig) (st : CsvState) (buf : List Byte) :
    Int × CsvState × List Field :=
  match csvLineRun cfg buf with
  | .incomplete => (0, st, [])
  | .complete rowsz flds nline =>
    ((rowsz : Int),
     { st with linenum := st.linenum + nline,
               rownum := st.rownum + 1,
               charnum := st.charnum + rowsz },
     flds)
  | .err e cno nline nchar => (-1, reterr st e cno nline nchar, [])

/-! ## The finalization pass `touchup` (`csv.c:169-243`) -/

/-- Index of the first byte equal to the quote or escape of the configuration
(the 2-byte match vector `scan_escaped_string` of `csv_open`, `csv.c:487-488`). -/
def findQE (cfg : CsvConfig) : List Byte → Option Nat
  | [] => none
  | b :: bs => if b = cfg.qte ∨ b = cfg.esc then some 0 else (findQE cfg bs).map (· + 1)

/-- The window search of the squeeze loop (`_mm_cmpestri(cp->scan_escaped_string,
2, reg, q-p, _SIDD_CMP_EQUAL_ANY)`, `csv.c:208-210`): index of the first byte
equal to the quote or the escape within the next `min 16 (q - p)` bytes, or 16
when none is found there. -/
def cutWindow (cfg : CsvConfig) (buf : List Byte) (p q : Nat) : Nat :=
  match findQE cfg ((buf.drop p).take (min 16 (q - p))) with
  | some m => m
  | none => 16

/-- A sequence of single-byte copies `buf[s+t] := buf[p+t]` for `t < n`.  This
models both the byte-wise head copy `for (; m; m--) *s++ = *p++;` (`csv.c:232`)
and, because the squeeze loop always has `s ≤ p` so no source byte is read
after being overwritten, the 16-byte vector store of the pre-loaded register
(`csv.c:217`). -/
def copyBytes (buf : List Byte) (s p : Nat) : Nat → List Byte
  | 0 => buf
  | n + 1 => copyBytes (buf.set s (buf.getD p 0)) (s + 1) (p + 1) n

/-- The C-string tail copy `while (*p) *s++ = *p++;` (`csv.c:223`): copy bytes
until a NUL byte is read.  Returns the final buffer and write position `s`. -/
def copyTilZero (buf : List Byte) (s p : Nat) : Nat → List Byte × Nat
  | 0 => (buf, s)
  | fuel + 1 =>
    if buf.getD p 0 = 0 then (buf, s)
    else copyTilZero (buf.set s (buf.getD p 0)) (s + 1) (p + 1) fuel

/-- The squeeze loop of `touchup` (`csv.c:204-239`): scan `[p, q)` in 16-byte
windows; with no quote/escape in a window, bulk-copy 16 bytes when more than 16
remain, else copy the tail up to the NUL at `q` and stop; at a quote/escape at
window offset `m`, copy the `m` head bytes, skip the escape byte and copy the
escaped byte.  Returns the buffer and the final write position `s`. -/
def squeezeLoop (cfg : CsvConfig) : Nat → List Byte → Nat → Nat → Nat → List Byte × Nat
  | 0, buf, s, _, _ => (buf, s)
  | fuel + 1, buf, s, p, q =>
    if q ≤ p then (buf, s)
    else if cutWindow cfg buf p q = 16 then
      if p + 16 < q then squeezeLoop cfg fuel (copyBytes buf s p 16) (s + 16) (p + 16) q
      else copyTilZero buf s p (buf.length + 1)
    else
      squeezeLoop cfg fuel
        ((copyBytes buf s p (cutWindow cfg buf p q)).set (s + cutWindow cfg buf p q)
          ((copyBytes buf s p (cutWindow cfg buf p q)).getD (p + cutWindow cfg buf p q + 1) 0))
        (s + cutWindow cfg buf p q + 1) (p + cutWindow cfg buf p q + 2) q

/-- Finalize one field (one iteration of the loop of `touchup`, `csv.c:176-242`):
NUL-terminate at `q = start + len`; with no recorded escape, null the field
when its bytes equal the stored null marker (`csv.c:184-189`); otherwise
squeeze out the escape bytes starting at the first escape position
(`csv.c:195-241`) and NUL-terminate the compacted content.  Returns the new
buffer and the field pointer (`none` models `*fld = 0`, the null field). -/
def touchupField (cfg : CsvConfig) (buf : List Byte) (f : Field) :
    List Byte × Option Nat :=
  match f.escptr with
  | none =>
    if f.len = cfg.nullstrsz ∧
        ((buf.set (f.start + f.len) 0).drop f.start).take f.len = cfg.nullstr then
      (buf.set (f.start + f.len) 0, none)
    else (buf.set (f.start + f.len) 0, some f.start)
  | some e =>
    -- char* s = p = escptr; p++; *s++ = *p++;  then the loop, then *s = 0
    ((squeezeLoop cfg (f.start + f.len + 1)
        ((buf.set (f.start + f.len) 0).set e
          ((buf.set (f.start + f.len) 0).getD (e + 1) 0))
        (e + 1) (e + 2) (f.start + f.len)).1.set
      (squeezeLoop cfg (f.start + f.len + 1)
        ((buf.set (f.start + f.len) 0).set e
          ((buf.set (f.start + f.len) 0).getD (e + 1) 0))
        (e + 1) (e + 2) (f.start + f.len)).2 0,
     some f.start)

/-- `touchup` (`csv.c:169-243`): finalize the fields in order, returning the
mutated buffer and the per-field pointers. -/
def touchup (cfg : CsvConfig) (flds : List Field) (buf : List Byte) :
    List Byte × List (Option Nat) :=
  match flds with
  | [] => (buf, [])
  | f :: rest =>
    ((touchup cfg rest (touchupField cfg buf f).1).1,
     (touchupField cfg buf f).2 :: (touchup cfg rest (touchupField cfg buf f).1).2)

/-- Reading a field as a C string: the bytes from `p` up to the first NUL. -/
def cstr (buf : List Byte) (p : Nat) : List Byte :=
  (buf.drop p).takeWhile (· != 0)

/-- A finalized row as the caller sees it: one entry per field, `none` for the
null field, else the NUL-terminated string at the field pointer. -/
def rowValues (buf : List Byte) (ptrs : List (Option Nat)) :
    List (Option (List Byte)) :=
  ptrs.map (Option.map (cstr buf))

/-- One emitted row. -/
abbrev Row := List (Option (List Byte))

/-- `csv_feed` (`csv.c:402-425`): parse one row with `csv_line`; on success run
`touchup` and return the finalized fields; otherwise return the buffer
untouched and no fields.  Result: (return value, state, row, buffer). -/
def csv_feed (cfg : CsvConfig) (st : CsvState) (buf : List Byte) :
    Int × CsvState × Row × List Byte :=
  if (csv_line cfg st buf).1 ≤ 0 then
    ((csv_line cfg st buf).1, (csv_line cfg st buf).2.1, [], buf)
  else
    ((csv_line cfg st buf).1, (csv_line cfg st buf).2.1,
     rowValues (touchup cfg (csv_line cfg st buf).2.2 buf).1
       (touchup cfg (csv_line cfg st buf).2.2 buf).2,
     (touchup cfg (csv_line cfg st buf).2.2 buf).1)

/-- `csv_feed_last` (`csv.c:428-462`): an empty final buffer yields 0 with no
row; a final buffer already ending in LF is fed directly; otherwise the bytes
are copied to an owned buffer (`lastbuf`), a synthetic LF is appended, the
result is fed once, and a positive consumed count is reported one smaller. -/
def csv_feed_last (cfg : CsvConfig) (st : CsvState) (buf : List Byte) :
    Int × CsvState × Row × List Byte :=
  if buf = [] then (0, st, [], buf)
  else if buf.getLast? = some 10 then csv_feed cfg st buf
  else
    (if 0 < (csv_feed cfg st (buf ++ [10])).1 then (csv_feed cfg st (buf ++ [10])).1 - 1
     else (csv_feed cfg st (buf ++ [10])).1,
     (csv_feed cfg st (buf ++ [10])).2.1,
     (csv_feed cfg st (buf ++ [10])).2.2.1,
     (csv_feed cfg st (buf ++ [10])).2.2.2)

/-! ## The streaming driver `csv_scan` (`csv.c:520-632`) -/

/-- Driver failure: a parse/feed error (`on_error(handle, 0, 0, cp)` with the
recorded state), or leftover bytes after the final row (`CSV_EEXTRAINPUT`). -/
inductive ScanErr where
  | parse (st : CsvState)
  | extra
  deriving Repr, DecidableEq

/-- Driver result: the emitted row sequence, or the first error. -/
inductive ScanRes where
  | ok (rows : List Row)
  | err (e : ScanErr)
  deriving Repr, DecidableEq

/-- The inner loop of `csv_scan` (`csv.c:591-605`): feed the available bytes
repeatedly, emitting rows and advancing past each, until the bytes are
exhausted or a feed returns 0 (incomplete); a negative feed aborts the stream.
The parser mutates the buffer in place, so the loop continues on the
`touchup`-mutated buffer (whose bytes at and beyond the consumed count are
unchanged). -/
def feedLoop (cfg : CsvConfig) : Nat → CsvState → List Byte →
    ScanErr ⊕ (List Row × CsvState × List Byte)
  | 0, st, b => .inr ([], st, b)
  | fuel + 1, st, b =>
    if b.isEmpty then .inr ([], st, b)
    else if (csv_feed cfg st b).1 < 0 then .inl (.parse (csv_feed cfg st b).2.1)
    else if (csv_feed cfg st b).1 = 0 then .inr ([], st, b)
    else
      match feedLoop cfg fuel (csv_feed cfg st b).2.1
          ((csv_feed cfg st b).2.2.2.drop (csv_feed cfg st b).1.toNat) with
      | .inl e => .inl e
      | .inr (rows, st'', rest) => .inr ((csv_feed cfg st b).2.2.1 :: rows, st'', rest)

/-- The end-of-stream phase of `csv_scan` (`csv.c:587-624`, once `on_bufempty`
has returned 0): the inner loop runs once more on the unconsumed bytes, then a
nonempty remainder goes through `csv_feed_last` (emitting its row via `on_row`),
and any bytes still unconsumed are `CSV_EEXTRAINPUT`. -/
def eofPhase (cfg : CsvConfig) (st : CsvState) (left : List Byte) : ScanRes :=
  match feedLoop cfg (left.length + 1) st left with
  | .inl e => .err e
  | .inr (rows, st2, l2) =>
    if l2.isEmpty then .ok rows
    else if (csv_feed_last cfg st2 l2).1 < 0 then
      .err (.parse (csv_feed_last cfg st2 l2).2.1)
    -- the driver advances `p` over its own buffer (csv_feed_last parses a copy)
    else if (l2.drop (csv_feed_last cfg st2 l2).1.toNat).isEmpty then
      .ok (rows ++ [(csv_feed_last cfg st2 l2).2.2.1])
    else .err .extra

/-- The outer loop of `csv_scan` (`csv.c:556-624`): per iteration, one fill call
appends the next chunk to the unconsumed bytes (compaction and buffer growth
relocate but never change bytes, so they are invisible here), then the inner
loop consumes complete rows; a fill returning no bytes means end of stream. -/
def csvScanRun (cfg : CsvConfig) : List (List Byte) → CsvState → List Byte → ScanRes
  | [], st, left => eofPhase cfg st left
  | ch :: rest, st, left =>
    if ch.isEmpty then eofPhase cfg st left
    else
      match feedLoop cfg ((left ++ ch).length + 1) st (left ++ ch) with
      | .inl e => .err e
      | .inr (rows, st', l') =>
        match csvScanRun cfg rest st' l' with
        | .err e => .err e
        | .ok rs => .ok (rows ++ rs)

/-- `csv_scan` (`csv.c:520-632`): open a parser with the given configuration and
drive the chunk sequence to completion. -/
def csv_scan (qte esc delim : Byte) (nullstr : Option (List Byte))
    (chunks : List (List Byte)) : ScanRes :=
  csvScanRun (csv_open qte esc delim nullstr) chunks initCsvState []

/-! ## List helper lemmas -/

theorem getD_append_left {l m : List Byte} {j : Nat} (h : j < l.length) :
    (l ++ m).getD j 0 = l.getD j 0 := by
  rw [List.getD_eq_getElem?_getD, List.getD_eq_getElem?_getD, List.getElem?_append_left h]

theorem getD_take_of_lt {l : List Byte} {n j : Nat} (h : j < n) :
    (l.take n).getD j 0 = l.getD j 0 := by
  rw [List.getD_eq_getElem?_getD, List.getD_eq_getElem?_getD, List.getElem?_take, if_pos h]

theorem getD_set_ne {l : List Byte} {i j : Nat} {v : Byte} (h : i ≠ j) :
    (l.set i v).getD j 0 = l.getD j 0 := by
  rw [List.getD_eq_getElem?_getD, List.getD_eq_getElem?_getD, List.getElem?_set_ne h]

theorem getD_set_self {l : List Byte} {i : Nat} {v : Byte} (h : i < l.length) :
    (l.set i v).getD i 0 = v := by
  rw [List.getD_eq_getElem?_getD, List.getElem?_set, if_pos rfl, if_pos h]
  rfl

theorem getD_eq_zero_of_ge {l : List Byte} {i : Nat} (h : l.length ≤ i) :
    l.getD i 0 = 0 := by
  rw [List.getD_eq_getElem?_getD, List.getElem?_eq_none h]
  rfl

/-- `set i 0` makes the byte at `i` read as 0, whether or not `i` is in range. -/
theorem getD_set_zero (l : List Byte) (i : Nat) : (l.set i 0).getD i 0 = 0 := by
  by_cases h : i < l.length
  · exact getD_set_self h
  · exact getD_eq_zero_of_ge (by simp only [List.length_set]; omega)

theorem take_eq_of_agree {X Y : List Byte} {k n : Nat} (hk : n ≤ k)
    (h : X.take k = Y.take k) : X.take n = Y.take n := by
  apply List.ext_getElem?
  intro j
  by_cases hj : j < n
  · rw [List.getElem?_take, List.getElem?_take, if_pos hj, if_pos hj]
    have := congrArg (fun l => l[j]?) h
    simpa [List.getElem?_take, if_pos (lt_of_lt_of_le hj hk)] using this
  · rw [List.getElem?_take, List.getElem?_take, if_neg hj, if_neg hj]

theorem getD_eq_of_take_eq {X Y : List Byte} {k j : Nat} (hj : j < k)
    (h : X.take k = Y.take k) : X.getD j 0 = Y.getD j 0 := by
  rw [← getD_take_of_lt hj (l := X), ← getD_take_of_lt hj (l := Y), h]

theorem take_set_of_le {l : List Byte} {i n : Nat} {v : Byte} (h : n ≤ i) :
    (l.set i v).take n = l.take n := by
  apply List.ext_getElem?
  intro j
  rw [List.getElem?_take, List.getElem?_take]
  by_cases hj : j < n
  · rw [if_pos hj, if_pos hj, List.getElem?_set_ne (by omega)]
  · rw [if_neg hj, if_neg hj]

theorem take_set_comm {l : List Byte} {i n : Nat} {v : Byte} (h : i < n) :
    (l.set i v).take n = (l.take n).set i v := by
  apply List.ext_getElem?
  intro j
  rw [List.getElem?_take]
  by_cases hj : j < n
  · rw [if_pos hj]
    by_cases hij : i = j
    · subst hij
      rw [List.getElem?_set, List.getElem?_set, if_pos rfl, if_pos rfl,
        List.length_take]
      by_cases hi : i < l.length
      · rw [if_pos hi, if_pos (by omega)]
      · rw [if_neg hi, if_neg (by omega)]
    · rw [List.getElem?_set_ne hij, List.getElem?_set_ne hij, List.getElem?_take, if_pos hj]
  · rw [if_neg hj, List.getElem?_set_ne (by omega), List.getElem?_take, if_neg hj]

theorem drop_set_of_lt' {l : List Byte} {i n : Nat} {v : Byte} (h : i < n) :
    (l.set i v).drop n = l.drop n :=
  List.drop_set_of_lt v l h

theorem drop_eq_of_agree {X Y : List Byte} {n : Nat} (hlen : X.length = Y.length)
    (h : ∀ t, n ≤ t → X.getD t 0 = Y.getD t 0) : X.drop n = Y.drop n := by
  apply List.ext_getElem?
  intro j
  rw [List.getElem?_drop, List.getElem?_drop]
  by_cases hr : n + j < X.length
  · have h1 := h (n + j) (by omega)
    rw [List.getD_eq_getElem?_getD, List.getD_eq_getElem?_getD,
        List.getElem?_eq_getElem hr, List.getElem?_eq_getElem (by omega)] at h1
    rw [List.getElem?_eq_getElem hr, List.getElem?_eq_getElem (by omega)]
    simpa using h1
  · rw [List.getElem?_eq_none (by omega), List.getElem?_eq_none (by omega)]

theorem take_drop_comm (l : List Byte) (p w : Nat) :
    (l.drop p).take w = (l.take (p + w)).drop p := by
  rw [List.drop_take]
  congr 1
  omega

/-! ## Scanner lemmas -/

theorem findSpec_nil (cfg : CsvConfig) : findSpec cfg [] = none := rfl

theorem findSpec_cons (cfg : CsvConfig) (b : Byte) (bs : List Byte) :
    findSpec cfg (b :: bs) =
      if specialb cfg b then some 0 else (findSpec cfg bs).map (· + 1) := rfl

theorem findSpec_some_lt {cfg : CsvConfig} {l : List Byte} {m : Nat}
    (h : findSpec cfg l = some m) : m < l.length := by
  induction l generalizing m with
  | nil => rw [findSpec_nil] at h; cases h
  | cons b bs ih =>
    rw [findSpec_cons] at h
    by_cases hb : specialb cfg b
    · rw [if_pos hb] at h
      cases h
      simp
    · rw [if_neg hb] at h
      cases hm : findSpec cfg bs with
      | none => rw [hm] at h; cases h
      | some m' =>
        rw [hm] at h
        simp only [Option.map_some'] at h
        cases h
        have := ih hm
        simp only [List.length_cons]
        omega

theorem findSpec_some_spec {cfg : CsvConfig} {l : List Byte} {m : Nat}
    (h : findSpec cfg l = some m) : specialb cfg (l.getD m 0) = true := by
  induction l generalizing m with
  | nil => rw [findSpec_nil] at h; cases h
  | cons b bs ih =>
    rw [findSpec_cons] at h
    by_cases hb : specialb cfg b
    · rw [if_pos hb] at h
      cases h
      simpa using hb
    · rw [if_neg hb] at h
      cases hm : findSpec cfg bs with
      | none => rw [hm] at h; cases h
      | some m' =>
        rw [hm] at h
        simp only [Option.map_some'] at h
        cases h
        simpa using ih hm

theorem findSpec_some_before {cfg : CsvConfig} {l : List Byte} {m : Nat}
    (h : findSpec cfg l = some m) :
    ∀ t, t < m → specialb cfg (l.getD t 0) = false := by
  induction l generalizing m with
  | nil => rw [findSpec_nil] at h; cases h
  | cons b bs ih =>
    rw [findSpec_cons] at h
    by_cases hb : specialb cfg b
    · rw [if_pos hb] at h
      cases h
      intro t ht
      omega
    · rw [if_neg hb] at h
      cases hm : findSpec cfg bs with
      | none => rw [hm] at h; cases h
      | some m' =>
        rw [hm] at h
        simp only [Option.map_some'] at h
        cases h
        intro t ht
        match t with
        | 0 => simpa using hb
        | t + 1 => simpa using ih hm t (by omega)

theorem findSpec_append_some {cfg : CsvConfig} {u v : List Byte} {m : Nat}
    (h : findSpec cfg u = some m) : findSpec cfg (u ++ v) = some m := by
  induction u generalizing m with
  | nil => rw [findSpec_nil] at h; cases h
  | cons b bs ih =>
    rw [findSpec_cons] at h
    rw [List.cons_append, findSpec_cons]
    by_cases hb : specialb cfg b
    · rw [if_pos hb] at h ⊢; exact h
    · rw [if_neg hb] at h ⊢
      cases hm : findSpec cfg bs with
      | none => rw [hm] at h; cases h
      | some m' =>
        rw [hm] at h
        rw [ih hm]
        exact h

theorem findSpec_append_none {cfg : CsvConfig} {u v : List Byte}
    (h : findSpec cfg u = none) :
    findSpec cfg (u ++ v) = (findSpec cfg v).map (· + u.length) := by
  induction u with
  | nil => simp
  | cons b bs ih =>
    rw [findSpec_cons] at h
    rw [List.cons_append, findSpec_cons]
    by_cases hb : specialb cfg b
    · rw [if_pos hb] at h; cases h
    · rw [if_neg hb] at h ⊢
      have hbs : findSpec cfg bs = none := by
        cases hm : findSpec cfg bs with
        | none => rfl
        | some m' => rw [hm] at h; cases h
      rw [ih hbs]
      cases findSpec cfg v with
      | none => simp
      | some m' =>
        simp only [Option.map_some', List.length_cons]
        congr 1

theorem findSpec_take_of_lt {cfg : CsvConfig} {l : List Byte} {m n : Nat}
    (h : findSpec cfg l = some m) (hm : m < n) :
    findSpec cfg (l.take n) = some m := by
  induction l generalizing m n with
  | nil => rw [findSpec_nil] at h; cases h
  | cons b bs ih =>
    rw [findSpec_cons] at h
    match n, hm with
    | n + 1, hm =>
      rw [List.take_succ_cons, findSpec_cons]
      by_cases hb : specialb cfg b
      · rw [if_pos hb] at h ⊢; exact h
      · rw [if_neg hb] at h ⊢
        cases hm' : findSpec cfg bs with
        | none => rw [hm'] at h; cases h
        | some m' =>
          rw [hm'] at h
          simp only [Option.map_some'] at h
          cases h
          rw [ih hm' (by omega)]
          rfl

theorem findSpec_prefix_some {cfg : CsvConfig} {u v : List Byte} {m : Nat}
    (h : findSpec cfg (u ++ v) = some m) (hm : m < u.length) :
    findSpec cfg u = some m := by
  have h2 := findSpec_take_of_lt h hm
  rwa [List.take_append_of_le_length (le_refl u.length), List.take_length] at h2

theorem scanNext_some_bounds {cfg : CsvConfig} {buf : List Byte} {i j : Nat}
    (h : scanNext cfg buf i = some j) : i ≤ j ∧ j < buf.length := by
  rw [scanNext] at h
  cases hm : findSpec cfg (buf.drop i) with
  | none => rw [hm] at h; cases h
  | some m =>
    rw [hm] at h
    simp only [Option.map_some'] at h
    cases h
    have := findSpec_some_lt hm
    rw [List.length_drop] at this
    omega

theorem scanNext_spec {cfg : CsvConfig} {buf : List Byte} {i j : Nat}
    (h : scanNext cfg buf i = some j) : specialb cfg (buf.getD j 0) = true := by
  rw [scanNext] at h
  cases hm : findSpec cfg (buf.drop i) with
  | none => rw [hm] at h; cases h
  | some m =>
    rw [hm] at h
    simp only [Option.map_some'] at h
    cases h
    have := findSpec_some_spec hm
    rwa [List.getD_eq_getElem?_getD, List.getElem?_drop, ← List.getD_eq_getElem?_getD] at this

theorem scanNext_before {cfg : CsvConfig} {buf : List Byte} {i j : Nat}
    (h : scanNext cfg buf i = some j) :
    ∀ t, i ≤ t → t < j → specialb cfg (buf.getD t 0) = false := by
  rw [scanNext] at h
  cases hm : findSpec cfg (buf.drop i) with
  | none => rw [hm] at h; cases h
  | some m =>
    rw [hm] at h
    simp only [Option.map_some'] at h
    cases h
    intro t hit htj
    have := findSpec_some_before hm (t - i) (by omega)
    rw [List.getD_eq_getElem?_getD, List.getElem?_drop, ← List.getD_eq_getElem?_getD] at this
    have harg : i + (t - i) = t := by omega
    rwa [harg] at this

theorem scanNext_none_of_ge {cfg : CsvConfig} {buf : List Byte} {i : Nat}
    (h : buf.length ≤ i) : scanNext cfg buf i = none := by
  rw [scanNext, List.drop_eq_nil_of_le h, findSpec_nil]
  rfl

theorem scanNext_append {cfg : CsvConfig} {P E : List Byte} {i j : Nat}
    (h : scanNext cfg P i = some j) (hi : i ≤ P.length) :
    scanNext cfg (P ++ E) i = some j := by
  rw [scanNext] at h ⊢
  rw [List.drop_append_of_le_length hi]
  cases hm : findSpec cfg (P.drop i) with
  | none => rw [hm] at h; cases h
  | some m =>
    rw [hm] at h
    rw [findSpec_append_some hm]
    exact h

theorem scanNext_append_none {cfg : CsvConfig} {P E : List Byte} {i : Nat}
    (h : scanNext cfg (P ++ E) i = none) (hi : i ≤ P.length) :
    scanNext cfg P i = none := by
  rw [scanNext] at h ⊢
  rw [List.drop_append_of_le_length hi] at h
  cases hm : findSpec cfg (P.drop i) with
  | none => rfl
  | some m =>
    rw [findSpec_append_some hm] at h
    cases h

theorem scanNext_prefix {cfg : CsvConfig} {P E : List Byte} {i j : Nat}
    (h : scanNext cfg (P ++ E) i = some j) (hj : j < P.length) (hi : i ≤ P.length) :
    scanNext cfg P i = some j := by
  rw [scanNext] at h ⊢
  rw [List.drop_append_of_le_length hi] at h
  cases hm : findSpec cfg (P.drop i ++ E) with
  | none => rw [hm] at h; cases h
  | some m =>
    rw [hm] at h
    simp only [Option.map_some'] at h
    cases h
    rw [findSpec_prefix_some hm (by rw [List.length_drop]; omega)]
    rfl

theorem scanNext_take {cfg : CsvConfig} {B : List Byte} {i j n : Nat}
    (h : scanNext cfg B i = some j) (hj : j < n) :
    scanNext cfg (B.take n) i = some j := by
  rw [scanNext] at h ⊢
  have hij : i ≤ j := by
    cases hm : findSpec cfg (B.drop i) with
    | none => rw [hm] at h; cases h
    | some m => rw [hm] at h; simp only [Option.map_some', Option.some.injEq] at h; omega
  rw [List.drop_take]
  cases hm : findSpec cfg (B.drop i) with
  | none => rw [hm] at h; cases h
  | some m =>
    rw [hm] at h
    simp only [Option.map_some'] at h
    cases h
    rw [findSpec_take_of_lt hm (by omega)]
    rfl

/-! ## Row state machine lemmas -/

theorem runFuel_zero (cfg : CsvConfig) (buf : List Byte) (s : MState)
    (i cno nline : Nat) (acc : List Field) :
    runFuel cfg buf 0 s i cno nline acc = .incomplete := rfl

theorem runFuel_fstart (cfg : CsvConfig) (buf : List Byte) (F i cno nline : Nat)
    (acc : List Field) :
    runFuel cfg buf (F + 1) .fstart i cno nline acc =
      match scanNext cfg buf i with
      | none => .incomplete
      | some j =>
        if j = i ∧ buf.getD j 0 = cfg.qte then
          runFuel cfg buf F (.quoted i none) (j + 1) cno nline acc
        else
          match finishStep cfg buf i j none false cno nline acc with
          | .out o => o
          | .nextField i' cno' nline' acc' => runFuel cfg buf F .fstart i' cno' nline' acc' := rfl

theorem runFuel_quoted (cfg : CsvConfig) (buf : List Byte) (F : Nat) (fs : Nat)
    (ep : Option Nat) (i cno nline : Nat) (acc : List Field) :
    runFuel cfg buf (F + 1) (.quoted fs ep) i cno nline acc =
      match scanNext cfg buf i with
      | none => .incomplete
      | some j =>
        if buf.getD j 0 = cfg.qte then
          match scanNext cfg buf (j + 1) with
          | none => .incomplete
          | some x =>
            if x ≠ j + 1 then .err .equote cno nline j
            else if cfg.esc = cfg.qte ∧ buf.getD x 0 = cfg.qte then
              runFuel cfg buf F (.quoted fs (some (ep.getD j))) (x + 1) cno nline acc
            else
              match finishStep cfg buf fs x ep true cno nline acc with
              | .out o => o
              | .nextField i' cno' nline' acc' => runFuel cfg buf F .fstart i' cno' nline' acc'
        else if buf.getD j 0 = cfg.esc then
          if buf.length ≤ j + 2 then .incomplete
          else runFuel cfg buf F (.quoted fs (some (ep.getD j))) (j + 2) cno nline acc
        else
          runFuel cfg buf F (.quoted fs ep) (j + 1) cno
            (nline + if buf.getD j 0 = 10 then 1 else 0) acc := rfl

theorem stepF_none {cfg : CsvConfig} {buf : List Byte} {F i cno nline : Nat}
    {acc : List Field} (hsn : scanNext cfg buf i = none) :
    runFuel cfg buf (F + 1) .fstart i cno nline acc = .incomplete := by
  rw [runFuel_fstart, hsn]

theorem stepF_some {cfg : CsvConfig} {buf : List Byte} {F i cno nline : Nat}
    {acc : List Field} {j : Nat} (hsn : scanNext cfg buf i = some j) :
    runFuel cfg buf (F + 1) .fstart i cno nline acc =
      if j = i ∧ buf.getD j 0 = cfg.qte then
        runFuel cfg buf F (.quoted i none) (j + 1) cno nline acc
      else
        match finishStep cfg buf i j none false cno nline acc with
        | .out o => o
        | .nextField i' cno' nline' acc' =>
          runFuel cfg buf F .fstart i' cno' nline' acc' := by
  rw [runFuel_fstart, hsn]

theorem stepQ_none {cfg : CsvConfig} {buf : List Byte} {F : Nat} {fs : Nat}
    {ep : Option Nat} {i cno nline : Nat} {acc : List Field}
    (hsn : scanNext cfg buf i = none) :
    runFuel cfg buf (F + 1) (.quoted fs ep) i cno nline acc = .incomplete := by
  rw [runFuel_quoted, hsn]

theorem stepQ_some {cfg : CsvConfig} {buf : List Byte} {F : Nat} {fs : Nat}
    {ep : Option Nat} {i cno nline : Nat} {acc : List Field} {j : Nat}
    (hsn : scanNext cfg buf i = some j) :
    runFuel cfg buf (F + 1) (.quoted fs ep) i cno nline acc =
      if buf.getD j 0 = cfg.qte then
        match scanNext cfg buf (j + 1) with
        | none => .incomplete
        | some x =>
          if x ≠ j + 1 then .err .equote cno nline j
          else if cfg.esc = cfg.qte ∧ buf.getD x 0 = cfg.qte then
            runFuel cfg buf F (.quoted fs (some (ep.getD j))) (x + 1) cno nline acc
          else
            match finishStep cfg buf fs x ep true cno nline acc with
            | .out o => o
            | .nextField i' cno' nline' acc' =>
              runFuel cfg buf F .fstart i' cno' nline' acc'
      else if buf.getD j 0 = cfg.esc then
        if buf.length ≤ j + 2 then .incomplete
        else runFuel cfg buf F (.quoted fs (some (ep.getD j))) (j + 2) cno nline acc
      else
        runFuel cfg buf F (.quoted fs ep) (j + 1) cno
          (nline + if buf.getD j 0 = 10 then 1 else 0) acc := by
  rw [runFuel_quoted, hsn]

/-- Complete case analysis of the `FINISH` block. -/
theorem finishStep_cases (cfg : CsvConfig) (buf : List Byte) (fs j : Nat)
    (ep : Option Nat) (qd : Bool) (cno nline : Nat) (acc : List Field) :
    (buf.getD j 0 = cfg.delim ∧
      finishStep cfg buf fs j ep qd cno nline acc =
        .nextField (j + 1) (cno + 1) nline (acc ++ [mkField qd fs j ep]))
    ∨ (buf.getD j 0 ≠ cfg.delim ∧ buf.getD j 0 = 10 ∧
      finishStep cfg buf fs j ep qd cno nline acc =
        .out (.complete (j + 1) (acc ++ [mkField qd fs j ep]) (nline + 1)))
    ∨ (buf.getD j 0 ≠ cfg.delim ∧ buf.getD j 0 ≠ 10 ∧ buf.getD j 0 = 13 ∧
      (j + 1 < buf.length ∧ buf.getD (j + 1) 0 = 10) ∧
      finishStep cfg buf fs j ep qd cno nline acc =
        .out (.complete (j + 2) (acc ++ [mkField qd fs j ep]) (nline + 1)))
    ∨ (buf.getD j 0 ≠ cfg.delim ∧ buf.getD j 0 ≠ 10 ∧ buf.getD j 0 = 13 ∧
      ¬(j + 1 < buf.length ∧ buf.getD (j + 1) 0 = 10) ∧
      finishStep cfg buf fs j ep qd cno nline acc =
        .out (.err .ecrlf (cno + 1) nline (j + 1)))
    ∨ (buf.getD j 0 ≠ cfg.delim ∧ buf.getD j 0 ≠ 10 ∧ buf.getD j 0 ≠ 13 ∧
      finishStep cfg buf fs j ep qd cno nline acc =
        .out (.err .ecrlf (cno + 1) nline (j + 1))) := by
  rw [finishStep]
  by_cases h1 : buf.getD j 0 = cfg.delim
  · left; exact ⟨h1, by rw [if_pos h1]⟩
  · rw [if_neg h1]
    by_cases h2 : buf.getD j 0 = 10
    · right; left; exact ⟨h1, h2, by rw [if_pos h2]⟩
    · rw [if_neg h2]
      by_cases h3 : buf.getD j 0 = 13
      · rw [if_pos h3]
        by_cases h4 : j + 1 < buf.length ∧ buf.getD (j + 1) 0 = 10
        · right; right; left; exact ⟨h1, h2, h3, h4, by rw [if_pos h4]⟩
        · right; right; right; left; exact ⟨h1, h2, h3, h4, by rw [if_neg h4]⟩
      · right; right; right; right; exact ⟨h1, h2, h3, by rw [if_neg h3]⟩

/-- Inversion for the `goto START_VAL` result of `FINISH`. -/
theorem finishStep_nextField_inv {cfg : CsvConfig} {buf : List Byte}
    {fs j : Nat} {ep : Option Nat} {qd : Bool} {cno nline : Nat}
    {acc : List Field} {i' cno' nline' : Nat} {acc' : List Field}
    (h : finishStep cfg buf fs j ep qd cno nline acc = .nextField i' cno' nline' acc') :
    i' = j + 1 ∧ cno' = cno + 1 ∧ nline' = nline ∧
      acc' = acc ++ [mkField qd fs j ep] ∧ buf.getD j 0 = cfg.delim := by
  rcases finishStep_cases cfg buf fs j ep qd cno nline acc with
    ⟨hd, hf⟩ | ⟨_, _, hf⟩ | ⟨_, _, _, _, hf⟩ | ⟨_, _, _, _, hf⟩ | ⟨_, _, _, hf⟩ <;>
    rw [hf] at h <;> cases h
  exact ⟨rfl, rfl, rfl, rfl, hd⟩

theorem getLast?_eq_getD {l : List Byte} (h : l ≠ []) :
    l.getLast? = some (l.getD (l.length - 1) 0) := by
  rw [List.getLast?_eq_getElem?, List.getD_eq_getElem?_getD]
  cases hl : l[l.length - 1]? with
  | none =>
    exfalso
    have h0 := List.getElem?_eq_none_iff.mp hl
    have : l.length = 0 := by omega
    exact h (List.eq_nil_of_length_eq_zero this)
  | some a => rfl

/-- Extending the buffer does not change the `FINISH` step at a terminator
inside the original buffer — except for the CR-at-the-very-end case, which the
boundary hypothesis excludes. -/
theorem finishStep_eq_append {cfg : CsvConfig} {P E : List Byte} {j : Nat}
    (hj : j < P.length) (hbd : ¬(P.getLast? = some 13 ∧ E.head? = some 10))
    (fs : Nat) (ep : Option Nat) (qd : Bool) (cno nline : Nat) (acc : List Field) :
    finishStep cfg (P ++ E) fs j ep qd cno nline acc =
      finishStep cfg P fs j ep qd cno nline acc := by
  have hg : (P ++ E).getD j 0 = P.getD j 0 := getD_append_left hj
  rw [finishStep, finishStep, hg]
  by_cases h1 : P.getD j 0 = cfg.delim
  · rw [if_pos h1, if_pos h1]
  · rw [if_neg h1, if_neg h1]
    by_cases h2 : P.getD j 0 = 10
    · rw [if_pos h2, if_pos h2]
    · rw [if_neg h2, if_neg h2]
      by_cases h3 : P.getD j 0 = 13
      · rw [if_pos h3, if_pos h3]
        by_cases h4 : j + 1 < P.length
        · have hg2 : (P ++ E).getD (j + 1) 0 = P.getD (j + 1) 0 := getD_append_left h4
          rw [hg2]
          by_cases h5 : P.getD (j + 1) 0 = 10
          · rw [if_pos ⟨by rw [List.length_append]; omega, h5⟩, if_pos ⟨h4, h5⟩]
          · rw [if_neg (by tauto), if_neg (by tauto)]
        · have hj1 : j + 1 = P.length := by omega
          have hP : ¬(j + 1 < P.length ∧ P.getD (j + 1) 0 = 10) :=
            fun hc => absurd hc.1 (by omega)
          cases E with
          | nil => simp only [List.append_nil]
          | cons e E' =>
            have hgB : (P ++ e :: E').getD (j + 1) 0 = e := by
              rw [List.getD_eq_getElem?_getD, List.getElem?_append_right (by omega), hj1]
              simp
            by_cases h5 : e = 10
            · exfalso
              apply hbd
              refine ⟨?_, by rw [h5]; rfl⟩
              rw [getLast?_eq_getD (by intro h0; rw [h0] at hj; simp at hj)]
              have heq : P.length - 1 = j := by omega
              rw [heq, h3]
            · have hB : ¬(j + 1 < (P ++ e :: E').length ∧ (P ++ e :: E').getD (j + 1) 0 = 10) := by
                intro hc
                rw [hgB] at hc
                exact h5 hc.2
              rw [if_neg hB, if_neg hP]
      · rw [if_neg h3, if_neg h3]

/-- The machine's result does not depend on the fuel once the fuel exceeds the
number of bytes that remain to be scanned. -/
theorem runFuel_fuel_irrel {cfg : CsvConfig} {buf : List Byte} :
    ∀ {F G : Nat} {s : MState} {i cno nline : Nat} {acc : List Field},
      buf.length < i + F → buf.length < i + G →
      runFuel cfg buf F s i cno nline acc = runFuel cfg buf G s i cno nline acc := by
  intro F
  induction F with
  | zero =>
    intro G s i cno nline acc hF hG
    have hsn : scanNext cfg buf i = none := scanNext_none_of_ge (by omega)
    rw [runFuel_zero]
    cases G with
    | zero => rw [runFuel_zero]
    | succ G =>
      cases s with
      | fstart => rw [stepF_none hsn]
      | quoted fs ep => rw [stepQ_none hsn]
  | succ F ih =>
    intro G s i cno nline acc hF hG
    cases G with
    | zero =>
      have hsn : scanNext cfg buf i = none := scanNext_none_of_ge (by omega)
      rw [runFuel_zero]
      cases s with
      | fstart => rw [stepF_none hsn]
      | quoted fs ep => rw [stepQ_none hsn]
    | succ G =>
      cases s with
      | fstart =>
        cases hsn : scanNext cfg buf i with
        | none => rw [stepF_none hsn, stepF_none hsn]
        | some j =>
          have hjb := scanNext_some_bounds hsn
          rw [stepF_some hsn, stepF_some hsn]
          by_cases hq : j = i ∧ buf.getD j 0 = cfg.qte
          · rw [if_pos hq, if_pos hq]
            exact ih (by omega) (by omega)
          · rw [if_neg hq, if_neg hq]
            cases hf : finishStep cfg buf i j none false cno nline acc with
            | out o => rfl
            | nextField i' cno' nline' acc' =>
              obtain ⟨hi', _, _, _, _⟩ := finishStep_nextField_inv hf
              subst hi'
              exact ih (by omega) (by omega)
      | quoted fs ep =>
        cases hsn : scanNext cfg buf i with
        | none => rw [stepQ_none hsn, stepQ_none hsn]
        | some j =>
          have hjb := scanNext_some_bounds hsn
          rw [stepQ_some hsn, stepQ_some hsn]
          by_cases hq : buf.getD j 0 = cfg.qte
          · rw [if_pos hq, if_pos hq]
            cases hsx : scanNext cfg buf (j + 1) with
            | none => rfl
            | some x =>
              have hxb := scanNext_some_bounds hsx
              dsimp only []
              by_cases hxx : x ≠ j + 1
              · rw [if_pos hxx, if_pos hxx]
              · rw [if_neg hxx, if_neg hxx]
                by_cases hdq : cfg.esc = cfg.qte ∧ buf.getD x 0 = cfg.qte
                · rw [if_pos hdq, if_pos hdq]
                  exact ih (by omega) (by omega)
                · rw [if_neg hdq, if_neg hdq]
                  cases hf : finishStep cfg buf fs x ep true cno nline acc with
                  | out o => rfl
                  | nextField i' cno' nline' acc' =>
                    obtain ⟨hi', _, _, _, _⟩ := finishStep_nextField_inv hf
                    subst hi'
                    exact ih (by omega) (by omega)
          · rw [if_neg hq, if_neg hq]
            by_cases he : buf.getD j 0 = cfg.esc
            · rw [if_pos he, if_pos he]
              by_cases hl : buf.length ≤ j + 2
              · rw [if_pos hl, if_pos hl]
              · rw [if_neg hl, if_neg hl]
                exact ih (by omega) (by omega)
            · rw [if_neg he, if_neg he]
              exact ih (by omega) (by omega)

/-- Running the machine on a prefix `P` of a longer buffer either agrees with
the long-buffer run (same fuel, lock-step) or yields `incomplete`, provided the
boundary between `P` and the extension does not separate a CR from a following
LF. -/
theorem runFuel_prefix {cfg : CsvConfig} {P E : List Byte}
    (hbd : ¬(P.getLast? = some 13 ∧ E.head? = some 10)) :
    ∀ {F : Nat} {s : MState} {i cno nline : Nat} {acc : List Field},
      i ≤ P.length →
      runFuel cfg P F s i cno nline acc = runFuel cfg (P ++ E) F s i cno nline acc ∨
      runFuel cfg P F s i cno nline acc = .incomplete := by
  intro F
  induction F with
  | zero =>
    intro s i cno nline acc hi
    right
    rw [runFuel_zero]
  | succ F ih =>
    intro s i cno nline acc hi
    cases s with
    | fstart =>
      cases hsn : scanNext cfg P i with
      | none => right; exact stepF_none hsn
      | some j =>
        have hjb := scanNext_some_bounds hsn
        have hsnB := scanNext_append (E := E) hsn hi
        rw [stepF_some hsn, stepF_some hsnB]
        have hg : (P ++ E).getD j 0 = P.getD j 0 := getD_append_left hjb.2
        rw [hg]
        by_cases hq : j = i ∧ P.getD j 0 = cfg.qte
        · rw [if_pos hq, if_pos hq]
          exact ih (by omega)
        · rw [if_neg hq, if_neg hq]
          rw [finishStep_eq_append hjb.2 hbd]
          cases hf : finishStep cfg P i j none false cno nline acc with
          | out o => left; rfl
          | nextField i' cno' nline' acc' =>
            obtain ⟨hi', _, _, _, _⟩ := finishStep_nextField_inv hf
            subst hi'
            exact ih (by omega)
    | quoted fs ep =>
      cases hsn : scanNext cfg P i with
      | none => right; exact stepQ_none hsn
      | some j =>
        have hjb := scanNext_some_bounds hsn
        have hsnB := scanNext_append (E := E) hsn hi
        rw [stepQ_some hsn, stepQ_some hsnB]
        have hg : (P ++ E).getD j 0 = P.getD j 0 := getD_append_left hjb.2
        rw [hg]
        by_cases hq : P.getD j 0 = cfg.qte
        · rw [if_pos hq, if_pos hq]
          cases hsx : scanNext cfg P (j + 1) with
          | none => right; rfl
          | some x =>
            have hxb := scanNext_some_bounds hsx
            have hsxB := scanNext_append (E := E) hsx (by omega)
            rw [hsxB]
            dsimp only []
            by_cases hxx : x ≠ j + 1
            · rw [if_pos hxx, if_pos hxx]
              left
              rfl
            · rw [if_neg hxx, if_neg hxx]
              have hgx : (P ++ E).getD x 0 = P.getD x 0 := getD_append_left hxb.2
              rw [hgx]
              by_cases hdq : cfg.esc = cfg.qte ∧ P.getD x 0 = cfg.qte
              · rw [if_pos hdq, if_pos hdq]
                exact ih (by omega)
              · rw [if_neg hdq, if_neg hdq]
                rw [finishStep_eq_append hxb.2 hbd]
                cases hf : finishStep cfg P fs x ep true cno nline acc with
                | out o => left; rfl
                | nextField i' cno' nline' acc' =>
                  obtain ⟨hi', _, _, _, _⟩ := finishStep_nextField_inv hf
                  subst hi'
                  exact ih (by omega)
        · rw [if_neg hq, if_neg hq]
          by_cases he : P.getD j 0 = cfg.esc
          · rw [if_pos he, if_pos he]
            by_cases hl : P.length ≤ j + 2
            · rw [if_pos hl]
              right
              rfl
            · rw [if_neg hl, if_neg (by rw [List.length_append]; omega)]
              exact ih (by omega)
          · rw [if_neg he, if_neg he]
            exact ih (by omega)

/-- Basic facts about a completed row: the consumed count exceeds the current
position and fits the buffer, the line count grew, fields were added. -/
theorem runFuel_complete_facts {cfg : CsvConfig} {buf : List Byte} :
    ∀ {F : Nat} {s : MState} {i cno nline : Nat} {acc : List Field}
      {k : Nat} {f : List Field} {nl : Nat},
      runFuel cfg buf F s i cno nline acc = .complete k f nl →
      i < k ∧ k ≤ buf.length ∧ nline < nl ∧ acc.length < f.length := by
  intro F
  induction F with
  | zero =>
    intro s i cno nline acc k f nl h
    rw [runFuel_zero] at h
    cases h
  | succ F ih =>
    intro s i cno nline acc k f nl h
    cases s with
    | fstart =>
      rw [runFuel_fstart] at h
      split at h
      · cases h
      · rename_i j hsn
        have hjb := scanNext_some_bounds hsn
        split at h
        · have := ih h
          omega
        · split at h
          · -- finishStep returned .out o
            rename_i o heq
            subst h
            rcases finishStep_cases cfg buf i j none false cno nline acc with
              ⟨_, hf⟩ | ⟨_, _, hf⟩ | ⟨_, _, _, hcr, hf⟩ | ⟨_, _, _, _, hf⟩ | ⟨_, _, _, hf⟩ <;>
              rw [hf] at heq <;> cases heq
            · simp only [List.length_append, List.length_cons, List.length_nil]
              omega
            · simp only [List.length_append, List.length_cons, List.length_nil]
              omega
          · -- finishStep returned .nextField
            rename_i i' cno' nline' acc' heq
            rcases finishStep_cases cfg buf i j none false cno nline acc with
              ⟨_, hf⟩ | ⟨_, _, hf⟩ | ⟨_, _, _, hcr, hf⟩ | ⟨_, _, _, _, hf⟩ | ⟨_, _, _, hf⟩ <;>
              rw [hf] at heq <;> cases heq
            have := ih h
            simp only [List.length_append, List.length_cons, List.length_nil] at this
            omega
    | quoted fs ep =>
      rw [runFuel_quoted] at h
      split at h
      · cases h
      · rename_i j hsn
        have hjb := scanNext_some_bounds hsn
        split at h
        · -- quote byte at j
          split at h
          · cases h
          · rename_i x hsx
            have hxb := scanNext_some_bounds hsx
            split at h
            · cases h
            · rename_i hxx
              split at h
              · have := ih h
                omega
              · split at h
                · rename_i o heq
                  subst h
                  rcases finishStep_cases cfg buf fs x ep true cno nline acc with
                    ⟨_, hf⟩ | ⟨_, _, hf⟩ | ⟨_, _, _, hcr, hf⟩ | ⟨_, _, _, _, hf⟩ | ⟨_, _, _, hf⟩ <;>
                    rw [hf] at heq <;> cases heq
                  · simp only [List.length_append, List.length_cons, List.length_nil]
                    omega
                  · simp only [List.length_append, List.length_cons, List.length_nil]
                    omega
                · rename_i i' cno' nline' acc' heq
                  rcases finishStep_cases cfg buf fs x ep true cno nline acc with
                    ⟨_, hf⟩ | ⟨_, _, hf⟩ | ⟨_, _, _, hcr, hf⟩ | ⟨_, _, _, _, hf⟩ | ⟨_, _, _, hf⟩ <;>
                    rw [hf] at heq <;> cases heq
                  have := ih h
                  simp only [List.length_append, List.length_cons, List.length_nil] at this
                  omega
        · split at h
          · -- escape byte at j
            split at h
            · cases h
            · have := ih h
              omega
          · -- literal special byte inside the quoted field
            have hni : nline ≤ nline + (if buf.getD j 0 = 10 then 1 else 0) := by
              split <;> omega
            have := ih h
            omega

/-- A completed row is determined by the bytes it consumed: truncating the
buffer anywhere at or beyond the consumed count leaves the result unchanged
(same fuel, lock-step). -/
theorem runFuel_take {cfg : CsvConfig} {B : List Byte} {n : Nat} :
    ∀ {F : Nat} {s : MState} {i cno nline : Nat} {acc : List Field}
      {k : Nat} {f : List Field} {nl : Nat},
      runFuel cfg B F s i cno nline acc = .complete k f nl → k ≤ n →
      runFuel cfg (B.take n) F s i cno nline acc = .complete k f nl := by
  intro F
  induction F with
  | zero =>
    intro s i cno nline acc k f nl h _
    rw [runFuel_zero] at h
    cases h
  | succ F ih =>
    intro s i cno nline acc k f nl h hk
    cases s with
    | fstart =>
      rw [runFuel_fstart] at h
      split at h
      · cases h
      · rename_i j hsn
        have hjb := scanNext_some_bounds hsn
        split at h
        · rename_i hq
          have hfacts := runFuel_complete_facts h
          have hsnT := scanNext_take (n := n) hsn (by omega)
          rw [stepF_some hsnT,
            if_pos ⟨hq.1, by rw [getD_take_of_lt (show j < n by omega)]; exact hq.2⟩]
          exact ih h hk
        · rename_i hq
          have hqT : ¬(j = i ∧ (B.take n).getD j 0 = cfg.qte) → True := fun _ => trivial
          split at h
          · rename_i o heq
            subst h
            rcases finishStep_cases cfg B i j none false cno nline acc with
              ⟨_, hf⟩ | ⟨hnd, h10, hf⟩ | ⟨hnd, hn10, h13, hcr, hf⟩ |
              ⟨_, _, _, _, hf⟩ | ⟨_, _, _, hf⟩ <;>
              rw [hf] at heq <;> cases heq
            · -- LF termination, k = j + 1
              have hsnT := scanNext_take (n := n) hsn (by omega)
              rw [stepF_some hsnT,
                if_neg (fun hc => hq ⟨hc.1, by rw [getD_take_of_lt (show j < n by omega)] at hc; exact hc.2⟩)]
              have hft : finishStep cfg (B.take n) i j none false cno nline acc =
                  .out (.complete (j + 1) (acc ++ [mkField false i j none]) (nline + 1)) := by
                rw [finishStep, getD_take_of_lt (show j < n by omega)]
                rw [if_neg hnd, if_pos h10]
              simp only [hft]
            · -- CRLF termination, k = j + 2
              have hsnT := scanNext_take (n := n) hsn (by omega)
              rw [stepF_some hsnT,
                if_neg (fun hc => hq ⟨hc.1, by rw [getD_take_of_lt (show j < n by omega)] at hc; exact hc.2⟩)]
              have hft : finishStep cfg (B.take n) i j none false cno nline acc =
                  .out (.complete (j + 2) (acc ++ [mkField false i j none]) (nline + 1)) := by
                rw [finishStep, getD_take_of_lt (show j < n by omega)]
                rw [if_neg hnd, if_neg hn10, if_pos h13,
                  if_pos ⟨by rw [List.length_take]; omega,
                    by rw [getD_take_of_lt (show j + 1 < n by omega)]; exact hcr.2⟩]
              simp only [hft]
          · rename_i i' cno' nline' acc' heq
            obtain ⟨hi', hcno', hnl', hacc', hd⟩ := finishStep_nextField_inv heq
            have hfacts := runFuel_complete_facts h
            have hsnT := scanNext_take (n := n) hsn (by omega)
            rw [stepF_some hsnT,
              if_neg (fun hc => hq ⟨hc.1, by rw [getD_take_of_lt (show j < n by omega)] at hc; exact hc.2⟩)]
            have hft : finishStep cfg (B.take n) i j none false cno nline acc =
                .nextField i' cno' nline' acc' := by
              rw [finishStep, getD_take_of_lt (show j < n by omega), if_pos hd, hi', hcno', hnl', hacc']
            simp only [hft]
            exact ih h hk
    | quoted fs ep =>
      rw [runFuel_quoted] at h
      split at h
      · cases h
      · rename_i j hsn
        have hjb := scanNext_some_bounds hsn
        split at h
        · rename_i hq
          split at h
          · cases h
          · rename_i x hsx
            have hxb := scanNext_some_bounds hsx
            split at h
            · cases h
            · rename_i hxx
              split at h
              · rename_i hdq
                have hfacts := runFuel_complete_facts h
                have hsnT := scanNext_take (n := n) hsn (by omega)
                have hsxT := scanNext_take (n := n) hsx (by omega)
                rw [stepQ_some hsnT, if_pos (by rw [getD_take_of_lt (show j < n by omega)]; exact hq),
                  hsxT]
                dsimp only []
                rw [if_neg hxx,
                  if_pos ⟨hdq.1, by rw [getD_take_of_lt (show x < n by omega)]; exact hdq.2⟩]
                exact ih h hk
              · rename_i hdq
                split at h
                · rename_i o heq
                  subst h
                  rcases finishStep_cases cfg B fs x ep true cno nline acc with
                    ⟨_, hf⟩ | ⟨hnd, h10, hf⟩ | ⟨hnd, hn10, h13, hcr, hf⟩ |
                    ⟨_, _, _, _, hf⟩ | ⟨_, _, _, hf⟩ <;>
                    rw [hf] at heq <;> cases heq
                  · have hsnT := scanNext_take (n := n) hsn (by omega)
                    have hsxT := scanNext_take (n := n) hsx (by omega)
                    rw [stepQ_some hsnT,
                      if_pos (by rw [getD_take_of_lt (show j < n by omega)]; exact hq), hsxT]
                    dsimp only []
                    rw [if_neg hxx,
                      if_neg (fun hc => hdq ⟨hc.1, by rw [getD_take_of_lt (show x < n by omega)] at hc; exact hc.2⟩)]
                    have hft : finishStep cfg (B.take n) fs x ep true cno nline acc =
                        .out (.complete (x + 1) (acc ++ [mkField true fs x ep]) (nline + 1)) := by
                      rw [finishStep, getD_take_of_lt (show x < n by omega)]
                      rw [if_neg hnd, if_pos h10]
                    simp only [hft]
                  · have hsnT := scanNext_take (n := n) hsn (by omega)
                    have hsxT := scanNext_take (n := n) hsx (by omega)
                    rw [stepQ_some hsnT,
                      if_pos (by rw [getD_take_of_lt (show j < n by omega)]; exact hq), hsxT]
                    dsimp only []
                    rw [if_neg hxx,
                      if_neg (fun hc => hdq ⟨hc.1, by rw [getD_take_of_lt (show x < n by omega)] at hc; exact hc.2⟩)]
                    have hft : finishStep cfg (B.take n) fs x ep true cno nline acc =
                        .out (.complete (x + 2) (acc ++ [mkField true fs x ep]) (nline + 1)) := by
                      rw [finishStep, getD_take_of_lt (show x < n by omega)]
                      rw [if_neg hnd, if_neg hn10, if_pos h13,
                        if_pos ⟨by rw [List.length_take]; omega,
                          by rw [getD_take_of_lt (show x + 1 < n by omega)]; exact hcr.2⟩]
                    simp only [hft]
                · rename_i i' cno' nline' acc' heq
                  obtain ⟨hi', hcno', hnl', hacc', hd⟩ := finishStep_nextField_inv heq
                  have hfacts := runFuel_complete_facts h
                  have hsnT := scanNext_take (n := n) hsn (by omega)
                  have hsxT := scanNext_take (n := n) hsx (by omega)
                  rw [stepQ_some hsnT,
                    if_pos (by rw [getD_take_of_lt (show j < n by omega)]; exact hq), hsxT]
                  dsimp only []
                  rw [if_neg hxx,
                    if_neg (fun hc => hdq ⟨hc.1, by rw [getD_take_of_lt (show x < n by omega)] at hc; exact hc.2⟩)]
                  have hft : finishStep cfg (B.take n) fs x ep true cno nline acc =
                      .nextField i' cno' nline' acc' := by
                    rw [finishStep, getD_take_of_lt (show x < n by omega), if_pos hd, hi', hcno', hnl', hacc']
                  simp only [hft]
                  exact ih h hk
        · rename_i hq
          split at h
          · rename_i he
            split at h
            · cases h
            · rename_i hl
              have hfacts := runFuel_complete_facts h
              have hsnT := scanNext_take (n := n) hsn (by omega)
              rw [stepQ_some hsnT,
                if_neg (by rw [getD_take_of_lt (show j < n by omega)]; exact hq),
                if_pos (by rw [getD_take_of_lt (show j < n by omega)]; exact he),
                if_neg (by rw [List.length_take]; omega)]
              exact ih h hk
          · rename_i he
            have hfacts := runFuel_complete_facts h
            have hsnT := scanNext_take (n := n) hsn (by omega)
            rw [stepQ_some hsnT,
              if_neg (by rw [getD_take_of_lt (show j < n by omega)]; exact hq),
              if_neg (by rw [getD_take_of_lt (show j < n by omega)]; exact he),
              getD_take_of_lt (show j < n by omega)]
            exact ih h hk

/-! ## Structure of the recorded fields -/

/-- A field descriptor is bounded by the consumed byte count `k`: its span ends
strictly before `k`, and a recorded escape position lies inside the span with
at least one byte after it. -/
def FBounded (k : Nat) (g : Field) : Prop :=
  g.start + g.len < k ∧ ∀ e, g.escptr = some e → g.start ≤ e ∧ e + 1 < g.start + g.len

/-- Fields in parse order: each starts at or after `lo`, and the next starts
strictly after the previous span and its terminator. -/
def FChain (lo : Nat) : List Field → Prop
  | [] => True
  | g :: gs => lo ≤ g.start ∧ FChain (g.start + g.len + 1) gs

theorem FChain_nil (lo : Nat) : FChain lo [] := trivial

theorem FChain_mono {lo lo' : Nat} {l : List Field} (h : FChain lo l) (hle : lo' ≤ lo) :
    FChain lo' l := by
  cases l with
  | nil => trivial
  | cons g gs => exact ⟨by have := h.1; omega, h.2⟩

/-- Lower bound for the start position at the current machine state. -/
def stateLo : MState → Nat → Nat
  | .fstart, i => i
  | .quoted fs _, _ => fs + 1

@[simp] theorem stateLo_fstart (i : Nat) : stateLo .fstart i = i := rfl

@[simp] theorem stateLo_quoted (fs : Nat) (ep : Option Nat) (i : Nat) :
    stateLo (.quoted fs ep) i = fs + 1 := rfl

/-- Invariant carried by the machine state: inside a quoted field the content
starts at `fs + 1 ≤ i`, and a recorded escape position lies inside the content
scanned so far. -/
def statePre : MState → Nat → Prop
  | .fstart, _ => True
  | .quoted fs ep, i => fs + 1 ≤ i ∧ ∀ e, ep = some e → fs + 1 ≤ e ∧ e + 1 < i

/-- The fields of a completed row extend the accumulator by an ordered chain of
`k`-bounded fields. -/
theorem runFuel_complete_struct {cfg : CsvConfig} {buf : List Byte} :
    ∀ {F : Nat} {s : MState} {i cno nline : Nat} {acc : List Field}
      {k : Nat} {f : List Field} {nl : Nat},
      runFuel cfg buf F s i cno nline acc = .complete k f nl →
      statePre s i →
      ∃ ext, f = acc ++ ext ∧ FChain (stateLo s i) ext ∧ ∀ g ∈ ext, FBounded k g := by
  intro F
  induction F with
  | zero =>
    intro s i cno nline acc k f nl h _
    rw [runFuel_zero] at h
    cases h
  | succ F ih =>
    intro s i cno nline acc k f nl h hpre
    cases s with
    | fstart =>
      rw [runFuel_fstart] at h
      split at h
      · cases h
      · rename_i j hsn
        have hjb := scanNext_some_bounds hsn
        split at h
        · rename_i hq
          obtain ⟨ext, hf, hch, hbd⟩ := ih h ⟨by omega, by intro e he; cases he⟩
          refine ⟨ext, hf, FChain_mono hch ?_, hbd⟩
          simp only [stateLo_fstart, stateLo_quoted]
          omega
        · rename_i hq
          split at h
          · rename_i o heq
            subst h
            rcases finishStep_cases cfg buf i j none false cno nline acc with
              ⟨_, hf2⟩ | ⟨_, _, hf2⟩ | ⟨_, _, _, hcr, hf2⟩ | ⟨_, _, _, _, hf2⟩ | ⟨_, _, _, hf2⟩ <;>
              rw [hf2] at heq <;> cases heq
            · refine ⟨[mkField false i j none], rfl, ⟨le_rfl, trivial⟩, ?_⟩
              intro g hg
              rw [List.mem_singleton] at hg
              subst hg
              refine ⟨?_, ?_⟩
              · show i + (j - i) < j + 1
                omega
              · intro e he
                cases he
            · refine ⟨[mkField false i j none], rfl, ⟨le_rfl, trivial⟩, ?_⟩
              intro g hg
              rw [List.mem_singleton] at hg
              subst hg
              refine ⟨?_, ?_⟩
              · show i + (j - i) < j + 2
                omega
              · intro e he
                cases he
          · rename_i i' cno' nline' acc' heq
            obtain ⟨hi', hcno', hnl', hacc', hd⟩ := finishStep_nextField_inv heq
            have hfacts := runFuel_complete_facts h
            obtain ⟨ext', hf, hch, hbd⟩ := ih h trivial
            simp only [stateLo_fstart] at hch
            refine ⟨mkField false i j none :: ext', ?_, ?_, ?_⟩
            · rw [hf, hacc', List.append_assoc, List.singleton_append]
            · refine ⟨le_rfl, ?_⟩
              show FChain (i + (j - i) + 1) ext'
              have hlo : i + (j - i) + 1 = i' := by omega
              rw [hlo]
              exact hch
            · intro g hg
              rcases List.mem_cons.mp hg with hg | hg
              · subst hg
                refine ⟨?_, ?_⟩
                · show i + (j - i) < k
                  omega
                · intro e he
                  cases he
              · exact hbd g hg
    | quoted fs ep =>
      rw [runFuel_quoted] at h
      obtain ⟨hfs, hep⟩ := hpre
      split at h
      · cases h
      · rename_i j hsn
        have hjb := scanNext_some_bounds hsn
        split at h
        · rename_i hq
          split at h
          · cases h
          · rename_i x hsx
            have hxb := scanNext_some_bounds hsx
            split at h
            · cases h
            · rename_i hxx
              have hxj : x = j + 1 := by omega
              split at h
              · rename_i hdq
                have hpre' : statePre (.quoted fs (some (ep.getD j))) (x + 1) := by
                  refine ⟨by omega, ?_⟩
                  intro e he
                  injection he with he
                  subst he
                  cases hee : ep with
                  | none => simp only [hee, Option.getD_none]; omega
                  | some e0 =>
                    have := hep e0 hee
                    simp only [hee, Option.getD_some]
                    omega
                obtain ⟨ext, hf, hch, hbd⟩ := ih h hpre'
                exact ⟨ext, hf, hch, hbd⟩
              · rename_i hdq
                split at h
                · rename_i o heq
                  subst h
                  rcases finishStep_cases cfg buf fs x ep true cno nline acc with
                    ⟨_, hf2⟩ | ⟨_, _, hf2⟩ | ⟨_, _, _, hcr, hf2⟩ | ⟨_, _, _, _, hf2⟩ | ⟨_, _, _, hf2⟩ <;>
                    rw [hf2] at heq <;> cases heq
                  · refine ⟨[mkField true fs x ep], rfl, ⟨le_rfl, trivial⟩, ?_⟩
                    intro g hg
                    rw [List.mem_singleton] at hg
                    subst hg
                    refine ⟨?_, ?_⟩
                    · show fs + 1 + (x - fs - 2) < x + 1
                      omega
                    · intro e he
                      have := hep e he
                      show fs + 1 ≤ e ∧ e + 1 < fs + 1 + (x - fs - 2)
                      omega
                  · refine ⟨[mkField true fs x ep], rfl, ⟨le_rfl, trivial⟩, ?_⟩
                    intro g hg
                    rw [List.mem_singleton] at hg
                    subst hg
                    refine ⟨?_, ?_⟩
                    · show fs + 1 + (x - fs - 2) < x + 2
                      omega
                    · intro e he
                      have := hep e he
                      show fs + 1 ≤ e ∧ e + 1 < fs + 1 + (x - fs - 2)
                      omega
                · rename_i i' cno' nline' acc' heq
                  obtain ⟨hi', hcno', hnl', hacc', hd⟩ := finishStep_nextField_inv heq
                  have hfacts := runFuel_complete_facts h
                  obtain ⟨ext', hf, hch, hbd⟩ := ih h trivial
                  simp only [stateLo_fstart] at hch
                  refine ⟨mkField true fs x ep :: ext', ?_, ?_, ?_⟩
                  · rw [hf, hacc', List.append_assoc, List.singleton_append]
                  · refine ⟨le_rfl, ?_⟩
                    show FChain (fs + 1 + (x - fs - 2) + 1) ext'
                    rw [hi'] at hch
                    exact FChain_mono hch (by omega)
                  · intro g hg
                    rcases List.mem_cons.mp hg with hg | hg
                    · subst hg
                      refine ⟨?_, ?_⟩
                      · show fs + 1 + (x - fs - 2) < k
                        omega
                      · intro e he
                        have := hep e he
                        show fs + 1 ≤ e ∧ e + 1 < fs + 1 + (x - fs - 2)
                        omega
                    · exact hbd g hg
        · rename_i hq
          split at h
          · rename_i he'
            split at h
            · cases h
            · rename_i hl
              have hpre' : statePre (.quoted fs (some (ep.getD j))) (j + 2) := by
                refine ⟨by omega, ?_⟩
                intro e he
                injection he with he
                subst he
                cases hee : ep with
                | none => simp only [hee, Option.getD_none]; omega
                | some e0 =>
                  have := hep e0 hee
                  simp only [hee, Option.getD_some]
                  omega
              obtain ⟨ext, hf, hch, hbd⟩ := ih h hpre'
              exact ⟨ext, hf, hch, hbd⟩
          · rename_i he'
            have hpre' : statePre (.quoted fs ep) (j + 1) := by
              refine ⟨by omega, ?_⟩
              intro e he
              have := hep e he
              omega
            obtain ⟨ext, hf, hch, hbd⟩ := ih h hpre'
            exact ⟨ext, hf, hch, hbd⟩

/-! ## Frame lemmas for the finalization primitives -/

theorem findQE_nil (cfg : CsvConfig) : findQE cfg [] = none := rfl

theorem findQE_cons (cfg : CsvConfig) (b : Byte) (bs : List Byte) :
    findQE cfg (b :: bs) =
      if b = cfg.qte ∨ b = cfg.esc then some 0 else (findQE cfg bs).map (· + 1) := rfl

theorem findQE_some_lt {cfg : CsvConfig} {l : List Byte} {m : Nat}
    (h : findQE cfg l = some m) : m < l.length := by
  induction l generalizing m with
  | nil => rw [findQE_nil] at h; cases h
  | cons b bs ih =>
    rw [findQE_cons] at h
    by_cases hb : b = cfg.qte ∨ b = cfg.esc
    · rw [if_pos hb] at h
      cases h
      simp
    · rw [if_neg hb] at h
      cases hm : findQE cfg bs with
      | none => rw [hm] at h; cases h
      | some m' =>
        rw [hm] at h
        simp only [Option.map_some'] at h
        cases h
        have := ih hm
        simp only [List.length_cons]
        omega

theorem copyBytes_length (buf : List Byte) (s p n : Nat) :
    (copyBytes buf s p n).length = buf.length := by
  induction n generalizing buf s p with
  | zero => rfl
  | succ n ih => rw [copyBytes, ih, List.length_set]

theorem copyBytes_getD_frame (buf : List Byte) (s p n : Nat) (t : Nat)
    (ht : t < s ∨ s + n ≤ t) : (copyBytes buf s p n).getD t 0 = buf.getD t 0 := by
  induction n generalizing buf s p with
  | zero => rfl
  | succ n ih =>
    rw [copyBytes, ih _ _ _ (by omega), getD_set_ne (by omega)]

theorem copyBytes_take_frame (buf : List Byte) (s p n : Nat) (lo : Nat)
    (hlo : lo ≤ s) : (copyBytes buf s p n).take lo = buf.take lo := by
  induction n generalizing buf s p with
  | zero => rfl
  | succ n ih =>
    rw [copyBytes, ih _ _ _ (by omega), take_set_of_le (by omega)]

theorem copyBytes_getD_read (buf : List Byte) (s p n : Nat)
    (hsp : s ≤ p) (hin : s + n ≤ buf.length) :
    ∀ t, t < n → (copyBytes buf s p n).getD (s + t) 0 = buf.getD (p + t) 0 := by
  induction n generalizing buf s p with
  | zero => intro t ht; omega
  | succ n ih =>
    intro t ht
    rw [copyBytes]
    match t with
    | 0 =>
      rw [copyBytes_getD_frame _ _ _ _ _ (by omega)]
      simp only [Nat.add_zero]
      exact getD_set_self (by omega)
    | t + 1 =>
      have := ih (buf.set s (buf.getD p 0)) (s + 1) (p + 1)
        (by omega) (by rw [List.length_set]; omega) t (by omega)
      have harg1 : s + 1 + t = s + (t + 1) := by omega
      have harg2 : p + 1 + t = p + (t + 1) := by omega
      rw [harg1, harg2] at this
      rw [this, getD_set_ne (by omega)]

theorem copyTilZero_length (fuel : Nat) (buf : List Byte) (s p : Nat) :
    (copyTilZero buf s p fuel).1.length = buf.length := by
  induction fuel generalizing buf s p with
  | zero => rfl
  | succ fuel ih =>
    rw [copyTilZero]
    split
    · rfl
    · rw [ih, List.length_set]

/-- Frame for the C-string tail copy: with a NUL at `q` (and the write cursor
strictly behind the read cursor), all writes stay within `[s, q)` and the final
write position stays at or before `q`. -/
theorem copyTilZero_frame (fuel : Nat) (buf : List Byte) (s p q : Nat)
    (hsp : s < p) (hpq : p ≤ q) (hz : buf.getD q 0 = 0) :
    s ≤ (copyTilZero buf s p fuel).2 ∧ (copyTilZero buf s p fuel).2 ≤ s + (q - p) ∧
    ∀ t, (t < s ∨ q ≤ t) → (copyTilZero buf s p fuel).1.getD t 0 = buf.getD t 0 := by
  induction fuel generalizing buf s p with
  | zero => exact ⟨le_rfl, Nat.le_add_right s (q - p), fun t _ => rfl⟩
  | succ fuel ih =>
    rw [copyTilZero]
    by_cases h0 : buf.getD p 0 = 0
    · rw [if_pos h0]
      exact ⟨le_rfl, Nat.le_add_right s (q - p), fun t _ => rfl⟩
    · rw [if_neg h0]
      have hplt : p < q := by
        rcases Nat.lt_or_ge p q with h | h
        · exact h
        · have : p = q := by omega
          rw [this] at h0
          exact absurd hz h0
      have hz' : (buf.set s (buf.getD p 0)).getD q 0 = 0 := by
        rw [getD_set_ne (by omega)]
        exact hz
      obtain ⟨h1, h2, h3⟩ := ih (buf.set s (buf.getD p 0)) (s + 1) (p + 1)
        (by omega) (by omega) hz'
      refine ⟨by omega, by omega, ?_⟩
      intro t ht
      rw [h3 t (by omega), getD_set_ne (by omega)]

theorem squeezeLoop_length (cfg : CsvConfig) (fuel : Nat) (buf : List Byte)
    (s p q : Nat) : (squeezeLoop cfg fuel buf s p q).1.length = buf.length := by
  induction fuel generalizing buf s p with
  | zero => rfl
  | succ fuel ih =>
    rw [squeezeLoop]
    split
    · rfl
    · split
      · split
        · rw [ih, copyBytes_length]
        · rw [copyTilZero_length]
      · rw [ih, List.length_set, copyBytes_length]

/-- The first quote/escape offset returned by the window search is within the
window when it is not the no-match sentinel 16. -/
theorem cutWindow_lt_of_ne (cfg : CsvConfig) (buf : List Byte) (p q : Nat)
    (h : cutWindow cfg buf p q ≠ 16) :
    cutWindow cfg buf p q < min 16 (q - p) := by
  rw [cutWindow] at h ⊢
  cases hm : findQE cfg ((buf.drop p).take (min 16 (q - p))) with
  | none =>
    rw [hm] at h
    exact absurd rfl h
  | some m =>
    rw [hm] at h
    have h' : m ≠ 16 := h
    have hlt := findQE_some_lt hm
    rw [List.length_take] at hlt
    show m < min 16 (q - p)
    omega

/-- Frame for the squeeze loop (`csv.c:204-239`): with a NUL byte readable at
`q` and the write cursor strictly behind the read cursor, every write lands in
`[s, q)` and the final write cursor stays within `[s, q]`. -/
theorem squeezeLoop_frame (cfg : CsvConfig) (fuel : Nat) (buf : List Byte)
    (s p q : Nat) (hsp : s < p) (hsq : s ≤ q) (hz : buf.getD q 0 = 0) :
    s ≤ (squeezeLoop cfg fuel buf s p q).2 ∧ (squeezeLoop cfg fuel buf s p q).2 ≤ q ∧
    ∀ t, (t < s ∨ q ≤ t) →
      (squeezeLoop cfg fuel buf s p q).1.getD t 0 = buf.getD t 0 := by
  induction fuel generalizing buf s p with
  | zero => exact ⟨le_rfl, hsq, fun t _ => rfl⟩
  | succ fuel ih =>
    rw [squeezeLoop]
    split
    · exact ⟨le_rfl, hsq, fun t _ => rfl⟩
    · rename_i hqp
      split
      · rename_i hm16
        split
        · rename_i hbulk
          have hz' : (copyBytes buf s p 16).getD q 0 = 0 := by
            rw [copyBytes_getD_frame _ _ _ _ _ (by omega)]
            exact hz
          obtain ⟨h1, h2, h3⟩ := ih (copyBytes buf s p 16) (s + 16) (p + 16)
            (by omega) (by omega) hz'
          refine ⟨by omega, h2, ?_⟩
          intro t ht
          rw [h3 t (by omega), copyBytes_getD_frame _ _ _ _ _ (by omega)]
        · rename_i hbulk
          obtain ⟨h1, h2, h3⟩ := copyTilZero_frame (buf.length + 1) buf s p q
            (by omega) (by omega) hz
          exact ⟨h1, by omega, h3⟩
      · rename_i hm16
        have hmlt := cutWindow_lt_of_ne cfg buf p q hm16
        have hwr : s + cutWindow cfg buf p q < q := by omega
        have hz1 : (copyBytes buf s p (cutWindow cfg buf p q)).getD q 0 = 0 := by
          rw [copyBytes_getD_frame _ _ _ _ _ (by omega)]
          exact hz
        have hz2 : (((copyBytes buf s p (cutWindow cfg buf p q)).set
            (s + cutWindow cfg buf p q)
            ((copyBytes buf s p (cutWindow cfg buf p q)).getD
              (p + cutWindow cfg buf p q + 1) 0))).getD q 0 = 0 := by
          rw [getD_set_ne (by omega)]
          exact hz1
        obtain ⟨h1, h2, h3⟩ := ih _ (s + cutWindow cfg buf p q + 1)
          (p + cutWindow cfg buf p q + 2) (by omega) (by omega) hz2
        refine ⟨by omega, h2, ?_⟩
        intro t ht
        rw [h3 t (by omega), getD_set_ne (by omega),
          copyBytes_getD_frame _ _ _ _ _ (by omega)]

theorem touchupField_none_eq (cfg : CsvConfig) (buf : List Byte) (st len : Nat) :
    touchupField cfg buf ⟨st, len, none⟩ =
      (if len = cfg.nullstrsz ∧
          ((buf.set (st + len) 0).drop st).take len = cfg.nullstr then
        (buf.set (st + len) 0, none)
      else (buf.set (st + len) 0, some st)) := rfl

theorem touchupField_some_eq (cfg : CsvConfig) (buf : List Byte) (st len e : Nat) :
    touchupField cfg buf ⟨st, len, some e⟩ =
      ((squeezeLoop cfg (st + len + 1)
          ((buf.set (st + len) 0).set e ((buf.set (st + len) 0).getD (e + 1) 0))
          (e + 1) (e + 2) (st + len)).1.set
        (squeezeLoop cfg (st + len + 1)
          ((buf.set (st + len) 0).set e ((buf.set (st + len) 0).getD (e + 1) 0))
          (e + 1) (e + 2) (st + len)).2 0,
       some st) := rfl

theorem touchupField_fst_none (cfg : CsvConfig) (buf : List Byte) (st len : Nat) :
    (touchupField cfg buf ⟨st, len, none⟩).1 = buf.set (st + len) 0 := by
  rw [touchupField_none_eq]
  split <;> rfl

/-- `touchup` of one field mutates only the field's span `[start, start+len]`. -/
theorem touchupField_frame (cfg : CsvConfig) (buf : List Byte) (f : Field)
    (hb : ∀ e, f.escptr = some e → f.start ≤ e ∧ e + 1 < f.start + f.len) :
    (touchupField cfg buf f).1.length = buf.length ∧
    ∀ t, (t < f.start ∨ f.start + f.len < t) →
      (touchupField cfg buf f).1.getD t 0 = buf.getD t 0 := by
  obtain ⟨st, len, ep⟩ := f
  cases ep with
  | none =>
    rw [touchupField_fst_none]
    refine ⟨List.length_set _ _ _, ?_⟩
    intro t ht
    exact getD_set_ne (by simp only [] at ht; omega)
  | some e =>
    obtain ⟨he1, he2⟩ := hb e rfl
    simp only [] at he1 he2
    rw [touchupField_some_eq]
    have hz : ((buf.set (st + len) 0).set e
        ((buf.set (st + len) 0).getD (e + 1) 0)).getD (st + len) 0 = 0 := by
      rw [getD_set_ne (by omega)]
      exact getD_set_zero buf (st + len)
    obtain ⟨h1, h2, h3⟩ := squeezeLoop_frame cfg (st + len + 1)
      ((buf.set (st + len) 0).set e ((buf.set (st + len) 0).getD (e + 1) 0))
      (e + 1) (e + 2) (st + len) (by omega) (by omega) hz
    constructor
    · rw [List.length_set, squeezeLoop_length, List.length_set, List.length_set]
    · intro t ht
      simp only [] at ht
      rw [getD_set_ne (by omega), h3 t (by omega), getD_set_ne (by omega),
        getD_set_ne (by omega)]

/-- `touchup` of one field leaves a NUL readable inside `[start, start+len]`. -/
theorem touchupField_zero (cfg : CsvConfig) (buf : List Byte) (f : Field)
    (hb : ∀ e, f.escptr = some e → f.start ≤ e ∧ e + 1 < f.start + f.len) :
    ∃ z, f.start ≤ z ∧ z ≤ f.start + f.len ∧
      (touchupField cfg buf f).1.getD z 0 = 0 := by
  obtain ⟨st, len, ep⟩ := f
  cases ep with
  | none =>
    refine ⟨st + len, by simp, by simp, ?_⟩
    rw [touchupField_fst_none]
    exact getD_set_zero buf (st + len)
  | some e =>
    obtain ⟨he1, he2⟩ := hb e rfl
    simp only [] at he1 he2
    rw [touchupField_some_eq]
    have hz : ((buf.set (st + len) 0).set e
        ((buf.set (st + len) 0).getD (e + 1) 0)).getD (st + len) 0 = 0 := by
      rw [getD_set_ne (by omega)]
      exact getD_set_zero buf (st + len)
    obtain ⟨h1, h2, h3⟩ := squeezeLoop_frame cfg (st + len + 1)
      ((buf.set (st + len) 0).set e ((buf.set (st + len) 0).getD (e + 1) 0))
      (e + 1) (e + 2) (st + len) (by omega) (by omega) hz
    refine ⟨(squeezeLoop cfg (st + len + 1)
        ((buf.set (st + len) 0).set e ((buf.set (st + len) 0).getD (e + 1) 0))
        (e + 1) (e + 2) (st + len)).2, by simp only []; omega, by simp only []; omega, ?_⟩
    exact getD_set_zero _ _

theorem touchupField_snd (cfg : CsvConfig) (buf : List Byte) (f : Field) :
    (touchupField cfg buf f).2 = none ∨ (touchupField cfg buf f).2 = some f.start := by
  obtain ⟨st, len, ep⟩ := f
  cases ep with
  | none =>
    rw [touchupField_none_eq]
    split
    · left; rfl
    · right; rfl
  | some e =>
    right
    rw [touchupField_some_eq]

theorem touchup_nil (cfg : CsvConfig) (buf : List Byte) :
    touchup cfg [] buf = (buf, []) := rfl

theorem touchup_cons (cfg : CsvConfig) (f : Field) (rest : List Field)
    (buf : List Byte) :
    touchup cfg (f :: rest) buf =
      ((touchup cfg rest (touchupField cfg buf f).1).1,
       (touchupField cfg buf f).2 :: (touchup cfg rest (touchupField cfg buf f).1).2) := rfl

theorem touchupField_length (cfg : CsvConfig) (buf : List Byte) (f : Field) :
    (touchupField cfg buf f).1.length = buf.length := by
  obtain ⟨st, len, ep⟩ := f
  cases ep with
  | none => rw [touchupField_fst_none, List.length_set]
  | some e =>
    rw [touchupField_some_eq]
    simp only []
    rw [List.length_set, squeezeLoop_length, List.length_set, List.length_set]

theorem touchup_length (cfg : CsvConfig) (flds : List Field) (buf : List Byte) :
    (touchup cfg flds buf).1.length = buf.length := by
  induction flds generalizing buf with
  | nil => rfl
  | cons f rest ih =>
    rw [touchup_cons]
    simp only []
    rw [ih, touchupField_length]

theorem touchup_ptrs_length (cfg : CsvConfig) (flds : List Field) (buf : List Byte) :
    (touchup cfg flds buf).2.length = flds.length := by
  induction flds generalizing buf with
  | nil => rfl
  | cons f rest ih =>
    rw [touchup_cons]
    simp only [List.length_cons]
    rw [ih]

/-- Finalizing a chain of fields leaves all bytes below the chain's lower bound
untouched. -/
theorem touchup_frame_low (cfg : CsvConfig) {k : Nat} :
    ∀ (flds : List Field) (buf : List Byte) (lo : Nat), FChain lo flds →
      (∀ g ∈ flds, FBounded k g) →
      ∀ t, t < lo → (touchup cfg flds buf).1.getD t 0 = buf.getD t 0 := by
  intro flds
  induction flds with
  | nil => intro buf lo _ _ t _; rfl
  | cons f rest ih =>
    intro buf lo hch hbd t ht
    obtain ⟨hlo, hch'⟩ := hch
    rw [touchup_cons]
    simp only []
    rw [ih (touchupField cfg buf f).1 (f.start + f.len + 1) hch'
      (fun g hg => hbd g (List.mem_cons_of_mem f hg)) t (by omega)]
    exact (touchupField_frame cfg buf f (hbd f (List.mem_cons_self f rest)).2).2 t
      (by omega)

/-- Finalizing `k`-bounded fields leaves all bytes at or beyond `k` untouched. -/
theorem touchup_frame_high (cfg : CsvConfig) {k : Nat} :
    ∀ (flds : List Field) (buf : List Byte),
      (∀ g ∈ flds, FBounded k g) →
      ∀ t, k ≤ t → (touchup cfg flds buf).1.getD t 0 = buf.getD t 0 := by
  intro flds
  induction flds with
  | nil => intro buf _ t _; rfl
  | cons f rest ih =>
    intro buf hbd t ht
    rw [touchup_cons]
    simp only []
    rw [ih (touchupField cfg buf f).1 (fun g hg => hbd g (List.mem_cons_of_mem f hg)) t ht]
    have hfb := hbd f (List.mem_cons_self f rest)
    have hq : f.start + f.len < k := hfb.1
    exact (touchupField_frame cfg buf f hfb.2).2 t (by right; omega)

/-- Every non-null field pointer of a finalized chain has a NUL readable at or
after it and before `k`, in the final buffer. -/
theorem touchup_ptr_zero (cfg : CsvConfig) {k : Nat} :
    ∀ (flds : List Field) (buf : List Byte) (lo : Nat), FChain lo flds →
      (∀ g ∈ flds, FBounded k g) →
      ∀ pi ∈ (touchup cfg flds buf).2, ∀ p, pi = some p →
        ∃ z, p ≤ z ∧ z < k ∧ (touchup cfg flds buf).1.getD z 0 = 0 := by
  intro flds
  induction flds with
  | nil =>
    intro buf lo _ _ pi hpi p hp
    rw [touchup_nil] at hpi
    cases hpi
  | cons f rest ih =>
    intro buf lo hch hbd pi hpi p hp
    obtain ⟨hlo, hch'⟩ := hch
    have hfb := hbd f (List.mem_cons_self f rest)
    rw [touchup_cons] at hpi ⊢
    simp only [List.mem_cons] at hpi
    rcases hpi with hpi | hpi
    · -- head pointer: p = f.start and the zero written by this field survives
      subst hpi
      rcases touchupField_snd cfg buf f with hn | hs
      · rw [hn] at hp; cases hp
      · rw [hs] at hp
        injection hp with hp
        subst hp
        obtain ⟨z, hz1, hz2, hz3⟩ := touchupField_zero cfg buf f hfb.2
        have hq : f.start + f.len < k := hfb.1
        refine ⟨z, hz1, by omega, ?_⟩
        simp only []
        rw [touchup_frame_low cfg rest (touchupField cfg buf f).1 (f.start + f.len + 1)
          hch' (fun g hg => hbd g (List.mem_cons_of_mem f hg)) z (by omega)]
        exact hz3
    · exact ih (touchupField cfg buf f).1 (f.start + f.len + 1) hch'
        (fun g hg => hbd g (List.mem_cons_of_mem f hg)) pi hpi p hp

/-! ## Locality: the finalization of a row depends only on the row's bytes -/

theorem set_take_eq {X Y : List Byte} {k : Nat} (h : X.take k = Y.take k)
    (i : Nat) (v : Byte) : (X.set i v).take k = (Y.set i v).take k := by
  by_cases hik : i < k
  · rw [take_set_comm hik, take_set_comm hik, h]
  · rw [take_set_of_le (by omega), take_set_of_le (by omega), h]

theorem slice_eq_of_take_eq {X Y : List Byte} {k st len : Nat}
    (h : X.take k = Y.take k) (hb : st + len ≤ k) :
    (X.drop st).take len = (Y.drop st).take len := by
  rw [take_drop_comm, take_drop_comm, take_eq_of_agree hb h]

theorem copyBytes_take_eq {k : Nat} :
    ∀ (n : Nat) (X Y : List Byte) (s p : Nat), X.take k = Y.take k →
      p + n ≤ k →
      (copyBytes X s p n).take k = (copyBytes Y s p n).take k := by
  intro n
  induction n with
  | zero => intro X Y s p h _; exact h
  | succ n ih =>
    intro X Y s p h hp
    rw [copyBytes, copyBytes]
    have hv : X.getD p 0 = Y.getD p 0 := getD_eq_of_take_eq (by omega) h
    rw [hv]
    exact ih _ _ (s + 1) (p + 1) (set_take_eq h s (Y.getD p 0)) (by omega)

theorem cutWindow_take_eq {cfg : CsvConfig} {X Y : List Byte} {k p q : Nat}
    (h : X.take k = Y.take k) (hq : q ≤ k) (hp : p ≤ q) :
    cutWindow cfg X p q = cutWindow cfg Y p q := by
  rw [cutWindow, cutWindow]
  have hw : (X.drop p).take (min 16 (q - p)) = (Y.drop p).take (min 16 (q - p)) :=
    slice_eq_of_take_eq h (by omega)
  rw [hw]

theorem copyTilZero_take_eq {k q : Nat} :
    ∀ (fx fy : Nat) (X Y : List Byte) (s p : Nat), X.take k = Y.take k →
      s < p → p ≤ q → q < k → X.getD q 0 = 0 →
      q - p < fx → q - p < fy →
      (copyTilZero X s p fx).1.take k = (copyTilZero Y s p fy).1.take k ∧
      (copyTilZero X s p fx).2 = (copyTilZero Y s p fy).2 := by
  intro fx
  induction fx with
  | zero => intro fy X Y s p _ _ _ _ _ hfx _; omega
  | succ fx ih =>
    intro fy X Y s p h hsp hpq hqk hz hfx hfy
    cases fy with
    | zero => omega
    | succ fy =>
      rw [copyTilZero, copyTilZero]
      have hv : X.getD p 0 = Y.getD p 0 := getD_eq_of_take_eq (by omega) h
      by_cases h0 : X.getD p 0 = 0
      · rw [if_pos h0, if_pos (hv ▸ h0)]
        exact ⟨h, rfl⟩
      · rw [if_neg h0, if_neg (hv ▸ h0)]
        have hplt : p < q := by
          rcases Nat.lt_or_ge p q with hlt | hge
          · exact hlt
          · have : p = q := by omega
            rw [this] at h0
            exact absurd hz h0
        have hz' : (X.set s (X.getD p 0)).getD q 0 = 0 := by
          rw [getD_set_ne (by omega)]
          exact hz
        rw [hv]
        exact ih fy _ _ (s + 1) (p + 1) (set_take_eq h s (Y.getD p 0)) (by omega)
          (by omega) hqk (by rw [← hv]; exact hz') (by omega) (by omega)

theorem squeezeLoop_take_eq {cfg : CsvConfig} {k q : Nat} :
    ∀ (fuel : Nat) (X Y : List Byte) (s p : Nat), X.take k = Y.take k →
      k ≤ X.length → k ≤ Y.length →
      s < p → s ≤ q → q < k → X.getD q 0 = 0 →
      (squeezeLoop cfg fuel X s p q).1.take k = (squeezeLoop cfg fuel Y s p q).1.take k ∧
      (squeezeLoop cfg fuel X s p q).2 = (squeezeLoop cfg fuel Y s p q).2 := by
  intro fuel
  induction fuel with
  | zero => intro X Y s p h _ _ _ _ _ _; exact ⟨h, rfl⟩
  | succ fuel ih =>
    intro X Y s p h hkX hkY hsp hsq hqk hz
    rw [squeezeLoop, squeezeLoop]
    have hY : Y.getD q 0 = 0 := by rw [← getD_eq_of_take_eq hqk h]; exact hz
    by_cases hqp : q ≤ p
    · rw [if_pos hqp, if_pos hqp]
      exact ⟨h, rfl⟩
    · rw [if_neg hqp, if_neg hqp]
      have hcw : cutWindow cfg X p q = cutWindow cfg Y p q :=
        cutWindow_take_eq h (by omega) (by omega)
      rw [← hcw]
      by_cases hm16 : cutWindow cfg X p q = 16
      · rw [if_pos hm16, if_pos hm16]
        by_cases hbulk : p + 16 < q
        · rw [if_pos hbulk, if_pos hbulk]
          have hz' : (copyBytes X s p 16).getD q 0 = 0 := by
            rw [copyBytes_getD_frame _ _ _ _ _ (by omega)]
            exact hz
          exact ih _ _ (s + 16) (p + 16)
            (copyBytes_take_eq 16 X Y s p h (by omega))
            (by rw [copyBytes_length]; omega) (by rw [copyBytes_length]; omega)
            (by omega) (by omega) hqk hz'
        · rw [if_neg hbulk, if_neg hbulk]
          exact copyTilZero_take_eq (q := q) (X.length + 1) (Y.length + 1) X Y s p h
            (by omega) (by omega) hqk hz (by omega) (by omega)
      · rw [if_neg hm16, if_neg hm16]
        have hmlt := cutWindow_lt_of_ne cfg X p q hm16
        have hval : (copyBytes X s p (cutWindow cfg X p q)).getD
            (p + cutWindow cfg X p q + 1) 0 =
            (copyBytes Y s p (cutWindow cfg X p q)).getD
            (p + cutWindow cfg X p q + 1) 0 :=
          getD_eq_of_take_eq (by omega)
            (copyBytes_take_eq _ X Y s p h (by omega))
        have htk := copyBytes_take_eq (cutWindow cfg X p q) X Y s p h (by omega)
        rw [hval]
        have hz' : ((copyBytes X s p (cutWindow cfg X p q)).set
            (s + cutWindow cfg X p q)
            ((copyBytes Y s p (cutWindow cfg X p q)).getD
              (p + cutWindow cfg X p q + 1) 0)).getD q 0 = 0 := by
          rw [getD_set_ne (by omega), copyBytes_getD_frame _ _ _ _ _ (by omega)]
          exact hz
        exact ih _ _ (s + cutWindow cfg X p q + 1) (p + cutWindow cfg X p q + 2)
          (set_take_eq htk _ _)
          (by rw [List.length_set, copyBytes_length]; omega)
          (by rw [List.length_set, copyBytes_length]; omega)
          (by omega) (by omega) hqk hz'


theorem touchupField_take_eq {cfg : CsvConfig} {X Y : List Byte} {k : Nat}
    (h : X.take k = Y.take k) (hkX : k ≤ X.length) (hkY : k ≤ Y.length)
    (f : Field) (hb : FBounded k f) :
    (touchupField cfg X f).1.take k = (touchupField cfg Y f).1.take k ∧
    (touchupField cfg X f).2 = (touchupField cfg Y f).2 := by
  obtain ⟨st, len, ep⟩ := f
  have hsl : st + len < k := hb.1
  cases ep with
  | none =>
    rw [touchupField_none_eq, touchupField_none_eq]
    have hset : (X.set (st + len) 0).take k = (Y.set (st + len) 0).take k :=
      set_take_eq h _ _
    have hsl' : ((X.set (st + len) 0).drop st).take len =
        ((Y.set (st + len) 0).drop st).take len :=
      slice_eq_of_take_eq hset (by omega)
    by_cases hc : len = cfg.nullstrsz ∧
        ((X.set (st + len) 0).drop st).take len = cfg.nullstr
    · rw [if_pos hc, if_pos ⟨hc.1, by rw [← hsl']; exact hc.2⟩]
      exact ⟨hset, rfl⟩
    · rw [if_neg hc, if_neg (by rw [← hsl']; exact hc)]
      exact ⟨hset, rfl⟩
  | some e =>
    obtain ⟨he1, he2⟩ := hb.2 e rfl
    simp only [] at he1 he2 hsl
    rw [touchupField_some_eq, touchupField_some_eq]
    have hset : (X.set (st + len) 0).take k = (Y.set (st + len) 0).take k :=
      set_take_eq h _ _
    have hv : (X.set (st + len) 0).getD (e + 1) 0 =
        (Y.set (st + len) 0).getD (e + 1) 0 :=
      getD_eq_of_take_eq (by omega) hset
    have hset2 : ((X.set (st + len) 0).set e
          ((X.set (st + len) 0).getD (e + 1) 0)).take k =
        ((Y.set (st + len) 0).set e
          ((Y.set (st + len) 0).getD (e + 1) 0)).take k := by
      rw [hv]
      exact set_take_eq hset _ _
    have hz : ((X.set (st + len) 0).set e
        ((X.set (st + len) 0).getD (e + 1) 0)).getD (st + len) 0 = 0 := by
      rw [getD_set_ne (by omega)]
      exact getD_set_zero X (st + len)
    obtain ⟨hsq1, hsq2⟩ := @squeezeLoop_take_eq cfg k (st + len) (st + len + 1)
      ((X.set (st + len) 0).set e ((X.set (st + len) 0).getD (e + 1) 0))
      ((Y.set (st + len) 0).set e ((Y.set (st + len) 0).getD (e + 1) 0))
      (e + 1) (e + 2) hset2
      (by rw [List.length_set, List.length_set]; omega)
      (by rw [List.length_set, List.length_set]; omega)
      (by omega) (by omega) hsl hz
    rw [hsq2]
    exact ⟨set_take_eq hsq1 _ _, rfl⟩

theorem touchup_take_eq {cfg : CsvConfig} {k : Nat} :
    ∀ (flds : List Field) (X Y : List Byte), X.take k = Y.take k →
      k ≤ X.length → k ≤ Y.length →
      (∀ g ∈ flds, FBounded k g) →
      (touchup cfg flds X).1.take k = (touchup cfg flds Y).1.take k ∧
      (touchup cfg flds X).2 = (touchup cfg flds Y).2 := by
  intro flds
  induction flds with
  | nil => intro X Y h _ _ _; exact ⟨h, rfl⟩
  | cons f rest ih =>
    intro X Y h hkX hkY hbd
    rw [touchup_cons, touchup_cons]
    obtain ⟨hf1, hf2⟩ := touchupField_take_eq h hkX hkY f (hbd f (by simp))
    obtain ⟨hr1, hr2⟩ := ih (touchupField cfg X f).1 (touchupField cfg Y f).1 hf1
      (by rw [touchupField_length]; exact hkX)
      (by rw [touchupField_length]; exact hkY)
      (fun g hg => hbd g (by simp [hg]))
    exact ⟨hr1, by rw [hf2, hr2]⟩

theorem cstr_step (X : List Byte) (p : Nat) :
    cstr X p = if X.getD p 0 = 0 then [] else X.getD p 0 :: cstr X (p + 1) := by
  by_cases hp : p < X.length
  · rw [cstr, List.drop_eq_getElem_cons hp, List.takeWhile_cons,
      List.getD_eq_getElem X 0 hp]
    by_cases h0 : X[p] = 0
    · rw [if_pos h0]
      simp [h0]
    · rw [if_neg h0]
      simp only [bne_iff_ne, ne_eq, h0, not_false_eq_true, if_true]
      rfl
  · rw [if_pos (getD_eq_zero_of_ge (by omega)), cstr,
      List.drop_eq_nil_of_le (by omega), List.takeWhile_nil]

theorem cstr_take_eq {k : Nat} :
    ∀ (n : Nat) (X Y : List Byte) (p : Nat), X.take k = Y.take k →
      k - p ≤ n → (∃ z, p ≤ z ∧ z < k ∧ X.getD z 0 = 0) →
      cstr X p = cstr Y p := by
  intro n
  induction n with
  | zero =>
    intro X Y p h hn ⟨z, hz1, hz2, hz3⟩
    omega
  | succ n ih =>
    intro X Y p h hn ⟨z, hz1, hz2, hz3⟩
    have hpk : p < k := by omega
    have hv : X.getD p 0 = Y.getD p 0 := getD_eq_of_take_eq hpk h
    rw [cstr_step X p, cstr_step Y p, ← hv]
    by_cases h0 : X.getD p 0 = 0
    · rw [if_pos h0, if_pos h0]
    · rw [if_neg h0, if_neg h0]
      have hzp : p + 1 ≤ z := by
        rcases Nat.lt_or_ge p z with hlt | hge
        · omega
        · have : z = p := by omega
          rw [this] at hz3
          exact absurd hz3 h0
      rw [ih X Y (p + 1) h (by omega) ⟨z, by omega, hz2, hz3⟩]

theorem rowValues_take_eq {k : Nat} {X Y : List Byte} (h : X.take k = Y.take k)
    (ptrs : List (Option Nat))
    (hz : ∀ pi ∈ ptrs, ∀ p, pi = some p →
      ∃ z, p ≤ z ∧ z < k ∧ X.getD z 0 = 0) :
    rowValues X ptrs = rowValues Y ptrs := by
  induction ptrs with
  | nil => rfl
  | cons pi rest ih =>
    rw [rowValues, rowValues, List.map_cons, List.map_cons]
    have hrest : rowValues X rest = rowValues Y rest :=
      ih (fun q hq p hp => hz q (List.mem_cons_of_mem pi hq) p hp)
    rw [rowValues] at hrest
    rw [hrest]
    cases pi with
    | none => rfl
    | some p =>
      obtain ⟨z, hz1, hz2, hz3⟩ := hz (some p) (List.mem_cons_self _ _) p rfl
      rw [Option.map_some', Option.map_some',
        cstr_take_eq (k := k) (k - p) X Y p h (by omega) ⟨z, hz1, hz2, hz3⟩]
      rfl

/-! ## Locality of `csv_line` and `csv_feed` at a chunk boundary -/

theorem csv_line_of_complete {cfg : CsvConfig} {buf : List Byte} (st : CsvState)
    {k : Nat} {flds : List Field} {nl : Nat}
    (h : csvLineRun cfg buf = .complete k flds nl) :
    csv_line cfg st buf = ((k : Int),
      { st with linenum := st.linenum + nl, rownum := st.rownum + 1,
                charnum := st.charnum + k }, flds) := by
  unfold csv_line
  rw [h]

theorem csv_line_of_incomplete {cfg : CsvConfig} {buf : List Byte} (st : CsvState)
    (h : csvLineRun cfg buf = .incomplete) :
    csv_line cfg st buf = (0, st, []) := by
  unfold csv_line
  rw [h]

theorem csv_line_of_err {cfg : CsvConfig} {buf : List Byte} (st : CsvState)
    {e : CsvErr} {cno nline nchar : Nat}
    (h : csvLineRun cfg buf = .err e cno nline nchar) :
    csv_line cfg st buf = (-1, reterr st e cno nline nchar, []) := by
  unfold csv_line
  rw [h]

theorem csv_feed_of_complete {cfg : CsvConfig} {buf : List Byte} (st : CsvState)
    {k : Nat} {flds : List Field} {nl : Nat}
    (h : csvLineRun cfg buf = .complete k flds nl) :
    csv_feed cfg st buf = ((k : Int),
      { st with linenum := st.linenum + nl, rownum := st.rownum + 1,
                charnum := st.charnum + k },
      rowValues (touchup cfg flds buf).1 (touchup cfg flds buf).2,
      (touchup cfg flds buf).1) := by
  have hk : 0 < k := (runFuel_complete_facts h).1
  rw [csv_feed, csv_line_of_complete st h]
  rw [if_neg (by simp only []; omega)]

theorem csv_feed_of_incomplete {cfg : CsvConfig} {buf : List Byte} (st : CsvState)
    (h : csvLineRun cfg buf = .incomplete) :
    csv_feed cfg st buf = (0, st, [], buf) := by
  rw [csv_feed, csv_line_of_incomplete st h]
  rw [if_pos (by norm_num)]

theorem csv_feed_of_err {cfg : CsvConfig} {buf : List Byte} (st : CsvState)
    {e : CsvErr} {cno nline nchar : Nat}
    (h : csvLineRun cfg buf = .err e cno nline nchar) :
    csv_feed cfg st buf = (-1, reterr st e cno nline nchar, [], buf) := by
  rw [csv_feed, csv_line_of_err st h]
  rw [if_pos (by norm_num)]

/-- A row completed within the first chunk parses identically from the first
chunk alone (`csv_line` never reads past the consumed count of a completed
row). -/
theorem csvLineRun_prefix_complete {cfg : CsvConfig} {u v : List Byte}
    {k : Nat} {flds : List Field} {nl : Nat}
    (h : csvLineRun cfg (u ++ v) = .complete k flds nl) (hk : k ≤ u.length) :
    csvLineRun cfg u = .complete k flds nl := by
  rw [csvLineRun] at h ⊢
  have ht := runFuel_take h hk
  rw [List.take_left u v] at ht
  calc runFuel cfg u (u.length + 1) .fstart 0 0 0 []
      = runFuel cfg u ((u ++ v).length + 1) .fstart 0 0 0 [] :=
        runFuel_fuel_irrel (by omega) (by simp; omega)
    _ = .complete k flds nl := ht

/-- `touchup` of a `k`-bounded row leaves the bytes from `k` on untouched. -/
theorem touchup_drop_high (cfg : CsvConfig) {k : Nat} (flds : List Field)
    (buf : List Byte) (hbd : ∀ g ∈ flds, FBounded k g) :
    (touchup cfg flds buf).1.drop k = buf.drop k :=
  drop_eq_of_agree (touchup_length cfg flds buf)
    (fun t ht => touchup_frame_high cfg flds buf hbd t ht)

/-- One feed step at a chunk boundary: a row completing inside the first chunk
yields the same consumed count, state, and row whether or not the rest of the
input is present, and the mutated combined buffer is the mutated first chunk
followed by the untouched rest. -/
theorem csv_feed_split {cfg : CsvConfig} {u v : List Byte} (st : CsvState)
    {k : Nat} {flds : List Field} {nl : Nat}
    (hc : csvLineRun cfg (u ++ v) = .complete k flds nl) (hk : k ≤ u.length) :
    (csv_feed cfg st u).1 = (k : Int) ∧
    (csv_feed cfg st (u ++ v)).1 = (k : Int) ∧
    (csv_feed cfg st u).2.1 = (csv_feed cfg st (u ++ v)).2.1 ∧
    (csv_feed cfg st u).2.2.1 = (csv_feed cfg st (u ++ v)).2.2.1 ∧
    (csv_feed cfg st (u ++ v)).2.2.2 = (csv_feed cfg st u).2.2.2 ++ v := by
  have hcu := csvLineRun_prefix_complete hc hk
  have hcu' := hcu
  rw [csvLineRun] at hcu'
  obtain ⟨ext0, hfe, hch, hbd⟩ := runFuel_complete_struct hcu' trivial
  rw [List.nil_append] at hfe
  subst hfe
  rw [stateLo_fstart] at hch
  have htk : u.take k = (u ++ v).take k := (List.take_append_of_le_length hk).symm
  obtain ⟨htu, hptr⟩ := @touchup_take_eq cfg k flds u (u ++ v) htk hk
    (by rw [List.length_append]; omega) hbd
  have hrows : rowValues (touchup cfg flds u).1 (touchup cfg flds u).2 =
      rowValues (touchup cfg flds (u ++ v)).1 (touchup cfg flds (u ++ v)).2 := by
    rw [← hptr]
    exact rowValues_take_eq htu (touchup cfg flds u).2
      (touchup_ptr_zero cfg flds u 0 hch hbd)
  have hdu : (touchup cfg flds u).1.drop k = u.drop k :=
    touchup_drop_high cfg flds u hbd
  have hdc : (touchup cfg flds (u ++ v)).1.drop k = u.drop k ++ v := by
    rw [touchup_drop_high cfg flds (u ++ v) hbd, List.drop_append_of_le_length hk]
  have hbuf : (touchup cfg flds (u ++ v)).1 = (touchup cfg flds u).1 ++ v := by
    calc (touchup cfg flds (u ++ v)).1
        = (touchup cfg flds (u ++ v)).1.take k ++ (touchup cfg flds (u ++ v)).1.drop k :=
          (List.take_append_drop _ _).symm
      _ = (touchup cfg flds u).1.take k ++ (u.drop k ++ v) := by rw [htu, hdc]
      _ = ((touchup cfg flds u).1.take k ++ u.drop k) ++ v :=
          (List.append_assoc _ _ _).symm
      _ = ((touchup cfg flds u).1.take k ++ (touchup cfg flds u).1.drop k) ++ v := by
          rw [hdu]
      _ = (touchup cfg flds u).1 ++ v := by rw [List.take_append_drop]
  rw [csv_feed_of_complete st hcu, csv_feed_of_complete st hc]
  exact ⟨rfl, rfl, rfl, hrows, hbuf⟩

/-! ## The inner feed loop at a chunk boundary -/

theorem feedLoop_zero (cfg : CsvConfig) (st : CsvState) (b : List Byte) :
    feedLoop cfg 0 st b = .inr ([], st, b) := rfl

theorem feedLoop_succ (cfg : CsvConfig) (fuel : Nat) (st : CsvState)
    (b : List Byte) :
    feedLoop cfg (fuel + 1) st b =
      if b.isEmpty then .inr ([], st, b)
      else if (csv_feed cfg st b).1 < 0 then .inl (.parse (csv_feed cfg st b).2.1)
      else if (csv_feed cfg st b).1 = 0 then .inr ([], st, b)
      else
        match feedLoop cfg fuel (csv_feed cfg st b).2.1
            ((csv_feed cfg st b).2.2.2.drop (csv_feed cfg st b).1.toNat) with
        | .inl e => .inl e
        | .inr (rows, st2, rest) =>
            .inr ((csv_feed cfg st b).2.2.1 :: rows, st2, rest) := rfl

theorem feedLoop_fuel_irrel {cfg : CsvConfig} :
    ∀ (f1 f2 : Nat) (st : CsvState) (b : List Byte),
      b.length < f1 → b.length < f2 →
      feedLoop cfg f1 st b = feedLoop cfg f2 st b := by
  intro f1
  induction f1 with
  | zero => intro f2 st b h1 _; omega
  | succ f1 ih =>
    intro f2 st b h1 h2
    cases f2 with
    | zero => omega
    | succ f2 =>
      rw [feedLoop_succ, feedLoop_succ]
      by_cases he : b.isEmpty
      · rw [if_pos he, if_pos he]
      · rw [if_neg he, if_neg he]
        have hlb : 0 < b.length := by
          simp [List.isEmpty_iff] at he
          exact List.length_pos.mpr he
        cases hcl : csvLineRun cfg b with
        | incomplete =>
          rw [csv_feed_of_incomplete st hcl]
          norm_num
        | err e cno nline nchar =>
          rw [csv_feed_of_err st hcl]
          norm_num
        | complete k flds nl =>
          have hfacts := runFuel_complete_facts (show runFuel cfg b (b.length + 1)
            .fstart 0 0 0 [] = .complete k flds nl from hcl)
          rw [csv_feed_of_complete st hcl]
          simp only [Int.toNat_natCast]
          have hc1 : ¬((k : Int) < 0) := by omega
          have hc2 : ¬((k : Int) = 0) := by omega
          rw [if_neg hc1, if_neg hc2, if_neg hc1, if_neg hc2]
          have hlen : ((touchup cfg flds b).1.drop k).length = b.length - k := by
            rw [List.length_drop, touchup_length]
          rw [ih f2 _ _ (by rw [hlen]; omega) (by rw [hlen]; omega)]

/-- `csv_line` on a chunk either already gives the verdict of the extended
input, or asks for more bytes — unless the chunk ends mid-CRLF. -/
theorem csvLineRun_prefix {cfg : CsvConfig} {u v : List Byte}
    (hbd : ¬(u.getLast? = some 13 ∧ v.head? = some 10)) :
    csvLineRun cfg u = csvLineRun cfg (u ++ v) ∨ csvLineRun cfg u = .incomplete := by
  rw [csvLineRun, csvLineRun]
  have hf : runFuel cfg u (u.length + 1) .fstart 0 0 0 [] =
      runFuel cfg u ((u ++ v).length + 1) .fstart 0 0 0 [] :=
    runFuel_fuel_irrel (by omega) (by simp; omega)
  rw [hf]
  exact runFuel_prefix hbd (Nat.zero_le _)

/-- Splitting the input at a chunk boundary does not change what the inner
loop emits: the rows produced on a chunk followed by the rows produced on its
leftover plus the next chunk are the rows of the combined input, ending in the
same state and leftover — provided the boundary does not separate a CR from
the LF completing it. -/
theorem feedLoop_split {cfg : CsvConfig} :
    ∀ (F : Nat) (u v : List Byte) (st : CsvState) (rows : List Row)
      (st' : CsvState) (l' : List Byte),
      ¬(u.getLast? = some 13 ∧ v.head? = some 10) →
      (u ++ v).length < F →
      feedLoop cfg F st (u ++ v) = .inr (rows, st', l') →
      ∃ rows1 st1 l1 rows2,
        feedLoop cfg (u.length + 1) st u = .inr (rows1, st1, l1) ∧
        feedLoop cfg ((l1 ++ v).length + 1) st1 (l1 ++ v) = .inr (rows2, st', l') ∧
        rows = rows1 ++ rows2 := by
  intro F
  induction F with
  | zero => intro u v st rows st' l' _ hF _; omega
  | succ F ih =>
    intro u v st rows st' l' hbd hF hrun
    by_cases hue : u = []
    · subst hue
      rw [List.nil_append] at hrun hF
      refine ⟨[], st, [], rows, ?_, ?_, rfl⟩
      · rw [feedLoop_succ cfg _ st,
          if_pos (show (List.isEmpty ([] : List Byte)) = true from rfl)]
      · rw [List.nil_append,
          feedLoop_fuel_irrel (v.length + 1) (F + 1) st v (by omega) hF]
        exact hrun
    · have hrun0 := hrun
      have hne : ¬((u ++ v).isEmpty = true) := by
        simp [List.isEmpty_iff, hue]
      have hneu : ¬(u.isEmpty = true) := by
        simp [List.isEmpty_iff, hue]
      rw [feedLoop_succ, if_neg hne] at hrun
      cases hcl : csvLineRun cfg (u ++ v) with
      | err e cno nline nchar =>
        rw [csv_feed_of_err st hcl, if_pos (by norm_num)] at hrun
        exact absurd hrun (by simp)
      | incomplete =>
        have huinc : csvLineRun cfg u = .incomplete := by
          rcases csvLineRun_prefix hbd with heq | hinc
          · exact heq.trans hcl
          · exact hinc
        refine ⟨[], st, u, rows, ?_, ?_, rfl⟩
        · rw [feedLoop_succ, if_neg hneu, csv_feed_of_incomplete st huinc,
            if_neg (by norm_num), if_pos rfl]
        · rw [feedLoop_fuel_irrel ((u ++ v).length + 1) (F + 1) st (u ++ v)
            (by omega) hF]
          exact hrun0
      | complete k flds nl =>
        have hfacts := runFuel_complete_facts (show runFuel cfg (u ++ v)
          ((u ++ v).length + 1) .fstart 0 0 0 [] = .complete k flds nl from hcl)
        have hfc1 : (csv_feed cfg st (u ++ v)).1 = (k : Int) := by
          rw [csv_feed_of_complete st hcl]
        rw [if_neg (by rw [hfc1]; omega), if_neg (by rw [hfc1]; omega), hfc1] at hrun
        simp only [Int.toNat_natCast] at hrun
        by_cases hk : k ≤ u.length
        · -- the row completes inside the first chunk
          have hcu := csvLineRun_prefix_complete hcl hk
          have hcu' := hcu
          rw [csvLineRun] at hcu'
          obtain ⟨ext0, hfe, hch, hbdf⟩ := runFuel_complete_struct hcu' trivial
          rw [List.nil_append] at hfe
          subst hfe
          obtain ⟨hp1, hp2, hpst, hprow, hpbuf⟩ := csv_feed_split st hcl hk
          have hulen : (csv_feed cfg st u).2.2.2.length = u.length := by
            rw [csv_feed_of_complete st hcu]
            exact touchup_length cfg flds u
          have hu2eq : (csv_feed cfg st u).2.2.2.drop k = u.drop k := by
            rw [csv_feed_of_complete st hcu]
            exact touchup_drop_high cfg flds u hbdf
          have hsplitbuf : (csv_feed cfg st (u ++ v)).2.2.2.drop k =
              ((csv_feed cfg st u).2.2.2.drop k) ++ v := by
            rw [hpbuf, List.drop_append_of_le_length (by rw [hulen]; exact hk)]
          rw [hsplitbuf, ← hpst] at hrun
          have hbd2 : ¬(((csv_feed cfg st u).2.2.2.drop k).getLast? = some 13 ∧
              v.head? = some 10) := by
            rw [hu2eq]
            rintro ⟨ha, hb⟩
            by_cases hdk : u.drop k = []
            · rw [hdk] at ha
              cases ha
            · refine hbd ⟨?_, hb⟩
              rw [← List.take_append_drop k u,
                List.getLast?_append_of_ne_nil _ hdk]
              exact ha
          cases hfl : feedLoop cfg F ((csv_feed cfg st u).2.1)
              ((csv_feed cfg st u).2.2.2.drop k ++ v) with
          | inl e =>
            rw [hfl] at hrun
            exact absurd hrun (by simp)
          | inr trip =>
            obtain ⟨rows9, st9, rest9⟩ := trip
            rw [hfl] at hrun
            simp only [Sum.inr.injEq, Prod.mk.injEq] at hrun
            obtain ⟨hrows, hst9, hl9⟩ := hrun
            subst hst9
            subst hl9
            have hlen2 : ((csv_feed cfg st u).2.2.2.drop k ++ v).length < F := by
              rw [List.length_append, List.length_drop, hulen]
              rw [List.length_append] at hF
              omega
            obtain ⟨rows1, st1, l1, rows2, hL1, hL2, hR⟩ :=
              ih ((csv_feed cfg st u).2.2.2.drop k) v ((csv_feed cfg st u).2.1)
                rows9 st9 rest9 hbd2 hlen2 hfl
            refine ⟨(csv_feed cfg st u).2.2.1 :: rows1, st1, l1, rows2, ?_, hL2, ?_⟩
            · rw [feedLoop_succ, if_neg hneu, if_neg (by rw [hp1]; omega),
                if_neg (by rw [hp1]; omega), hp1]
              simp only [Int.toNat_natCast]
              have hfuel : feedLoop cfg u.length ((csv_feed cfg st u).2.1)
                  ((csv_feed cfg st u).2.2.2.drop k) = .inr (rows1, st1, l1) := by
                rw [feedLoop_fuel_irrel u.length
                  (((csv_feed cfg st u).2.2.2.drop k).length + 1)
                  ((csv_feed cfg st u).2.1) ((csv_feed cfg st u).2.2.2.drop k)
                  (by rw [List.length_drop, hulen]; omega) (by omega)]
                exact hL1
              rw [hfuel]
            · rw [← hrows, List.cons_append, hprow, hR]
        · -- the row needs bytes from the second chunk
          have hucross : csvLineRun cfg u = .incomplete := by
            rcases csvLineRun_prefix hbd with heq | hinc
            · exfalso
              have := runFuel_complete_facts (show runFuel cfg u (u.length + 1)
                .fstart 0 0 0 [] = .complete k flds nl from heq.trans hcl)
              omega
            · exact hinc
          refine ⟨[], st, u, rows, ?_, ?_, rfl⟩
          · rw [feedLoop_succ, if_neg hneu, csv_feed_of_incomplete st hucross,
              if_neg (by norm_num), if_pos rfl]
          · rw [feedLoop_fuel_irrel ((u ++ v).length + 1) (F + 1) st
              (u ++ v) (by omega) hF]
            exact hrun0

/-- The leftover of a finished inner loop is inert: feeding it again consumes
nothing (the loop stopped because the leftover was empty or an incomplete
row). -/
theorem feedLoop_stop {cfg : CsvConfig} :
    ∀ (F : Nat) (st : CsvState) (b : List Byte) (rows : List Row)
      (st' : CsvState) (l' : List Byte),
      b.length < F →
      feedLoop cfg F st b = .inr (rows, st', l') →
      feedLoop cfg (l'.length + 1) st' l' = .inr ([], st', l') := by
  intro F
  induction F with
  | zero => intro st b rows st' l' hF _; omega
  | succ F ih =>
    intro st b rows st' l' hF hrun
    rw [feedLoop_succ] at hrun
    by_cases he : b.isEmpty = true
    · rw [if_pos he] at hrun
      simp only [Sum.inr.injEq, Prod.mk.injEq] at hrun
      obtain ⟨_, hst, hl⟩ := hrun
      subst hst
      subst hl
      rw [feedLoop_succ, if_pos he]
    · rw [if_neg he] at hrun
      cases hcl : csvLineRun cfg b with
      | err e cno nline nchar =>
        rw [csv_feed_of_err st hcl, if_pos (by norm_num)] at hrun
        exact absurd hrun (by simp)
      | incomplete =>
        rw [csv_feed_of_incomplete st hcl, if_neg (by norm_num),
          if_pos rfl] at hrun
        simp only [Sum.inr.injEq, Prod.mk.injEq] at hrun
        obtain ⟨_, hst, hl⟩ := hrun
        subst hst
        subst hl
        rw [feedLoop_succ, if_neg he, csv_feed_of_incomplete st hcl,
          if_neg (by norm_num), if_pos rfl]
      | complete k flds nl =>
        have hfacts := runFuel_complete_facts (show runFuel cfg b
          (b.length + 1) .fstart 0 0 0 [] = .complete k flds nl from hcl)
        have hfc1 : (csv_feed cfg st b).1 = (k : Int) := by
          rw [csv_feed_of_complete st hcl]
        rw [if_neg (by rw [hfc1]; omega), if_neg (by rw [hfc1]; omega),
          hfc1] at hrun
        simp only [Int.toNat_natCast] at hrun
        cases hfl : feedLoop cfg F (csv_feed cfg st b).2.1
            ((csv_feed cfg st b).2.2.2.drop k) with
        | inl e =>
          rw [hfl] at hrun
          exact absurd hrun (by simp)
        | inr trip =>
          obtain ⟨rows9, st9, rest9⟩ := trip
          rw [hfl] at hrun
          simp only [Sum.inr.injEq, Prod.mk.injEq] at hrun
          obtain ⟨_, hst, hl⟩ := hrun
          subst hst
          subst hl
          have hblen : ((csv_feed cfg st b).2.2.2.drop k).length = b.length - k := by
            rw [List.length_drop, csv_feed_of_complete st hcl]
            rw [touchup_length]
          exact ih _ _ _ _ _ (by rw [hblen]; omega) hfl

theorem csvScanRun_nil (cfg : CsvConfig) (st : CsvState) (left : List Byte) :
    csvScanRun cfg [] st left = eofPhase cfg st left := rfl

theorem csvScanRun_cons (cfg : CsvConfig) (ch : List Byte)
    (rest : List (List Byte)) (st : CsvState) (left : List Byte) :
    csvScanRun cfg (ch :: rest) st left =
      if ch.isEmpty then eofPhase cfg st left
      else
        match feedLoop cfg ((left ++ ch).length + 1) st (left ++ ch) with
        | .inl e => .err e
        | .inr (rows, st', l') =>
          match csvScanRun cfg rest st' l' with
          | .err e => .err e
          | .ok rs => .ok (rows ++ rs) := rfl

theorem eofPhase_eq (cfg : CsvConfig) (st : CsvState) (left : List Byte) :
    eofPhase cfg st left =
      match feedLoop cfg (left.length + 1) st left with
      | .inl e => .err e
      | .inr (rows, st2, l2) =>
        if l2.isEmpty then .ok rows
        else if (csv_feed_last cfg st2 l2).1 < 0 then
          .err (.parse (csv_feed_last cfg st2 l2).2.1)
        else if (l2.drop (csv_feed_last cfg st2 l2).1.toNat).isEmpty then
          .ok (rows ++ [(csv_feed_last cfg st2 l2).2.2.1])
        else .err .extra := rfl

/-- Splitting the stream into two chunks at a boundary that neither empties
the first chunk nor separates a CR from its LF yields the same driver result
as the unsplit stream, whenever the unsplit stream succeeds. -/
theorem csvScanRun_split {cfg : CsvConfig} {c1 c2 : List Byte} {st0 : CsvState}
    {R : List Row} (h1 : c1 ≠ [])
    (hbd : ¬(c1.getLast? = some 13 ∧ c2.head? = some 10))
    (h : csvScanRun cfg [c1 ++ c2] st0 [] = .ok R) :
    csvScanRun cfg [c1, c2] st0 [] = .ok R := by
  have hc12 : ¬((c1 ++ c2).isEmpty = true) := by
    simp [List.isEmpty_iff, h1]
  have hc1 : ¬(c1.isEmpty = true) := by
    simp [List.isEmpty_iff, h1]
  rw [csvScanRun_cons, if_neg hc12, List.nil_append] at h
  cases hfl : feedLoop cfg ((c1 ++ c2).length + 1) st0 (c1 ++ c2) with
  | inl e =>
    rw [hfl] at h
    exact absurd h (by simp)
  | inr trip =>
    obtain ⟨rows, st', lv⟩ := trip
    rw [hfl] at h
    dsimp only [] at h
    rw [csvScanRun_nil] at h
    cases hep : eofPhase cfg st' lv with
    | err e =>
      rw [hep] at h
      exact absurd h (by simp)
    | ok rs =>
      rw [hep] at h
      simp only [ScanRes.ok.injEq] at h
      obtain ⟨rows1, st1, l1, rows2, hL1, hL2, hR⟩ :=
        feedLoop_split ((c1 ++ c2).length + 1) c1 c2 st0 rows st' lv hbd
          (by omega) hfl
      rw [csvScanRun_cons, if_neg hc1, List.nil_append, hL1]
      dsimp only []
      by_cases hc2 : c2 = []
      · subst hc2
        rw [List.append_nil] at hL2
        rw [csvScanRun_cons cfg [] [] st1 l1,
          if_pos (show (List.isEmpty ([] : List Byte)) = true from rfl)]
        have hstop := feedLoop_stop ((c1 ++ ([] : List Byte)).length + 1) st0
          (c1 ++ []) rows st' lv (by omega) hfl
        rw [eofPhase_eq, hL2]
        dsimp only []
        rw [eofPhase_eq, hstop] at hep
        dsimp only [] at hep
        by_cases hlv : lv.isEmpty = true
        · rw [if_pos hlv] at hep ⊢
          dsimp only []
          simp only [ScanRes.ok.injEq] at hep ⊢
          rw [← h, hR, ← hep, List.append_nil]
        · rw [if_neg hlv] at hep ⊢
          by_cases hneg : (csv_feed_last cfg st' lv).1 < 0
          · rw [if_pos hneg] at hep
            exact absurd hep (by simp)
          · rw [if_neg hneg] at hep ⊢
            by_cases hdr : (lv.drop (csv_feed_last cfg st' lv).1.toNat).isEmpty = true
            · rw [if_pos hdr] at hep ⊢
              dsimp only []
              simp only [ScanRes.ok.injEq, List.nil_append] at hep
              simp only [ScanRes.ok.injEq]
              rw [← h, hR, ← hep, List.append_assoc]
            · rw [if_neg hdr] at hep
              exact absurd hep (by simp)
      · have hc2' : ¬(c2.isEmpty = true) := by
          simp [List.isEmpty_iff, hc2]
        rw [csvScanRun_cons, if_neg hc2', hL2]
        dsimp only []
        rw [csvScanRun_nil, hep]
        dsimp only []
        simp only [ScanRes.ok.injEq]
        rw [← h, hR, List.append_assoc]

/-! ## Claim C1 -/

/-- C1 (counterexample): the spec claims the streaming driver emits the same
rows for every split of the input into two chunks.  Splitting the input
`"a\r\nb\r\n"` between the CR and the LF of the first row terminator makes
`csv_scan` report a parse error (the LF arriving alone is rejected as a bare
CR/LF), while the unsplit input yields the two rows — so the claim fails at
split offsets that separate a CR from its LF. -/
theorem c1_split_counterexample :
    csv_scan 34 34 44 none [[97, 13, 10, 98, 13, 10]] =
      .ok [[some [97]], [some [98]]] ∧
    ¬(csv_scan 34 34 44 none [[97, 13], [10, 98, 13, 10]] =
      .ok [[some [97]], [some [98]]]) := by
  constructor
  · rfl
  · decide

/-- C1 (amended): for every configuration and every split of the input into a
nonempty first chunk and a second chunk, if the split does not fall between a
CR and the LF completing it, then whenever the driver succeeds on the unsplit
input it succeeds on the two-chunk input with exactly the same sequence of
rows. -/
theorem c1_chunked_scan_eq (qte esc delim : Byte) (nullstr : Option (List Byte))
    (c1 c2 : List Byte) (R : List Row)
    (h1 : c1 ≠ [])
    (hbd : ¬(c1.getLast? = some 13 ∧ c2.head? = some 10))
    (h : csv_scan qte esc delim nullstr [c1 ++ c2] = .ok R) :
    csv_scan qte esc delim nullstr [c1, c2] = .ok R :=
  csvScanRun_split h1 hbd h

theorem c1_chunked_scan_eq_witness :
    (([97, 44, 98, 10, 99, 10] : List Byte) ≠ [] ∧
      ¬(([97, 44, 98, 10, 99, 10] : List Byte).getLast? = some 13 ∧
        ([100, 44, 101, 10] : List Byte).head? = some 10) ∧
      csv_scan 34 34 44 none [[97, 44, 98, 10, 99, 10] ++ [100, 44, 101, 10]] =
        .ok [[some [97], some [98]], [some [99]], [some [100], some [101]]]) ∧
    csv_scan 34 34 44 none [[97, 44, 98, 10, 99, 10], [100, 44, 101, 10]] =
      .ok [[some [97], some [98]], [some [99]], [some [100], some [101]]] :=
  ⟨⟨by decide, by decide, by rfl⟩,
   c1_chunked_scan_eq 34 34 44 none [97, 44, 98, 10, 99, 10] [100, 44, 101, 10]
     [[some [97], some [98]], [some [99]], [some [100], some [101]]]
     (by decide) (by decide) (by rfl)⟩

/-! ## Claim C10 -/

/-- C10: whenever `csv_feed` returns a positive consumed-byte count, the
returned row has at least one field — even a row consisting of only a
terminator yields one (empty) field, because `FINISH` always records a field
before the terminator is classified. -/
theorem c10_row_nonempty (cfg : CsvConfig) (st : CsvState) (buf : List Byte)
    (h : 0 < (csv_feed cfg st buf).1) :
    1 ≤ (csv_feed cfg st buf).2.2.1.length := by
  cases hcl : csvLineRun cfg buf with
  | incomplete =>
    rw [csv_feed_of_incomplete st hcl] at h
    norm_num at h
  | err e cno nline nchar =>
    rw [csv_feed_of_err st hcl] at h
    norm_num at h
  | complete k flds nl =>
    have hfacts := runFuel_complete_facts (show runFuel cfg buf (buf.length + 1)
      .fstart 0 0 0 [] = .complete k flds nl from hcl)
    have hlen : 0 < flds.length := by
      have h4 := hfacts.2.2.2
      simp only [List.length_nil] at h4
      exact h4
    rw [csv_feed_of_complete st hcl]
    show 1 ≤ (rowValues (touchup cfg flds buf).1 (touchup cfg flds buf).2).length
    rw [rowValues, List.length_map, touchup_ptrs_length]
    omega

theorem c10_row_nonempty_witness :
    0 < (csv_feed (csv_open 34 34 44 none) initCsvState [10]).1 ∧
    1 ≤ (csv_feed (csv_open 34 34 44 none) initCsvState [10]).2.2.1.length :=
  ⟨by decide, c10_row_nonempty (csv_open 34 34 44 none) initCsvState [10]
    (by decide)⟩

/-! ## Claim C6 -/

/-- C6: the running counters advance exactly on a completed row: a positive
return advances the row count by one and strictly advances the character and
line counters; a 0 return (more input needed) leaves the entire state
unchanged; a negative return (error) leaves the running counters unchanged
(only the error snapshot fields are written). -/
theorem c6_counters (cfg : CsvConfig) (st : CsvState) (buf : List Byte) :
    (0 < (csv_line cfg st buf).1 →
      (csv_line cfg st buf).2.1.rownum = st.rownum + 1 ∧
      st.charnum < (csv_line cfg st buf).2.1.charnum ∧
      st.linenum < (csv_line cfg st buf).2.1.linenum) ∧
    ((csv_line cfg st buf).1 = 0 → (csv_line cfg st buf).2.1 = st) ∧
    ((csv_line cfg st buf).1 < 0 →
      (csv_line cfg st buf).2.1.linenum = st.linenum ∧
      (csv_line cfg st buf).2.1.charnum = st.charnum ∧
      (csv_line cfg st buf).2.1.rownum = st.rownum) := by
  cases hcl : csvLineRun cfg buf with
  | incomplete =>
    rw [csv_line_of_incomplete st hcl]
    exact ⟨fun h => absurd h (by norm_num), fun _ => rfl,
      fun h => absurd h (by norm_num)⟩
  | err e cno nline nchar =>
    rw [csv_line_of_err st hcl]
    exact ⟨fun h => absurd h (by norm_num), fun h => absurd h (by norm_num),
      fun _ => ⟨rfl, rfl, rfl⟩⟩
  | complete k flds nl =>
    have hfacts := runFuel_complete_facts (show runFuel cfg buf (buf.length + 1)
      .fstart 0 0 0 [] = .complete k flds nl from hcl)
    rw [csv_line_of_complete st hcl]
    refine ⟨fun _ => ⟨rfl, ?_, ?_⟩, fun h => ?_, fun h => ?_⟩
    · show st.charnum < st.charnum + (k : Int)
      omega
    · show st.linenum < st.linenum + (nl : Int)
      omega
    · exact absurd h (by show ¬((k : Int) = 0); omega)
    · exact absurd h (by show ¬((k : Int) < 0); omega)

theorem c6_counters_witness :
    0 < (csv_line (csv_open 34 34 44 none) initCsvState [97, 10]).1 ∧
    (csv_line (csv_open 34 34 44 none) initCsvState [97, 10]).2.1.rownum =
      initCsvState.rownum + 1 ∧
    initCsvState.charnum <
      (csv_line (csv_open 34 34 44 none) initCsvState [97, 10]).2.1.charnum ∧
    initCsvState.linenum <
      (csv_line (csv_open 34 34 44 none) initCsvState [97, 10]).2.1.linenum :=
  ⟨by decide,
   (c6_counters (csv_open 34 34 44 none) initCsvState [97, 10]).1 (by decide)⟩

/-! ## Claim C7 -/

/-- C7: the row parse itself never writes the buffer: the buffer returned by
`csv_feed` has the input's length, equals the input whenever no row was
completed (return ≤ 0: `csv_line` alone ran, and it is a pure reader), and
agrees with the input at and beyond the consumed count even when a completed
row was finalized — only `touchup` writes, and only inside the consumed row. -/
theorem c7_buffer_frame (cfg : CsvConfig) (st : CsvState) (buf : List Byte) :
    (csv_feed cfg st buf).2.2.2.length = buf.length ∧
    ((csv_feed cfg st buf).1 ≤ 0 → (csv_feed cfg st buf).2.2.2 = buf) ∧
    (∀ t, (csv_feed cfg st buf).1.toNat ≤ t →
      (csv_feed cfg st buf).2.2.2.getD t 0 = buf.getD t 0) := by
  cases hcl : csvLineRun cfg buf with
  | incomplete =>
    rw [csv_feed_of_incomplete st hcl]
    exact ⟨rfl, fun _ => rfl, fun t _ => rfl⟩
  | err e cno nline nchar =>
    rw [csv_feed_of_err st hcl]
    exact ⟨rfl, fun _ => rfl, fun t _ => rfl⟩
  | complete k flds nl =>
    have hcl' := hcl
    rw [csvLineRun] at hcl'
    have hfacts := runFuel_complete_facts hcl'
    obtain ⟨ext0, hfe, hch, hbdf⟩ := runFuel_complete_struct hcl' trivial
    rw [List.nil_append] at hfe
    subst hfe
    rw [csv_feed_of_complete st hcl]
    refine ⟨touchup_length cfg flds buf, fun h => ?_, fun t ht => ?_⟩
    · exact absurd h (by show ¬((k : Int) ≤ 0); omega)
    · have ht' : k ≤ t := by simpa using ht
      exact touchup_frame_high cfg flds buf hbdf t ht'

theorem c7_buffer_frame_witness :
    ((csv_feed (csv_open 34 34 44 none) initCsvState [97]).1 ≤ 0 ∧
      (csv_feed (csv_open 34 34 44 none) initCsvState [97]).2.2.2 = [97]) ∧
    ((csv_feed (csv_open 34 34 44 none) initCsvState [97, 10]).1.toNat ≤ 2 ∧
      (csv_feed (csv_open 34 34 44 none) initCsvState [97, 10]).2.2.2.getD 2 0 =
        ([97, 10] : List Byte).getD 2 0) :=
  ⟨⟨by decide,
    (c7_buffer_frame (csv_open 34 34 44 none) initCsvState [97]).2.1 (by decide)⟩,
   ⟨by decide,
    (c7_buffer_frame (csv_open 34 34 44 none) initCsvState [97, 10]).2.2 2
      (by decide)⟩⟩

/-! ## Claim C4 -/

/-- C4: a nonempty final buffer not ending in LF goes through the owned copy
with a synthetic LF appended: whenever that parse succeeds, `csv_feed_last`
returns one less than the parser's consumed count and hands back exactly the
row of the LF-terminated parse. -/
theorem c4_feed_last (cfg : CsvConfig) (st : CsvState) (buf : List Byte)
    (hne : ¬(buf = [])) (hlast : ¬(buf.getLast? = some 10))
    (hpos : 0 < (csv_feed cfg st (buf ++ [10])).1) :
    (csv_feed_last cfg st buf).1 = (csv_feed cfg st (buf ++ [10])).1 - 1 ∧
    (csv_feed_last cfg st buf).2.1 = (csv_feed cfg st (buf ++ [10])).2.1 ∧
    (csv_feed_last cfg st buf).2.2.1 = (csv_feed cfg st (buf ++ [10])).2.2.1 := by
  rw [csv_feed_last, if_neg hne, if_neg hlast]
  exact ⟨by rw [if_pos hpos], rfl, rfl⟩

theorem c4_feed_last_witness :
    (¬(([97, 44, 98] : List Byte) = []) ∧
      ¬(([97, 44, 98] : List Byte).getLast? = some 10) ∧
      0 < (csv_feed (csv_open 34 34 44 none) initCsvState ([97, 44, 98] ++ [10])).1) ∧
    (csv_feed_last (csv_open 34 34 44 none) initCsvState [97, 44, 98]).1 =
      (csv_feed (csv_open 34 34 44 none) initCsvState ([97, 44, 98] ++ [10])).1 - 1 ∧
    (csv_feed_last (csv_open 34 34 44 none) initCsvState [97, 44, 98]).1 = 3 ∧
    (csv_feed_last (csv_open 34 34 44 none) initCsvState [97, 44, 98]).2.2.1 =
      [some [97], some [98]] :=
  ⟨⟨by decide, by decide, by decide⟩,
   (c4_feed_last (csv_open 34 34 44 none) initCsvState [97, 44, 98]
      (by decide) (by decide) (by decide)).1,
   by decide, by decide⟩

/-! ## Claim C9 -/

theorem strncpy_set_takeWhile :
    ∀ (t : List Byte) (n : Nat), (∀ b ∈ t, b ≠ 0) →
      ((t.take (n + 1) ++
          List.replicate (n + 1 - (t.take (n + 1)).length) 0).set n 0).takeWhile
        (· != 0) = t.take n := by
  intro t
  induction t with
  | nil =>
    intro n _
    rw [List.take_nil, List.take_nil, List.nil_append, List.length_nil,
      Nat.sub_zero]
    cases n with
    | zero =>
      rw [List.replicate_succ, List.set_cons_zero, List.takeWhile_cons]
      norm_num
    | succ m =>
      rw [List.replicate_succ, List.set_cons_succ, List.takeWhile_cons]
      norm_num
  | cons b bs ih =>
    intro n hb
    have hb0 : b ≠ 0 := hb b (List.mem_cons_self _ _)
    cases n with
    | zero => rfl
    | succ m =>
      rw [List.take_succ_cons, List.take_succ_cons]
      rw [List.length_cons, List.cons_append, List.set_cons_succ,
        List.takeWhile_cons]
      have hbne : (b != 0) = true := by simpa using hb0
      rw [hbne]
      simp only [if_true]
      have harith : m + 1 + 1 - ((bs.take (m + 1)).length + 1) =
          m + 1 - (bs.take (m + 1)).length := by omega
      rw [harith, ih m (fun x hx => hb x (List.mem_cons_of_mem b hx))]

/-- C9: the stored null marker is the argument's C-string content truncated to
its first 19 bytes (the forced NUL at index 19 of the 20-byte array bounds the
stored string), and `nullstrsz` is exactly the stored length, hence at most
19. -/
theorem c9_null_marker_bound (qte esc delim : Byte) (ns : List Byte) :
    (csv_open qte esc delim (some ns)).nullstr =
      (ns.takeWhile (· != 0)).take 19 ∧
    (csv_open qte esc delim (some ns)).nullstrsz =
      ((ns.takeWhile (· != 0)).take 19).length ∧
    (csv_open qte esc delim (some ns)).nullstrsz ≤ 19 := by
  have hkey : ((strncpyBuf20 ns).set 19 0).takeWhile (· != 0) =
      (ns.takeWhile (· != 0)).take 19 := by
    have ht : ∀ b ∈ ns.takeWhile (· != 0), b ≠ 0 := by
      intro b hbmem
      have := List.mem_takeWhile_imp hbmem
      simpa using this
    have h20 : (20 : Nat) = 19 + 1 := rfl
    rw [strncpyBuf20]
    rw [show ((ns.takeWhile (fun b => b != 0)).take 20) =
      ((ns.takeWhile (fun b => b != 0)).take (19 + 1)) from rfl]
    exact strncpy_set_takeWhile (ns.takeWhile (· != 0)) 19 ht
  refine ⟨?_, ?_, ?_⟩
  · show ((strncpyBuf20 ns).set 19 0).takeWhile (· != 0) =
      (ns.takeWhile (· != 0)).take 19
    exact hkey
  · show (((strncpyBuf20 ns).set 19 0).takeWhile (· != 0)).length =
      ((ns.takeWhile (· != 0)).take 19).length
    rw [hkey]
  · show (((strncpyBuf20 ns).set 19 0).takeWhile (· != 0)).length ≤ 19
    rw [hkey, List.length_take]
    omega

/-! ## Claim C3 -/

/-- C3 (counterexample): the defaulted configuration stores the empty null
marker, and then an empty field — here the only field of the row `"\n"` —
resolves to the null value, refuting the claim that an empty marker makes
every field a non-null string. -/
theorem c3_empty_marker_counterexample :
    (csv_open 34 34 44 none).nullstr = [] ∧
    csv_scan 34 34 44 none [[10]] = .ok [[none]] := by
  exact ⟨rfl, rfl⟩

/-- C3 (amended): a field with no recorded escape is finalized to the null
value exactly when its byte span equals the stored null marker — in
particular, with an empty marker an empty field is null (not a non-null empty
string), and with marker `NULL` a field spelling `NULL` is null. -/
theorem c3_null_marker (cfg : CsvConfig) (buf : List Byte) (f : Field)
    (hesc : f.escptr = none) :
    ((touchupField cfg buf f).2 = none ↔
      (f.len = cfg.nullstrsz ∧ (buf.drop f.start).take f.len = cfg.nullstr)) := by
  obtain ⟨st, len, ep⟩ := f
  simp only [] at hesc
  subst hesc
  rw [touchupField_none_eq]
  have hsl : ((buf.set (st + len) 0).drop st).take len = (buf.drop st).take len :=
    slice_eq_of_take_eq (take_set_of_le (le_refl (st + len))) (le_refl (st + len))
  by_cases hc : len = cfg.nullstrsz ∧
      ((buf.set (st + len) 0).drop st).take len = cfg.nullstr
  · rw [if_pos hc]
    simp only []
    exact ⟨fun _ => ⟨hc.1, by rw [← hsl]; exact hc.2⟩, fun _ => trivial⟩
  · rw [if_neg hc]
    simp only []
    exact ⟨fun h => absurd h (by simp), fun h => absurd ⟨h.1, by rw [hsl]; exact h.2⟩ hc⟩

theorem c3_null_marker_witness :
    ((Field.escptr ⟨0, 4, none⟩ = none) ∧
      (touchupField (csv_open 34 34 44 (some [78, 85, 76, 76]))
        [78, 85, 76, 76, 10] ⟨0, 4, none⟩).2 = none) ∧
    ((touchupField (csv_open 34 34 44 (some [78, 85, 76, 76]))
        [78, 85, 76, 76, 10] ⟨0, 4, none⟩).2 = none ↔
      (Field.len ⟨0, 4, none⟩ = (csv_open 34 34 44 (some [78, 85, 76, 76])).nullstrsz ∧
       (([78, 85, 76, 76, 10] : List Byte).drop (Field.start ⟨0, 4, (none : Option Nat)⟩)).take
          (Field.len ⟨0, 4, (none : Option Nat)⟩) =
         (csv_open 34 34 44 (some [78, 85, 76, 76])).nullstr)) :=
  ⟨⟨rfl, by decide⟩,
   c3_null_marker (csv_open 34 34 44 (some [78, 85, 76, 76]))
     [78, 85, 76, 76, 10] ⟨0, 4, none⟩ rfl⟩

/-! ## Special-free scans: claims C2 and C5 -/

theorem findSpec_none_of_free (cfg : CsvConfig) :
    ∀ (l : List Byte), (∀ b ∈ l, specialb cfg b = false) →
      findSpec cfg l = none := by
  intro l
  induction l with
  | nil => intro _; rfl
  | cons b bs ih =>
    intro h
    rw [findSpec_cons, if_neg (by rw [h b (List.mem_cons_self _ _)]; simp),
      ih (fun x hx => h x (List.mem_cons_of_mem b hx))]
    rfl

theorem findSpec_free_cons (cfg : CsvConfig) :
    ∀ (p : List Byte) (c : Byte) (t : List Byte),
      (∀ b ∈ p, specialb cfg b = false) → specialb cfg c = true →
      findSpec cfg (p ++ c :: t) = some p.length := by
  intro p
  induction p with
  | nil =>
    intro c t _ hc
    rw [List.nil_append, findSpec_cons, if_pos hc, List.length_nil]
  | cons b bs ih =>
    intro c t hp hc
    rw [List.cons_append, findSpec_cons,
      if_neg (by rw [hp b (List.mem_cons_self _ _)]; simp),
      ih c t (fun x hx => hp x (List.mem_cons_of_mem b hx)) hc,
      Option.map_some', List.length_cons]

theorem scanNext_free_cons (cfg : CsvConfig) (p : List Byte) (c : Byte)
    (t : List Byte) (hp : ∀ b ∈ p, specialb cfg b = false)
    (hc : specialb cfg c = true) :
    scanNext cfg (p ++ c :: t) 0 = some p.length := by
  rw [scanNext, List.drop_zero, findSpec_free_cons cfg p c t hp hc,
    Option.map_some', Nat.zero_add]

theorem getD_append_mid (p l : List Byte) (d : Nat) :
    (p ++ l).getD (p.length + d) 0 = l.getD d 0 := by
  rw [List.getD_eq_getElem?_getD, List.getD_eq_getElem?_getD,
    List.getElem?_append_right (Nat.le_add_right _ _),
    Nat.add_sub_cancel_left]

/-- A buffer with no special byte at all never reaches a terminator: the very
first `START_VAL` scan exhausts the buffer and the machine reports incomplete. -/
theorem csvLineRun_free_incomplete (cfg : CsvConfig) (buf : List Byte)
    (h : ∀ b ∈ buf, specialb cfg b = false) :
    csvLineRun cfg buf = .incomplete := by
  rw [csvLineRun]
  refine stepF_none ?_
  rw [scanNext, List.drop_zero, findSpec_none_of_free cfg buf h]
  rfl

/-- Inside a quoted value, a tail free of quote and escape bytes can only end
in an exhausted scan: the machine skips every other byte as a literal. -/
theorem runFuel_quoted_free (cfg : CsvConfig) (buf : List Byte) :
    ∀ (F : Nat) (fs : Nat) (ep : Option Nat) (i cno nline : Nat)
      (acc : List Field),
      (∀ j, i ≤ j → j < buf.length →
        buf.getD j 0 ≠ cfg.qte ∧ buf.getD j 0 ≠ cfg.esc) →
      runFuel cfg buf F (.quoted fs ep) i cno nline acc = .incomplete := by
  intro F
  induction F with
  | zero => intro fs ep i cno nline acc _; rw [runFuel_zero]
  | succ F ih =>
    intro fs ep i cno nline acc hfree
    cases hsn : scanNext cfg buf i with
    | none => exact stepQ_none hsn
    | some j =>
      rw [stepQ_some hsn]
      have hjb := scanNext_some_bounds hsn
      obtain ⟨hnq, hne⟩ := hfree j hjb.1 hjb.2
      rw [if_neg hnq, if_neg hne]
      exact ih fs ep (j + 1) cno _ acc (fun t ht1 ht2 => hfree t (by omega) ht2)

/-- A buffer opening a quoted value whose remaining bytes contain neither the
quote nor the escape is an unterminated quoted field: incomplete. -/
theorem csvLineRun_open_quote_incomplete (cfg : CsvConfig) (content : List Byte)
    (hfree : ∀ b ∈ content, b ≠ cfg.qte ∧ b ≠ cfg.esc) :
    csvLineRun cfg (cfg.qte :: content) = .incomplete := by
  rw [csvLineRun]
  have hsn : scanNext cfg (cfg.qte :: content) 0 = some 0 := by
    rw [scanNext, List.drop_zero, findSpec_cons,
      if_pos (by rw [specialb]; simp)]
    rfl
  rw [stepF_some hsn, if_pos ⟨rfl, rfl⟩]
  refine runFuel_quoted_free cfg (cfg.qte :: content) _ 0 none 1 0 0 []
    (fun j h1 h2 => ?_)
  rw [List.length_cons] at h2
  have hj : j = j - 1 + 1 := by omega
  rw [hj, List.getD_cons_succ]
  have hmem : content.getD (j - 1) 0 ∈ content := by
    rw [List.getD_eq_getElem _ _ (show j - 1 < content.length by omega)]
    exact List.getElem_mem _
  exact hfree _ hmem

/-! ## Claim C2 -/

/-- C2 (counterexample): a buffer ending right after a CR is not reported as
incomplete: `csv_line` rejects the CR whose following byte is simply not
available yet as a `CSV_ECRLF` error (return `-1`), so the parse cannot be
restarted on a larger buffer. -/
theorem c2_cr_at_end_counterexample :
    (csv_line (csv_open 34 34 44 none) initCsvState [97, 13]).1 = -1 ∧
    (csv_line (csv_open 34 34 44 none) initCsvState [97, 13]).2.1.errnum =
      some .ecrlf := by
  exact ⟨rfl, rfl⟩

/-- C2 (amended): reaching the end of the available bytes before the row's
terminator yields 0, whatever state the machine is in — mid-field, after a
closing quote, or inside a quoted value: whenever the available bytes are a
proper prefix of an input whose row completes only past their end (and the
missing bytes do not split a CRLF terminator, the one exception the code
makes: a buffer ending directly after a CR is rejected as `CSV_ECRLF`
instead of reported incomplete), `csv_line` returns 0 with the parser state
unchanged; and any 0 return is fully restartable — the state and the buffer
come back untouched. -/
theorem c2_incomplete_restart (cfg : CsvConfig) (st : CsvState) (u : List Byte) :
    (∀ (v : List Byte) (k : Nat) (flds : List Field) (nl : Nat),
      ¬(u.getLast? = some 13 ∧ v.head? = some 10) →
      csvLineRun cfg (u ++ v) = .complete k flds nl →
      u.length < k →
      csv_line cfg st u = (0, st, [])) ∧
    ((csv_line cfg st u).1 = 0 →
      (csv_line cfg st u).2.1 = st ∧ (csv_feed cfg st u).2.2.2 = u) := by
  constructor
  · intro v k flds nl hbd hcl hk
    rcases csvLineRun_prefix hbd with heq | hinc
    · exfalso
      have hfacts := runFuel_complete_facts (show runFuel cfg u (u.length + 1)
        .fstart 0 0 0 [] = .complete k flds nl from heq.trans hcl)
      omega
    · exact csv_line_of_incomplete st hinc
  · intro h
    cases hcl : csvLineRun cfg u with
    | incomplete =>
      rw [csv_line_of_incomplete st hcl]
      exact ⟨rfl, by rw [csv_feed_of_incomplete st hcl]⟩
    | err e cno nline nchar =>
      rw [csv_line_of_err st hcl] at h
      norm_num at h
    | complete k flds nl =>
      have hfacts := runFuel_complete_facts (show runFuel cfg u (u.length + 1)
        .fstart 0 0 0 [] = .complete k flds nl from hcl)
      rw [csv_line_of_complete st hcl] at h
      exact absurd h (by show ¬((k : Int) = 0); omega)

theorem c2_incomplete_restart_witness :
    ((¬(([97, 44, 98] : List Byte).getLast? = some 13 ∧
          ([10] : List Byte).head? = some 10) ∧
        csvLineRun (csv_open 34 34 44 none) ([97, 44, 98] ++ [10]) =
          .complete 4 [⟨0, 1, none⟩, ⟨2, 1, none⟩] 1 ∧
        ([97, 44, 98] : List Byte).length < 4 ∧
        csv_line (csv_open 34 34 44 none) initCsvState [97, 44, 98] =
          (0, initCsvState, [])) ∧
      (¬(([34, 97, 34] : List Byte).getLast? = some 13 ∧
          ([10] : List Byte).head? = some 10) ∧
        csvLineRun (csv_open 34 34 44 none) ([34, 97, 34] ++ [10]) =
          .complete 4 [⟨1, 1, none⟩] 1 ∧
        ([34, 97, 34] : List Byte).length < 4 ∧
        csv_line (csv_open 34 34 44 none) initCsvState [34, 97, 34] =
          (0, initCsvState, [])) ∧
      (¬(([34, 97, 34, 34, 98] : List Byte).getLast? = some 13 ∧
          ([34, 10] : List Byte).head? = some 10) ∧
        csvLineRun (csv_open 34 34 44 none) ([34, 97, 34, 34, 98] ++ [34, 10]) =
          .complete 7 [⟨1, 4, some 2⟩] 1 ∧
        ([34, 97, 34, 34, 98] : List Byte).length < 7 ∧
        csv_line (csv_open 34 34 44 none) initCsvState [34, 97, 34, 34, 98] =
          (0, initCsvState, []))) ∧
    ((csv_line (csv_open 34 34 44 none) initCsvState [97, 44, 98]).1 = 0 ∧
      (csv_line (csv_open 34 34 44 none) initCsvState [97, 44, 98]).2.1 =
        initCsvState ∧
      (csv_feed (csv_open 34 34 44 none) initCsvState [97, 44, 98]).2.2.2 =
        [97, 44, 98]) :=
  ⟨⟨⟨by decide, by rfl, by decide,
     (c2_incomplete_restart (csv_open 34 34 44 none) initCsvState
        [97, 44, 98]).1 [10] 4 [⟨0, 1, none⟩, ⟨2, 1, none⟩] 1
       (by decide) (by rfl) (by decide)⟩,
    ⟨by decide, by rfl, by decide,
     (c2_incomplete_restart (csv_open 34 34 44 none) initCsvState
        [34, 97, 34]).1 [10] 4 [⟨1, 1, none⟩] 1
       (by decide) (by rfl) (by decide)⟩,
    ⟨by decide, by rfl, by decide,
     (c2_incomplete_restart (csv_open 34 34 44 none) initCsvState
        [34, 97, 34, 34, 98]).1 [34, 10] 7 [⟨1, 4, some 2⟩] 1
       (by decide) (by rfl) (by decide)⟩⟩,
   ⟨by decide,
    ((c2_incomplete_restart (csv_open 34 34 44 none) initCsvState
        [97, 44, 98]).2 (by decide)).1,
    ((c2_incomplete_restart (csv_open 34 34 44 none) initCsvState
        [97, 44, 98]).2 (by decide)).2⟩⟩

/-! ## Claim C5 -/

theorem finishStep_cr_good (cfg : CsvConfig) (buf : List Byte) (fs j : Nat)
    (ep : Option Nat) (qd : Bool) (cno nline : Nat) (acc : List Field)
    (hd : buf.getD j 0 ≠ cfg.delim) (h13 : buf.getD j 0 = 13)
    (hlf : j + 1 < buf.length ∧ buf.getD (j + 1) 0 = 10) :
    finishStep cfg buf fs j ep qd cno nline acc =
      .out (.complete (j + 2) (acc ++ [mkField qd fs j ep]) (nline + 1)) := by
  rcases finishStep_cases cfg buf fs j ep qd cno nline acc with
    ⟨h1, _⟩ | ⟨_, h2, _⟩ | ⟨_, _, _, _, he⟩ | ⟨_, _, _, hn, _⟩ | ⟨_, _, h3, _⟩
  · exact absurd h1 hd
  · rw [h13] at h2; norm_num at h2
  · exact he
  · exact absurd hlf hn
  · exact absurd h13 h3

theorem finishStep_cr_bad (cfg : CsvConfig) (buf : List Byte) (fs j : Nat)
    (ep : Option Nat) (qd : Bool) (cno nline : Nat) (acc : List Field)
    (hd : buf.getD j 0 ≠ cfg.delim) (h13 : buf.getD j 0 = 13)
    (hlf : ¬(j + 1 < buf.length ∧ buf.getD (j + 1) 0 = 10)) :
    finishStep cfg buf fs j ep qd cno nline acc =
      .out (.err .ecrlf (cno + 1) nline (j + 1)) := by
  rcases finishStep_cases cfg buf fs j ep qd cno nline acc with
    ⟨h1, _⟩ | ⟨_, h2, _⟩ | ⟨_, _, _, hy, _⟩ | ⟨_, _, _, _, he⟩ | ⟨_, _, h3, _⟩
  · exact absurd h1 hd
  · rw [h13] at h2; norm_num at h2
  · exact absurd hy hlf
  · exact he
  · exact absurd h13 h3

/-- The row machine on a special-free field followed by CR: the CR terminates
the row exactly when the next byte is available and is LF; any other available
byte is a `CSV_ECRLF` error positioned just past the CR. -/
theorem csvLineRun_free_cr (cfg : CsvConfig) (p : List Byte) (x : Byte)
    (rest : List Byte) (hp : ∀ b ∈ p, specialb cfg b = false)
    (hq : cfg.qte ≠ 13) (hd : cfg.delim ≠ 13) :
    (x = 10 → csvLineRun cfg (p ++ 13 :: x :: rest) =
      .complete (p.length + 2) [⟨0, p.length, none⟩] 1) ∧
    (x ≠ 10 → csvLineRun cfg (p ++ 13 :: x :: rest) =
      .err .ecrlf 1 0 (p.length + 1)) := by
  have hsn : scanNext cfg (p ++ 13 :: x :: rest) 0 = some p.length :=
    scanNext_free_cons cfg p 13 (x :: rest) hp (by rw [specialb]; simp)
  have hg13 : (p ++ 13 :: x :: rest).getD p.length 0 = 13 := by
    have h0 := getD_append_mid p (13 :: x :: rest) 0
    rw [Nat.add_zero] at h0
    exact h0
  have hgx : (p ++ 13 :: x :: rest).getD (p.length + 1) 0 = x :=
    getD_append_mid p (13 :: x :: rest) 1
  have hlen : (p ++ 13 :: x :: rest).length = p.length + (rest.length + 2) := by
    rw [List.length_append, List.length_cons, List.length_cons]
  have hnq : ¬(p.length = 0 ∧ (p ++ 13 :: x :: rest).getD p.length 0 = cfg.qte) :=
    fun hcon => hq (hcon.2.symm.trans hg13)
  constructor
  · intro hx10
    rw [csvLineRun, stepF_some hsn, if_neg hnq,
      finishStep_cr_good cfg _ 0 p.length none false 0 0 []
        (by rw [hg13]; exact fun hcc => hd hcc.symm) hg13
        ⟨by omega, by rw [hgx]; exact hx10⟩]
    dsimp only []
    rw [mkField_false]
    rfl
  · intro hx
    rw [csvLineRun, stepF_some hsn, if_neg hnq,
      finishStep_cr_bad cfg _ 0 p.length none false 0 0 []
        (by rw [hg13]; exact fun hcc => hd hcc.symm) hg13
        (fun hcon => hx (hgx ▸ hcon.2))]

/-- C5 (counterexample): an input ending in a lone CR processed through the
end-of-stream path does not produce a `CSV_ECRLF` error: `csv_feed_last`
appends a synthetic LF which silently completes the CR into a CRLF
terminator, yielding a successful row. -/
theorem c5_feed_last_counterexample :
    0 < (csv_feed_last (csv_open 34 34 44 none) initCsvState [97, 13]).1 ∧
    (csv_feed_last (csv_open 34 34 44 none) initCsvState [97, 13]).2.1.errnum =
      none ∧
    (csv_feed_last (csv_open 34 34 44 none) initCsvState [97, 13]).2.2.1 =
      [some [97]] := by
  exact ⟨by decide, rfl, rfl⟩

/-- C5 (amended): within a buffer, a CR after a special-free field completes a
row only when the next available byte is LF — any other available byte makes
`csv_line` fail with `CSV_ECRLF` positioned right after the CR.  But an input
whose last byte is a lone CR fed through the end-of-stream path is *not* an
error: the synthetic LF appended by `csv_feed_last` completes the row
silently. -/
theorem c5_cr_lf_requirement (cfg : CsvConfig) (st : CsvState) (p : List Byte)
    (x : Byte) (rest : List Byte) (hp : ∀ b ∈ p, specialb cfg b = false)
    (hq : cfg.qte ≠ 13) (hd : cfg.delim ≠ 13) :
    (x ≠ 10 → csv_line cfg st (p ++ 13 :: x :: rest) =
      (-1, reterr st .ecrlf 1 0 (p.length + 1), [])) ∧
    (x = 10 → (csv_line cfg st (p ++ 13 :: x :: rest)).1 =
      ((p.length + 2 : Nat) : Int)) ∧
    ((csv_feed_last cfg st (p ++ [13])).1 = ((p.length + 1 : Nat) : Int) ∧
      (csv_feed_last cfg st (p ++ [13])).2.1.errnum = st.errnum) := by
  obtain ⟨hgood, hbad⟩ := csvLineRun_free_cr cfg p x rest hp hq hd
  refine ⟨fun hx => ?_, fun hx10 => ?_, ?_⟩
  · exact csv_line_of_err st (hbad hx)
  · rw [csv_line_of_complete st (hgood hx10)]
  · obtain ⟨hgood2, _⟩ := csvLineRun_free_cr cfg p 10 [] hp hq hd
    have hcl : csvLineRun cfg ((p ++ [13]) ++ [10]) =
        .complete (p.length + 2) [⟨0, p.length, none⟩] 1 := by
      rw [List.append_assoc]
      exact hgood2 rfl
    have hfeed := csv_feed_of_complete st hcl
    have hne : ¬(p ++ [13] = []) := by simp
    have hglast : (p ++ [13]).getLast? = ([13] : List Byte).getLast? :=
      List.getLast?_append_of_ne_nil p (by simp)
    have hlast : ¬((p ++ [13]).getLast? = some 10) := by
      rw [hglast]
      simp
    rw [csv_feed_last, if_neg hne, if_neg hlast, hfeed]
    refine ⟨?_, rfl⟩
    rw [if_pos (by push_cast; omega)]
    push_cast
    omega

theorem c5_cr_lf_requirement_witness :
    ((∀ b ∈ ([97] : List Byte), specialb (csv_open 34 34 44 none) b = false) ∧
      (csv_open 34 34 44 none).qte ≠ 13 ∧
      (csv_open 34 34 44 none).delim ≠ 13 ∧ (98 : Byte) ≠ 10) ∧
    csv_line (csv_open 34 34 44 none) initCsvState ([97] ++ 13 :: 98 :: []) =
      (-1, reterr initCsvState .ecrlf 1 0 (([97] : List Byte).length + 1), []) :=
  ⟨⟨by decide, by decide, by decide, by decide⟩,
   (c5_cr_lf_requirement (csv_open 34 34 44 none) initCsvState [97] 98 []
      (by decide) (by decide) (by decide)).1 (by decide)⟩

/-! ## Claim C8: the quote-doubling convention -/

/-- Double every occurrence of the quote byte (the writer-side convention the
claim quantifies over: every embedded quote byte appears doubled). -/
def dbl (q : Byte) : List Byte → List Byte
  | [] => []
  | b :: bs => if b = q then q :: q :: dbl q bs else b :: dbl q bs

/-- Index of the first quote byte of the content, if any. -/
def firstQ (q : Byte) : List Byte → Option Nat
  | [] => none
  | b :: bs => if b = q then some 0 else (firstQ q bs).map (· + 1)

/-- Number of LF bytes of the content (each is a literal line break inside a
quoted value). -/
def count10 : List Byte → Nat
  | [] => 0
  | b :: bs => (if b = 10 then 1 else 0) + count10 bs

/-- The escape pointer after scanning the content `r` from buffer position
`i`: an already-recorded pointer is kept, else the first doubled quote's
buffer position is recorded. -/
def epAfter (q : Byte) (ep : Option Nat) (i : Nat) (r : List Byte) : Option Nat :=
  match ep with
  | some e => some e
  | none => (firstQ q r).map (i + ·)

theorem dbl_nil (q : Byte) : dbl q [] = [] := rfl

theorem dbl_cons (q b : Byte) (bs : List Byte) :
    dbl q (b :: bs) = if b = q then q :: q :: dbl q bs else b :: dbl q bs := rfl

theorem firstQ_nil (q : Byte) : firstQ q [] = none := rfl

theorem firstQ_cons (q b : Byte) (bs : List Byte) :
    firstQ q (b :: bs) = if b = q then some 0 else (firstQ q bs).map (· + 1) := rfl

theorem count10_nil : count10 [] = 0 := rfl

theorem count10_cons (b : Byte) (bs : List Byte) :
    count10 (b :: bs) = (if b = 10 then 1 else 0) + count10 bs := rfl

theorem epAfter_nil (q : Byte) (ep : Option Nat) (i : Nat) :
    epAfter q ep i [] = ep := by
  cases ep with
  | none => rfl
  | some e => rfl

theorem epAfter_cons_q (q : Byte) (ep : Option Nat) (i : Nat) (bs : List Byte) :
    epAfter q ep i (q :: bs) = some (ep.getD i) := by
  cases ep with
  | none =>
    show (firstQ q (q :: bs)).map (i + ·) = some i
    rw [firstQ_cons, if_pos rfl, Option.map_some', Nat.add_zero]
  | some e => rfl

theorem epAfter_cons_ne (q b : Byte) (ep : Option Nat) (i : Nat) (bs : List Byte)
    (hb : b ≠ q) : epAfter q ep i (b :: bs) = epAfter q ep (i + 1) bs := by
  cases ep with
  | none =>
    show (firstQ q (b :: bs)).map (i + ·) = (firstQ q bs).map (i + 1 + ·)
    rw [firstQ_cons, if_neg hb]
    cases hf : firstQ q bs with
    | none => rfl
    | some m =>
      rw [Option.map_some', Option.map_some', Option.map_some']
      congr 1
      omega
  | some e => rfl

theorem dbl_append (q : Byte) :
    ∀ (u v : List Byte), dbl q (u ++ v) = dbl q u ++ dbl q v := by
  intro u v
  induction u with
  | nil => rfl
  | cons b bs ih =>
    rw [List.cons_append, dbl_cons, dbl_cons]
    by_cases hb : b = q
    · rw [if_pos hb, if_pos hb, ih, List.cons_append, List.cons_append]
    · rw [if_neg hb, if_neg hb, ih, List.cons_append]

theorem dbl_of_free (q : Byte) :
    ∀ (u : List Byte), (∀ b ∈ u, b ≠ q) → dbl q u = u := by
  intro u
  induction u with
  | nil => intro _; rfl
  | cons b bs ih =>
    intro h
    rw [dbl_cons, if_neg (h b (List.mem_cons_self _ _)),
      ih (fun x hx => h x (List.mem_cons_of_mem b hx))]

theorem firstQ_none_free (q : Byte) :
    ∀ (u : List Byte), firstQ q u = none → ∀ b ∈ u, b ≠ q := by
  intro u
  induction u with
  | nil => intro _ b hb; cases hb
  | cons b bs ih =>
    intro h x hx
    rw [firstQ_cons] at h
    by_cases hb : b = q
    · rw [if_pos hb] at h; cases h
    · rw [if_neg hb] at h
      rcases List.mem_cons.mp hx with hx1 | hx2
      · rw [hx1]; exact hb
      · refine ih ?_ x hx2
        cases hf : firstQ q bs with
        | none => rfl
        | some m => rw [hf, Option.map_some'] at h; cases h

theorem firstQ_some_decomp (q : Byte) :
    ∀ (u : List Byte) (m : Nat), firstQ q u = some m →
      ∃ a c', u = a ++ q :: c' ∧ a.length = m ∧ (∀ b ∈ a, b ≠ q) := by
  intro u
  induction u with
  | nil => intro m h; cases h
  | cons b bs ih =>
    intro m h
    rw [firstQ_cons] at h
    by_cases hb : b = q
    · rw [if_pos hb] at h
      injection h with h
      subst h
      exact ⟨[], bs, by rw [hb, List.nil_append], rfl, fun x hx => absurd hx (by simp)⟩
    · rw [if_neg hb] at h
      cases hf : firstQ q bs with
      | none => rw [hf] at h; cases h
      | some m' =>
        rw [hf, Option.map_some'] at h
        injection h with h
        obtain ⟨a, c', hu, hlen, hfree⟩ := ih m' hf
        refine ⟨b :: a, c', by rw [hu, List.cons_append], by rw [List.length_cons]; omega, ?_⟩
        intro x hx
        rcases List.mem_cons.mp hx with hx1 | hx2
        · rw [hx1]; exact hb
        · exact hfree x hx2

theorem getD_drop' (buf : List Byte) (i d : Nat) :
    (buf.drop i).getD d 0 = buf.getD (i + d) 0 := by
  rw [List.getD_eq_getElem?_getD, List.getD_eq_getElem?_getD, List.getElem?_drop]

theorem cstr_of_getD :
    ∀ (r : List Byte) (X : List Byte) (p : Nat),
      (∀ t, t < r.length → X.getD (p + t) 0 = r.getD t 0) →
      (∀ b ∈ r, b ≠ 0) → X.getD (p + r.length) 0 = 0 →
      cstr X p = r := by
  intro r
  induction r with
  | nil =>
    intro X p _ _ hz
    simp only [List.length_nil, Nat.add_zero] at hz
    rw [cstr_step, if_pos hz]
  | cons b bs ih =>
    intro X p h h0 hz
    have hb : X.getD p 0 = b := by
      have := h 0 (by rw [List.length_cons]; omega)
      rw [Nat.add_zero] at this
      exact this
    rw [cstr_step, hb,
      if_neg (h0 b (List.mem_cons_self _ _)), ih X (p + 1) ?_ ?_ ?_]
    · intro t ht
      have := h (t + 1) (by rw [List.length_cons]; omega)
      rw [show p + (t + 1) = p + 1 + t by omega] at this
      rw [this, List.getD_cons_succ]
    · exact fun x hx => h0 x (List.mem_cons_of_mem b hx)
    · rw [show p + 1 + bs.length = p + (b :: bs).length by rw [List.length_cons]; omega]
      exact hz

theorem findQE_none_of_free (cfg : CsvConfig) :
    ∀ (l : List Byte), (∀ b ∈ l, ¬(b = cfg.qte ∨ b = cfg.esc)) →
      findQE cfg l = none := by
  intro l
  induction l with
  | nil => intro _; rfl
  | cons b bs ih =>
    intro h
    rw [findQE_cons, if_neg (h b (List.mem_cons_self _ _)),
      ih (fun x hx => h x (List.mem_cons_of_mem b hx))]
    rfl

theorem findQE_free_cons (cfg : CsvConfig) :
    ∀ (a : List Byte) (c : Byte) (t : List Byte),
      (∀ b ∈ a, ¬(b = cfg.qte ∨ b = cfg.esc)) → (c = cfg.qte ∨ c = cfg.esc) →
      findQE cfg (a ++ c :: t) = some a.length := by
  intro a
  induction a with
  | nil =>
    intro c t _ hc
    rw [List.nil_append, findQE_cons, if_pos hc, List.length_nil]
  | cons b bs ih =>
    intro c t ha hc
    rw [List.cons_append, findQE_cons,
      if_neg (ha b (List.mem_cons_self _ _)),
      ih c t (fun x hx => ha x (List.mem_cons_of_mem b hx)) hc,
      Option.map_some', List.length_cons]

theorem scanNext_self {cfg : CsvConfig} {buf : List Byte} {i : Nat}
    (hlen : i < buf.length) (hs : specialb cfg (buf.getD i 0) = true) :
    scanNext cfg buf i = some i := by
  rw [scanNext, List.drop_eq_getElem_cons hlen, findSpec_cons,
    if_pos (by rw [← List.getD_eq_getElem buf 0 hlen]; exact hs),
    Option.map_some', Nat.add_zero]

theorem scanNext_skip {cfg : CsvConfig} {buf : List Byte} {i : Nat}
    (h : specialb cfg (buf.getD i 0) = false) :
    scanNext cfg buf i = scanNext cfg buf (i + 1) := by
  by_cases hlen : i < buf.length
  · rw [scanNext, scanNext, List.drop_eq_getElem_cons hlen, findSpec_cons,
      if_neg (by rw [← List.getD_eq_getElem buf 0 hlen, h]; simp)]
    cases hfs : findSpec cfg (buf.drop (i + 1)) with
    | none => rfl
    | some m =>
      rw [Option.map_some', Option.map_some', Option.map_some']
      congr 1
      omega
  · rw [scanNext_none_of_ge (by omega), scanNext_none_of_ge (by omega)]

theorem runFuel_quoted_skip (cfg : CsvConfig) (buf : List Byte) (F : Nat)
    (fs : Nat) (ep : Option Nat) (i cno nline : Nat) (acc : List Field)
    (h : specialb cfg (buf.getD i 0) = false) :
    runFuel cfg buf (F + 1) (.quoted fs ep) i cno nline acc =
      runFuel cfg buf (F + 1) (.quoted fs ep) (i + 1) cno nline acc := by
  have hs : scanNext cfg buf i = scanNext cfg buf (i + 1) := scanNext_skip h
  cases hsn : scanNext cfg buf (i + 1) with
  | none => rw [stepQ_none (hs.trans hsn), stepQ_none hsn]
  | some j => rw [stepQ_some (hs.trans hsn), stepQ_some hsn]

theorem finishStep_lf (cfg : CsvConfig) (buf : List Byte) (fs j : Nat)
    (ep : Option Nat) (qd : Bool) (cno nline : Nat) (acc : List Field)
    (hd : buf.getD j 0 ≠ cfg.delim) (h10 : buf.getD j 0 = 10) :
    finishStep cfg buf fs j ep qd cno nline acc =
      .out (.complete (j + 1) (acc ++ [mkField qd fs j ep]) (nline + 1)) := by
  rcases finishStep_cases cfg buf fs j ep qd cno nline acc with
    ⟨h1, _⟩ | ⟨_, _, he⟩ | ⟨_, h2, _⟩ | ⟨_, h2, _⟩ | ⟨_, h2, _⟩
  · exact absurd h1 hd
  · exact he
  · exact absurd h10 h2
  · exact absurd h10 h2
  · exact absurd h10 h2

theorem epAfter_some (q : Byte) (e : Nat) (i : Nat) (r : List Byte) :
    epAfter q (some e) i r = some e := rfl

/-- The quoted-value scan over a doubled content region: starting just inside
the quotes with the region holding `dbl r` followed by the closing quote and a
LF, the machine consumes every doubled pair (recording the first escape
position), counts the literal LFs, and completes the row just past the LF. -/
theorem runFuel_quoted_dbl (cfg : CsvConfig) (hesc : cfg.esc = cfg.qte)
    (hq10 : cfg.qte ≠ 10) (hd10 : cfg.delim ≠ 10) (buf : List Byte) :
    ∀ (r : List Byte) (F : Nat) (i : Nat) (ep : Option Nat) (fs cno nline : Nat)
      (acc : List Field),
      buf.drop i = dbl cfg.qte r ++ [cfg.qte, 10] →
      (dbl cfg.qte r).length + 2 ≤ F →
      runFuel cfg buf F (.quoted fs ep) i cno nline acc =
        .complete (i + (dbl cfg.qte r).length + 2)
          (acc ++ [mkField true fs (i + (dbl cfg.qte r).length + 1)
            (epAfter cfg.qte ep i r)])
          (nline + count10 r + 1) := by
  intro r
  induction r with
  | nil =>
    intro F i ep fs cno nline acc hdrop hF
    rw [dbl_nil, List.nil_append] at hdrop
    rw [dbl_nil] at hF ⊢
    simp only [List.length_nil] at hF ⊢
    have hgd : ∀ d, buf.getD (i + d) 0 = ([cfg.qte, 10] : List Byte).getD d 0 := by
      intro d
      rw [← getD_drop', hdrop]
    have hil : i ≤ buf.length := by
      by_contra hc
      push_neg at hc
      rw [List.drop_eq_nil_of_le (by omega)] at hdrop
      exact absurd hdrop.symm (by simp)
    have hlen : buf.length = i + 2 := by
      have hh := congrArg List.length hdrop
      rw [List.length_drop] at hh
      simp only [List.length_cons, List.length_nil] at hh
      omega
    cases F with
    | zero => omega
    | succ F =>
      have hg0 : buf.getD i 0 = cfg.qte := by
        have hh := hgd 0
        rw [Nat.add_zero] at hh
        rw [hh]
        rfl
      have hg1 : buf.getD (i + 1) 0 = 10 := by
        have hh := hgd 1
        rw [hh]
        rfl
      have hsn1 : scanNext cfg buf i = some i :=
        scanNext_self (by omega) (by rw [hg0, specialb]; simp)
      have hsn2 : scanNext cfg buf (i + 1) = some (i + 1) :=
        scanNext_self (by omega) (by rw [hg1, specialb]; simp)
      rw [stepQ_some hsn1, if_pos hg0, hsn2]
      dsimp only []
      rw [if_neg (by omega), if_neg (fun hco => hq10 (hco.2.symm.trans hg1)),
        finishStep_lf cfg buf fs (i + 1) ep true cno nline acc
          (by rw [hg1]; exact fun hcc => hd10 hcc.symm) hg1]
      dsimp only []
      rw [epAfter_nil, count10_nil,
        show i + 0 + 2 = i + 1 + 1 from by omega,
        show i + 0 + 1 = i + 1 from by omega,
        show nline + 0 + 1 = nline + 1 from by omega]
  | cons b bs ih =>
    intro F i ep fs cno nline acc hdrop hF
    by_cases hb : b = cfg.qte
    · -- a doubled quote pair
      rw [dbl_cons, if_pos hb, List.cons_append, List.cons_append] at hdrop
      have hdbl : (dbl cfg.qte (b :: bs)).length = (dbl cfg.qte bs).length + 2 := by
        rw [dbl_cons, if_pos hb, List.length_cons, List.length_cons]
      rw [hdbl] at hF ⊢
      have hgd : ∀ d, buf.getD (i + d) 0 =
          (cfg.qte :: cfg.qte :: (dbl cfg.qte bs ++ [cfg.qte, 10])).getD d 0 := by
        intro d
        rw [← getD_drop', hdrop]
      have hil : i ≤ buf.length := by
        by_contra hc
        push_neg at hc
        rw [List.drop_eq_nil_of_le (by omega)] at hdrop
        exact absurd hdrop.symm (by simp)
      have hlen : buf.length = i + ((dbl cfg.qte bs).length + 2) + 2 := by
        have hh := congrArg List.length hdrop
        rw [List.length_drop] at hh
        simp only [List.length_cons, List.length_nil, List.length_append] at hh
        omega
      cases F with
      | zero => omega
      | succ F =>
        have hg0 : buf.getD i 0 = cfg.qte := by
          have hh := hgd 0
          rw [Nat.add_zero] at hh
          rw [hh]
          rfl
        have hg1 : buf.getD (i + 1) 0 = cfg.qte := by
          have hh := hgd 1
          rw [hh]
          rfl
        have hsn1 : scanNext cfg buf i = some i :=
          scanNext_self (by omega) (by rw [hg0, specialb]; simp)
        have hsn2 : scanNext cfg buf (i + 1) = some (i + 1) :=
          scanNext_self (by omega) (by rw [hg1, specialb]; simp)
        rw [stepQ_some hsn1, if_pos hg0, hsn2]
        dsimp only []
        rw [if_neg (by omega), if_pos ⟨hesc, hg1⟩]
        have hdrop2 : buf.drop (i + 1 + 1) = dbl cfg.qte bs ++ [cfg.qte, 10] := by
          rw [show i + 1 + 1 = i + 2 from rfl, ← List.drop_drop, hdrop]
          rfl
        rw [ih F (i + 1 + 1) (some (ep.getD i)) fs cno nline acc hdrop2 (by omega)]
        rw [hb, epAfter_cons_q, epAfter_some, count10_cons,
          if_neg (show ¬(cfg.qte = 10) from hq10), Nat.zero_add,
          show i + ((dbl cfg.qte bs).length + 2) + 2 =
            i + 1 + 1 + (dbl cfg.qte bs).length + 2 from by omega,
          show i + ((dbl cfg.qte bs).length + 2) + 1 =
            i + 1 + 1 + (dbl cfg.qte bs).length + 1 from by omega]
    · -- a literal byte
      rw [dbl_cons, if_neg hb, List.cons_append] at hdrop
      have hdbl : (dbl cfg.qte (b :: bs)).length = (dbl cfg.qte bs).length + 1 := by
        rw [dbl_cons, if_neg hb, List.length_cons]
      rw [hdbl] at hF ⊢
      have hgd : ∀ d, buf.getD (i + d) 0 =
          (b :: (dbl cfg.qte bs ++ [cfg.qte, 10])).getD d 0 := by
        intro d
        rw [← getD_drop', hdrop]
      have hil : i ≤ buf.length := by
        by_contra hc
        push_neg at hc
        rw [List.drop_eq_nil_of_le (by omega)] at hdrop
        exact absurd hdrop.symm (by simp)
      have hlen : buf.length = i + ((dbl cfg.qte bs).length + 1) + 2 := by
        have hh := congrArg List.length hdrop
        rw [List.length_drop] at hh
        simp only [List.length_cons, List.length_nil, List.length_append] at hh
        omega
      have hg0 : buf.getD i 0 = b := by
        have hh := hgd 0
        rw [Nat.add_zero] at hh
        rw [hh]
        rfl
      have hdrop1 : buf.drop (i + 1) = dbl cfg.qte bs ++ [cfg.qte, 10] := by
        rw [← List.drop_drop, hdrop]
        rfl
      cases F with
      | zero => omega
      | succ F =>
        by_cases hsb : specialb cfg b = true
        · -- a special literal byte (delimiter / CR / LF): one machine step
          have hsn1 : scanNext cfg buf i = some i :=
            scanNext_self (by omega) (by rw [hg0]; exact hsb)
          rw [stepQ_some hsn1, if_neg (by rw [hg0]; exact hb),
            if_neg (by rw [hg0, hesc]; exact hb), hg0]
          rw [ih F (i + 1) ep fs cno
            (nline + if b = 10 then 1 else 0) acc hdrop1 (by omega)]
          rw [epAfter_cons_ne cfg.qte b ep i bs hb, count10_cons,
            show i + ((dbl cfg.qte bs).length + 1) + 2 =
              i + 1 + (dbl cfg.qte bs).length + 2 from by omega,
            show i + ((dbl cfg.qte bs).length + 1) + 1 =
              i + 1 + (dbl cfg.qte bs).length + 1 from by omega]
          by_cases hb10 : b = 10
          · rw [if_pos hb10,
              show nline + 1 + count10 bs + 1 = nline + (1 + count10 bs) + 1
                from by omega]
          · rw [if_neg hb10]
            congr 1
            omega
        · -- a plain literal byte: the scanner skips it within the same step
          rw [runFuel_quoted_skip cfg buf F fs ep i cno nline acc
            (by rw [hg0]; simpa using hsb)]
          rw [ih (F + 1) (i + 1) ep fs cno nline acc hdrop1 (by omega)]
          have hb10 : ¬(b = 10) := by
            intro hc
            rw [hc, specialb] at hsb
            simp at hsb
          rw [epAfter_cons_ne cfg.qte b ep i bs hb, count10_cons,
            if_neg hb10, Nat.zero_add,
            show i + ((dbl cfg.qte bs).length + 1) + 2 =
              i + 1 + (dbl cfg.qte bs).length + 2 from by omega,
            show i + ((dbl cfg.qte bs).length + 1) + 1 =
              i + 1 + (dbl cfg.qte bs).length + 1 from by omega]

theorem copyTilZero_spec :
    ∀ (fuel : Nat) (r : List Byte) (X : List Byte) (s p : Nat),
      (∀ b ∈ r, b ≠ 0) → s ≤ p →
      (∀ t, t < r.length → X.getD (p + t) 0 = r.getD t 0) →
      X.getD (p + r.length) 0 = 0 →
      p + r.length ≤ X.length →
      r.length < fuel →
      (copyTilZero X s p fuel).2 = s + r.length ∧
      (copyTilZero X s p fuel).1.length = X.length ∧
      (∀ t, t < r.length → (copyTilZero X s p fuel).1.getD (s + t) 0 = r.getD t 0) ∧
      (∀ t, t < s → (copyTilZero X s p fuel).1.getD t 0 = X.getD t 0) ∧
      (∀ t, p + r.length ≤ t → (copyTilZero X s p fuel).1.getD t 0 = X.getD t 0) := by
  intro fuel
  induction fuel with
  | zero => intro r X s p _ _ _ _ _ hf; omega
  | succ fuel ih =>
    intro r X s p h0 hsp hcont hz hbnd hf
    cases r with
    | nil =>
      simp only [List.length_nil, Nat.add_zero] at hz hbnd ⊢
      rw [copyTilZero, if_pos hz]
      exact ⟨rfl, rfl, fun t ht => absurd ht (by omega), fun t _ => rfl,
        fun t _ => rfl⟩
    | cons b bs =>
      have hgb : X.getD p 0 = b := by
        have hh := hcont 0 (by rw [List.length_cons]; omega)
        rw [Nat.add_zero] at hh
        exact hh
      have hb0 : b ≠ 0 := h0 b (List.mem_cons_self _ _)
      have hrl : (b :: bs).length = bs.length + 1 := by rw [List.length_cons]
      rw [copyTilZero, if_neg (by rw [hgb]; exact hb0), hgb]
      have hlt : p < X.length := by
        rw [hrl] at hbnd
        omega
      obtain ⟨c1, c2, c3, c4, c5⟩ := ih bs (X.set s b) (s + 1) (p + 1)
        (fun x hx => h0 x (List.mem_cons_of_mem b hx)) (by omega)
        (fun t ht => by
          rw [getD_set_ne (by omega),
            show p + 1 + t = p + (t + 1) from by omega]
          have hh := hcont (t + 1) (by rw [hrl]; omega)
          rw [hh, List.getD_cons_succ])
        (by
          rw [getD_set_ne (by omega),
            show p + 1 + bs.length = p + (b :: bs).length from by rw [hrl]; omega]
          exact hz)
        (by rw [List.length_set]; rw [hrl] at hbnd; omega)
        (by rw [hrl] at hf; omega)
      refine ⟨by rw [c1, hrl]; omega, by rw [c2, List.length_set], ?_, ?_, ?_⟩
      · intro t ht
        cases t with
        | zero =>
          have hh := c4 s (by omega)
          have hgoal : (copyTilZero (X.set s b) (s + 1) (p + 1) fuel).1.getD s 0
              = b := by
            rw [hh, getD_set_self (by omega)]
          exact hgoal
        | succ t' =>
          rw [show s + (t' + 1) = s + 1 + t' from by omega,
            c3 t' (by rw [hrl] at ht; omega), List.getD_cons_succ]
      · intro t ht
        rw [c4 t (by omega), getD_set_ne (by omega)]
      · intro t ht
        rw [hrl] at ht
        rw [c5 t (by omega), getD_set_ne (by omega)]

theorem take_drop_eq_of_getD (X : List Byte) (p w : Nat) (l : List Byte)
    (hw : w ≤ l.length) (hbound : p + w ≤ X.length)
    (h : ∀ t, t < w → X.getD (p + t) 0 = l.getD t 0) :
    (X.drop p).take w = l.take w := by
  apply List.ext_getElem
  · rw [List.length_take, List.length_drop, List.length_take]
    omega
  · intro j h1 h2
    rw [List.length_take, List.length_drop] at h1
    have hj : j < w := by omega
    rw [List.getElem_take, List.getElem_drop, List.getElem_take]
    have hh := h j hj
    rw [List.getD_eq_getElem X 0 (by omega), List.getD_eq_getElem l 0 (by omega)]
      at hh
    exact hh

theorem dbl_length_ge (q : Byte) :
    ∀ (r : List Byte), r.length ≤ (dbl q r).length := by
  intro r
  induction r with
  | nil => exact le_rfl
  | cons b bs ih =>
    rw [dbl_cons, List.length_cons]
    by_cases hb : b = q
    · rw [if_pos hb, List.length_cons, List.length_cons]
      omega
    · rw [if_neg hb, List.length_cons]
      omega

/-- The squeeze loop on a doubled region: starting with write cursor `s` and
read cursor `p` over a region holding `dbl rem` terminated by a NUL at `q`,
the loop writes exactly `rem` at `[s, s + rem.length)` (collapsing each
doubled quote), returns write position `s + rem.length`, and leaves every
byte below `s` and from `q` on untouched. -/
theorem squeezeLoop_spec (cfg : CsvConfig) (hesc : cfg.esc = cfg.qte) :
    ∀ (fuel : Nat) (rem : List Byte) (X : List Byte) (s p q : Nat),
      (∀ b ∈ rem, b ≠ 0) → s ≤ p →
      (∀ t, t < (dbl cfg.qte rem).length →
        X.getD (p + t) 0 = (dbl cfg.qte rem).getD t 0) →
      p + (dbl cfg.qte rem).length = q →
      X.getD q 0 = 0 → q ≤ X.length →
      (dbl cfg.qte rem).length + 1 ≤ fuel →
      (squeezeLoop cfg fuel X s p q).2 = s + rem.length ∧
      (squeezeLoop cfg fuel X s p q).1.length = X.length ∧
      (∀ t, t < rem.length →
        (squeezeLoop cfg fuel X s p q).1.getD (s + t) 0 = rem.getD t 0) ∧
      (∀ t, t < s → (squeezeLoop cfg fuel X s p q).1.getD t 0 = X.getD t 0) ∧
      (∀ t, q ≤ t → (squeezeLoop cfg fuel X s p q).1.getD t 0 = X.getD t 0) := by
  intro fuel
  induction fuel with
  | zero => intro rem X s p q _ _ _ _ _ _ hf; omega
  | succ fuel ih =>
    intro rem X s p q h0 hsp hcont hpq hz hqx hf
    rw [squeezeLoop]
    by_cases hqp : q ≤ p
    · rw [if_pos hqp]
      have hrem : rem = [] := by
        cases rem with
        | nil => rfl
        | cons b bs =>
          exfalso
          have hpos : 0 < (dbl cfg.qte (b :: bs)).length := by
            rw [dbl_cons]
            by_cases hb : b = cfg.qte
            · rw [if_pos hb, List.length_cons]
              omega
            · rw [if_neg hb, List.length_cons]
              omega
          omega
      subst hrem
      refine ⟨by simp, rfl, fun t ht => absurd ht (by simp), fun t _ => rfl,
        fun t _ => rfl⟩
    · rw [if_neg hqp]
      have hww : min 16 (q - p) ≤ (dbl cfg.qte rem).length := by omega
      have hwin : (X.drop p).take (min 16 (q - p)) =
          (dbl cfg.qte rem).take (min 16 (q - p)) :=
        take_drop_eq_of_getD X p _ _ hww (by omega)
          (fun t ht => hcont t (by omega))
      by_cases hcase : ∃ m, firstQ cfg.qte rem = some m ∧ m < min 16 (q - p)
      · -- a doubled pair inside the window
        obtain ⟨m, hfq, hmw⟩ := hcase
        obtain ⟨a, r', hra, hal, hafree⟩ := firstQ_some_decomp cfg.qte rem m hfq
        have hafree' : ∀ b ∈ a, ¬(b = cfg.qte ∨ b = cfg.esc) := by
          intro b hb hor
          rcases hor with h1 | h2
          · exact hafree b hb h1
          · rw [hesc] at h2
            exact hafree b hb h2
        have hdra : dbl cfg.qte rem =
            a ++ cfg.qte :: cfg.qte :: dbl cfg.qte r' := by
          rw [hra, dbl_append, dbl_of_free cfg.qte a hafree, dbl_cons, if_pos rfl]
        have hdl : (dbl cfg.qte rem).length = m + 2 + (dbl cfg.qte r').length := by
          rw [hdra, List.length_append, List.length_cons, List.length_cons, hal]
          omega
        have hreml : rem.length = m + (r'.length + 1) := by
          rw [hra, List.length_append, List.length_cons, hal]
        have hwq : findQE cfg ((X.drop p).take (min 16 (q - p))) = some m := by
          rw [hwin, hdra,
            show min 16 (q - p) = a.length + (min 16 (q - p) - a.length) from by
              omega,
            List.take_append,
            show min 16 (q - p) - a.length =
              (min 16 (q - p) - a.length - 1) + 1 from by omega,
            List.take_succ_cons,
            findQE_free_cons cfg a _ _ hafree' (Or.inl rfl), hal]
        have hcw : cutWindow cfg X p q = m := by
          rw [cutWindow, hwq]
        rw [hcw, if_neg (by omega)]
        -- the written escape byte is the second quote of the pair
        have hval : (copyBytes X s p m).getD (p + m + 1) 0 = cfg.qte := by
          rw [copyBytes_getD_frame X s p m _ (by omega),
            show p + m + 1 = p + (m + 1) from by omega,
            hcont (m + 1) (by omega), hdra, ← hal,
            show a.length + 1 = a.length + 1 from rfl, getD_append_mid]
          rfl
        have hX'len : ((copyBytes X s p m).set (s + m)
            ((copyBytes X s p m).getD (p + m + 1) 0)).length = X.length := by
          rw [List.length_set, copyBytes_length]
        -- region bytes of the recursion
        have hcont' : ∀ t, t < (dbl cfg.qte r').length →
            ((copyBytes X s p m).set (s + m)
              ((copyBytes X s p m).getD (p + m + 1) 0)).getD (p + m + 2 + t) 0 =
            (dbl cfg.qte r').getD t 0 := by
          intro t ht
          rw [getD_set_ne (by omega), copyBytes_getD_frame X s p m _ (by omega),
            show p + m + 2 + t = p + (m + (2 + t)) from by omega,
            hcont (m + (2 + t)) (by omega), hdra, ← hal, getD_append_mid]
          rw [show 2 + t = (t + 1) + 1 from by omega, List.getD_cons_succ,
            List.getD_cons_succ]
        have hz' : ((copyBytes X s p m).set (s + m)
            ((copyBytes X s p m).getD (p + m + 1) 0)).getD q 0 = 0 := by
          rw [getD_set_ne (by omega), copyBytes_getD_frame X s p m _ (by omega)]
          exact hz
        have hmem : ∀ b ∈ r', b ≠ 0 := by
          intro b hb
          refine h0 b ?_
          rw [hra]
          exact List.mem_append.mpr (Or.inr (List.mem_cons_of_mem _ hb))
        obtain ⟨d1, d2, d3, d4, d5⟩ := ih r'
          ((copyBytes X s p m).set (s + m)
            ((copyBytes X s p m).getD (p + m + 1) 0))
          (s + m + 1) (p + m + 2) q hmem
          (by omega) hcont' (by omega) hz' (by rw [hX'len]; omega) (by omega)
        refine ⟨?_, ?_, ?_, ?_, ?_⟩
        · rw [d1, hreml]
          omega
        · rw [d2, hX'len]
        · intro t ht
          rcases Nat.lt_trichotomy t m with h1 | h2 | h3
          · rw [d4 (s + t) (by omega), getD_set_ne (by omega),
              copyBytes_getD_read X s p m hsp (by omega) t h1,
              hcont t (by omega), hdra,
              getD_append_left (by omega), hra, getD_append_left (by omega)]
          · subst h2
            rw [d4 (s + t) (by omega), getD_set_self (by rw [copyBytes_length]; omega),
              hval, hra]
            have hh := getD_append_mid a (cfg.qte :: r') 0
            rw [Nat.add_zero] at hh
            rw [← hal, hh]
            rfl
          · have ht' : t - m - 1 < r'.length := by omega
            rw [show s + t = s + m + 1 + (t - m - 1) from by omega,
              d3 (t - m - 1) ht', hra]
            have hh := getD_append_mid a (cfg.qte :: r') (t - m)
            rw [hal, show m + (t - m) = t from by omega] at hh
            rw [hh, show t - m = (t - m - 1) + 1 from by omega,
              List.getD_cons_succ]
            congr 1
        · intro t ht
          rw [d4 t (by omega), getD_set_ne (by omega),
            copyBytes_getD_frame X s p m t (by omega)]
        · intro t ht
          rw [d5 t (by omega), getD_set_ne (by omega),
            copyBytes_getD_frame X s p m t (by omega)]
      · -- no doubled pair inside the window
        push_neg at hcase
        have hfree16 : (∀ b ∈ rem.take (min 16 (q - p)), b ≠ cfg.qte) ∧
            min 16 (q - p) ≤ rem.length := by
          cases hfq : firstQ cfg.qte rem with
          | none =>
            have hfr := firstQ_none_free cfg.qte rem hfq
            have hid : dbl cfg.qte rem = rem := dbl_of_free cfg.qte rem hfr
            refine ⟨fun b hb => hfr b (List.mem_of_mem_take hb), ?_⟩
            have hle : (dbl cfg.qte rem).length = rem.length := by rw [hid]
            omega
          | some m =>
            have hm := hcase m hfq
            obtain ⟨a, r', hra, hal, hafree⟩ := firstQ_some_decomp cfg.qte rem m hfq
            have hrl : m < rem.length := by
              rw [hra, List.length_append, List.length_cons, hal]
              omega
            refine ⟨?_, by omega⟩
            intro b hb
            rw [hra, List.take_append_of_le_length (by omega)] at hb
            exact hafree b (List.mem_of_mem_take hb)
        obtain ⟨hf16, hwlen⟩ := hfree16
        have hsplit : rem = rem.take (min 16 (q - p)) ++ rem.drop (min 16 (q - p)) :=
          (List.take_append_drop _ _).symm
        have htlen : (rem.take (min 16 (q - p))).length = min 16 (q - p) := by
          rw [List.length_take]
          omega
        have hdsplit : dbl cfg.qte rem =
            rem.take (min 16 (q - p)) ++ dbl cfg.qte (rem.drop (min 16 (q - p))) := by
          conv_lhs => rw [hsplit]
          rw [dbl_append, dbl_of_free cfg.qte _ hf16]
        have hwq : findQE cfg ((X.drop p).take (min 16 (q - p))) = none := by
          rw [hwin, hdsplit, List.take_append_of_le_length (by omega),
            List.take_take, min_self]
          refine findQE_none_of_free cfg _ ?_
          intro b hb hor
          rcases hor with h1 | h2
          · exact hf16 b hb h1
          · rw [hesc] at h2
            exact hf16 b hb h2
        have hcw : cutWindow cfg X p q = 16 := by
          rw [cutWindow, hwq]
        rw [hcw, if_pos rfl]
        by_cases hbulk : p + 16 < q
        · rw [if_pos hbulk]
          have hw16 : min 16 (q - p) = 16 := by omega
          rw [hw16] at hf16 hwlen htlen hsplit hdsplit
          have hdl16 : (dbl cfg.qte rem).length =
              16 + (dbl cfg.qte (rem.drop 16)).length := by
            rw [hdsplit, List.length_append, htlen]
          obtain ⟨d1, d2, d3, d4, d5⟩ := ih (rem.drop 16) (copyBytes X s p 16)
            (s + 16) (p + 16) q
            (fun b hb => h0 b (List.mem_of_mem_drop hb))
            (by omega)
            (by
              intro t ht
              rw [copyBytes_getD_frame X s p 16 _ (by omega),
                show p + 16 + t = p + (16 + t) from by omega,
                hcont (16 + t) (by omega), hdsplit]
              have hh := getD_append_mid (rem.take 16)
                (dbl cfg.qte (rem.drop 16)) t
              rw [htlen] at hh
              exact hh)
            (by omega) (by rw [copyBytes_getD_frame X s p 16 q (by omega)]; exact hz)
            (by rw [copyBytes_length]; omega) (by omega)
          have hrlen : rem.length = 16 + (rem.drop 16).length := by
            rw [List.length_drop]
            omega
          refine ⟨?_, ?_, ?_, ?_, ?_⟩
          · rw [d1, hrlen]
            omega
          · rw [d2, copyBytes_length]
          · intro t ht
            rcases Nat.lt_or_ge t 16 with h1 | h2
            · rw [d4 (s + t) (by omega),
                copyBytes_getD_read X s p 16 hsp (by omega) t h1,
                hcont t (by omega), hdsplit, getD_append_left (by omega),
                getD_take_of_lt h1]
            · rw [show s + t = s + 16 + (t - 16) from by omega,
                d3 (t - 16) (by omega), getD_drop',
                show 16 + (t - 16) = t from by omega]
          · intro t ht
            rw [d4 t (by omega), copyBytes_getD_frame X s p 16 t (by omega)]
          · intro t ht
            rw [d5 t (by omega), copyBytes_getD_frame X s p 16 t (by omega)]
        · rw [if_neg hbulk]
          have hwqp : min 16 (q - p) = q - p := by omega
          have hremge : rem.length ≤ (dbl cfg.qte rem).length := dbl_length_ge _ _
          have hremlen : rem.length = q - p := by omega
          have hremfree : ∀ b ∈ rem, b ≠ cfg.qte := by
            intro b hb
            refine hf16 b ?_
            rw [hwqp, ← hremlen, List.take_length]
            exact hb
          have hid : dbl cfg.qte rem = rem := dbl_of_free cfg.qte rem hremfree
          rw [hid] at hcont hpq
          obtain ⟨d1, d2, d3, d4, d5⟩ := copyTilZero_spec (X.length + 1) rem X s p
            h0 hsp hcont (by rw [hpq]; exact hz) (by omega) (by omega)
          exact ⟨d1, d2, d3, d4, fun t ht => d5 t (by omega)⟩

/-- Parsing a single-field row whose quoted value doubles every embedded
quote: the machine records the field span (without the enclosing quotes) and
the position of the first doubled quote, and consumes the whole row. -/
theorem csvLineRun_dbl (cfg : CsvConfig) (hesc : cfg.esc = cfg.qte)
    (hq10 : cfg.qte ≠ 10) (hd10 : cfg.delim ≠ 10) (c : List Byte) :
    csvLineRun cfg (cfg.qte :: (dbl cfg.qte c ++ [cfg.qte, 10])) =
      .complete ((dbl cfg.qte c).length + 3)
        [⟨1, (dbl cfg.qte c).length, (firstQ cfg.qte c).map (1 + ·)⟩]
        (count10 c + 1) := by
  rw [csvLineRun]
  have hblen : (cfg.qte :: (dbl cfg.qte c ++ [cfg.qte, 10])).length =
      (dbl cfg.qte c).length + 3 := by
    rw [List.length_cons, List.length_append]
    simp only [List.length_cons, List.length_nil]
  have hsn : scanNext cfg (cfg.qte :: (dbl cfg.qte c ++ [cfg.qte, 10])) 0 =
      some 0 := by
    refine scanNext_self (by rw [hblen]; omega) ?_
    show specialb cfg cfg.qte = true
    rw [specialb]
    simp
  rw [stepF_some hsn, if_pos ⟨rfl, rfl⟩]
  have hdrop : (cfg.qte :: (dbl cfg.qte c ++ [cfg.qte, 10])).drop (0 + 1) =
      dbl cfg.qte c ++ [cfg.qte, 10] := rfl
  rw [runFuel_quoted_dbl cfg hesc hq10 hd10 _ c _ (0 + 1) none 0 0 0 [] hdrop
    (by rw [hblen]; omega)]
  rw [List.nil_append, mkField_true,
    show 0 + 1 + (dbl cfg.qte c).length + 2 = (dbl cfg.qte c).length + 3 from
      by omega,
    show 0 + 1 + (dbl cfg.qte c).length + 1 - 0 - 2 = (dbl cfg.qte c).length from
      by omega,
    show (0 : Nat) + 1 = 1 from by omega,
    show 0 + count10 c + 1 = count10 c + 1 from by omega]
  rfl

/-- C8 (amended): parsing then finalizing a quoted field in which every
embedded quote is doubled yields back the original content with each doubled
quote collapsed (delimiters and newlines inside the quotes stay literal) —
provided the collapsed content does not spell the configured null marker, in
which case the field resolves to null instead. -/
theorem c8_quote_doubling (cfg : CsvConfig) (st : CsvState) (c : List Byte)
    (hesc : cfg.esc = cfg.qte) (hq10 : cfg.qte ≠ 10) (hd10 : cfg.delim ≠ 10)
    (h0 : ∀ b ∈ c, b ≠ 0)
    (hnn : ¬(c.length = cfg.nullstrsz ∧ c = cfg.nullstr)) :
    (csv_feed cfg st (cfg.qte :: (dbl cfg.qte c ++ [cfg.qte, 10]))).2.2.1 =
      [some c] := by
  have hparse := csvLineRun_dbl cfg hesc hq10 hd10 c
  rw [csv_feed_of_complete st hparse]
  show rowValues
      (touchup cfg [⟨1, (dbl cfg.qte c).length, (firstQ cfg.qte c).map (1 + ·)⟩]
        (cfg.qte :: (dbl cfg.qte c ++ [cfg.qte, 10]))).1
      (touchup cfg [⟨1, (dbl cfg.qte c).length, (firstQ cfg.qte c).map (1 + ·)⟩]
        (cfg.qte :: (dbl cfg.qte c ++ [cfg.qte, 10]))).2 = [some c]
  rw [touchup_cons, touchup_nil]
  dsimp only []
  rw [rowValues, List.map_cons, List.map_nil]
  have hBlen : (cfg.qte :: (dbl cfg.qte c ++ [cfg.qte, 10])).length =
      (dbl cfg.qte c).length + 3 := by
    rw [List.length_cons, List.length_append]
    simp only [List.length_cons, List.length_nil]
  have hB : ∀ t, (cfg.qte :: (dbl cfg.qte c ++ [cfg.qte, 10])).getD (1 + t) 0 =
      (dbl cfg.qte c ++ [cfg.qte, 10]).getD t 0 := by
    intro t
    rw [show 1 + t = t + 1 from by omega, List.getD_cons_succ]
  cases hfq : firstQ cfg.qte c with
  | none =>
    have hfr := firstQ_none_free cfg.qte c hfq
    have hdid : dbl cfg.qte c = c := dbl_of_free cfg.qte c hfr
    rw [Option.map_none']
    rw [hdid] at hBlen hB ⊢
    rw [touchupField_none_eq]
    have hslice : (((cfg.qte :: (c ++ [cfg.qte, 10])).set (1 + c.length) 0).drop
        1).take c.length = c := by
      have h1 : ((cfg.qte :: (c ++ [cfg.qte, 10])).set (1 + c.length) 0).take
          (1 + c.length) = (cfg.qte :: (c ++ [cfg.qte, 10])).take (1 + c.length) :=
        take_set_of_le (le_refl _)
      rw [slice_eq_of_take_eq h1 (le_refl _),
        show (cfg.qte :: (c ++ [cfg.qte, 10])).drop 1 = c ++ [cfg.qte, 10]
          from rfl,
        List.take_append_of_le_length (le_refl _), List.take_length]
    rw [if_neg (fun hco => hnn ⟨hco.1, by rw [← hslice]; exact hco.2⟩)]
    dsimp only []
    rw [Option.map_some']
    have hc : cstr ((cfg.qte :: (c ++ [cfg.qte, 10])).set (1 + c.length) 0) 1 =
        c := by
      refine cstr_of_getD c _ 1 ?_ h0 ?_
      · intro t ht
        rw [getD_set_ne (by omega), hB t, getD_append_left (by omega)]
      · exact getD_set_self (by rw [hBlen]; omega)
    rw [hc]
  | some m =>
    rw [Option.map_some']
    obtain ⟨a, c', hra, hal, hafree⟩ := firstQ_some_decomp cfg.qte c m hfq
    have hdra : dbl cfg.qte c = a ++ cfg.qte :: cfg.qte :: dbl cfg.qte c' := by
      rw [hra, dbl_append, dbl_of_free cfg.qte a hafree, dbl_cons, if_pos rfl]
    have hdl : (dbl cfg.qte c).length = m + 2 + (dbl cfg.qte c').length := by
      rw [hdra, List.length_append, List.length_cons, List.length_cons, hal]
      omega
    have hclen : c.length = m + (c'.length + 1) := by
      rw [hra, List.length_append, List.length_cons, hal]
    have hcp : c'.length ≤ (dbl cfg.qte c').length := dbl_length_ge _ _
    rw [touchupField_some_eq]
    dsimp only []
    rw [Option.map_some']
    -- the escaped byte copied over the first quote of the pair is a quote
    have hv : ((cfg.qte :: (dbl cfg.qte c ++ [cfg.qte, 10])).set
        (1 + (dbl cfg.qte c).length) 0).getD (1 + m + 1) 0 = cfg.qte := by
      rw [getD_set_ne (by omega), show 1 + m + 1 = 1 + (m + 1) from by omega,
        hB (m + 1), getD_append_left (by omega), hdra]
      have hh := getD_append_mid a (cfg.qte :: cfg.qte :: dbl cfg.qte c') 1
      rw [hal] at hh
      rw [hh]
      rfl
    -- region bytes seen by the squeeze loop
    have hcont2 : ∀ t, t < (dbl cfg.qte c').length →
        (((cfg.qte :: (dbl cfg.qte c ++ [cfg.qte, 10])).set
            (1 + (dbl cfg.qte c).length) 0).set (1 + m)
          (((cfg.qte :: (dbl cfg.qte c ++ [cfg.qte, 10])).set
            (1 + (dbl cfg.qte c).length) 0).getD (1 + m + 1) 0)).getD
          (1 + m + 2 + t) 0 = (dbl cfg.qte c').getD t 0 := by
      intro t ht
      rw [getD_set_ne (by omega), getD_set_ne (by omega),
        show 1 + m + 2 + t = 1 + (m + (2 + t)) from by omega,
        hB (m + (2 + t)), getD_append_left (by omega), hdra]
      have hh := getD_append_mid a (cfg.qte :: cfg.qte :: dbl cfg.qte c') (2 + t)
      rw [hal] at hh
      rw [hh, show 2 + t = (t + 1) + 1 from by omega, List.getD_cons_succ,
        List.getD_cons_succ]
    have hz2 : (((cfg.qte :: (dbl cfg.qte c ++ [cfg.qte, 10])).set
        (1 + (dbl cfg.qte c).length) 0).set (1 + m)
          (((cfg.qte :: (dbl cfg.qte c ++ [cfg.qte, 10])).set
            (1 + (dbl cfg.qte c).length) 0).getD (1 + m + 1) 0)).getD
        (1 + (dbl cfg.qte c).length) 0 = 0 := by
      rw [getD_set_ne (by omega)]
      exact getD_set_self (by rw [hBlen]; omega)
    have h2len : (((cfg.qte :: (dbl cfg.qte c ++ [cfg.qte, 10])).set
        (1 + (dbl cfg.qte c).length) 0).set (1 + m)
          (((cfg.qte :: (dbl cfg.qte c ++ [cfg.qte, 10])).set
            (1 + (dbl cfg.qte c).length) 0).getD (1 + m + 1) 0)).length =
        (dbl cfg.qte c).length + 3 := by
      rw [List.length_set, List.length_set, hBlen]
    have hmem : ∀ b ∈ c', b ≠ 0 := by
      intro b hb
      refine h0 b ?_
      rw [hra]
      exact List.mem_append.mpr (Or.inr (List.mem_cons_of_mem _ hb))
    obtain ⟨sd1, sd2, sd3, sd4, sd5⟩ := squeezeLoop_spec cfg hesc
      (1 + (dbl cfg.qte c).length + 1) c'
      (((cfg.qte :: (dbl cfg.qte c ++ [cfg.qte, 10])).set
          (1 + (dbl cfg.qte c).length) 0).set (1 + m)
        (((cfg.qte :: (dbl cfg.qte c ++ [cfg.qte, 10])).set
          (1 + (dbl cfg.qte c).length) 0).getD (1 + m + 1) 0))
      (1 + m + 1) (1 + m + 2) (1 + (dbl cfg.qte c).length)
      hmem (by omega) hcont2 (by omega) hz2 (by rw [h2len]; omega) (by omega)
    have hfinal : cstr
        ((squeezeLoop cfg (1 + (dbl cfg.qte c).length + 1)
            (((cfg.qte :: (dbl cfg.qte c ++ [cfg.qte, 10])).set
                (1 + (dbl cfg.qte c).length) 0).set (1 + m)
              (((cfg.qte :: (dbl cfg.qte c ++ [cfg.qte, 10])).set
                (1 + (dbl cfg.qte c).length) 0).getD (1 + m + 1) 0))
            (1 + m + 1) (1 + m + 2) (1 + (dbl cfg.qte c).length)).1.set
          (squeezeLoop cfg (1 + (dbl cfg.qte c).length + 1)
            (((cfg.qte :: (dbl cfg.qte c ++ [cfg.qte, 10])).set
                (1 + (dbl cfg.qte c).length) 0).set (1 + m)
              (((cfg.qte :: (dbl cfg.qte c ++ [cfg.qte, 10])).set
                (1 + (dbl cfg.qte c).length) 0).getD (1 + m + 1) 0))
            (1 + m + 1) (1 + m + 2) (1 + (dbl cfg.qte c).length)).2 0) 1 = c := by
      rw [sd1]
      refine cstr_of_getD c _ 1 ?_ h0 ?_
      · intro t ht
        rcases Nat.lt_trichotomy t m with h1 | h2 | h3
        · rw [getD_set_ne (by omega), sd4 (1 + t) (by omega),
            getD_set_ne (by omega), getD_set_ne (by omega), hB t,
            getD_append_left (by omega), hdra, getD_append_left (by omega),
            hra, getD_append_left (by omega)]
        · subst h2
          rw [getD_set_ne (by omega), sd4 (1 + t) (by omega),
            getD_set_self (by rw [List.length_set, hBlen]; omega), hv, hra]
          have hh := getD_append_mid a (cfg.qte :: c') 0
          rw [Nat.add_zero, hal] at hh
          rw [hh]
          rfl
        · have ht' : t - m - 1 < c'.length := by omega
          rw [show 1 + t = 1 + m + 1 + (t - m - 1) from by omega,
            getD_set_ne (by omega), sd3 (t - m - 1) ht', hra]
          have hh := getD_append_mid a (cfg.qte :: c') (t - m)
          rw [hal, show m + (t - m) = t from by omega] at hh
          rw [hh, show t - m = (t - m - 1) + 1 from by omega,
            List.getD_cons_succ]
          congr 1
      · rw [show 1 + c.length = 1 + m + 1 + c'.length from by rw [hclen]; omega,
          ← sd1]
        refine getD_set_self ?_
        rw [sd1, sd2, h2len]
        omega
    rw [hfinal]

/-- C8 (counterexample): with the default configuration the null marker is
the empty string, and the quoted field `\"\"` — whose content, with doubled
quotes collapsed, is empty — does not read back as its original (empty)
content: it resolves to the null field instead. -/
theorem c8_null_collision_counterexample :
    csv_scan 34 34 44 none [[34, 34, 44, 99, 10]] = .ok [[none, some [99]]] ∧
    ¬(csv_scan 34 34 44 none [[34, 34, 44, 99, 10]] =
      .ok [[some [], some [99]]]) := by
  exact ⟨rfl, by decide⟩

theorem c8_quote_doubling_witness :
    ((csv_open 34 34 44 none).esc = (csv_open 34 34 44 none).qte ∧
      (csv_open 34 34 44 none).qte ≠ 10 ∧ (csv_open 34 34 44 none).delim ≠ 10 ∧
      (∀ b ∈ ([97, 34, 98] : List Byte), b ≠ 0) ∧
      ¬(([97, 34, 98] : List Byte).length = (csv_open 34 34 44 none).nullstrsz ∧
        ([97, 34, 98] : List Byte) = (csv_open 34 34 44 none).nullstr)) ∧
    (csv_feed (csv_open 34 34 44 none) initCsvState
        ((csv_open 34 34 44 none).qte ::
          (dbl (csv_open 34 34 44 none).qte [97, 34, 98] ++
            [(csv_open 34 34 44 none).qte, 10]))).2.2.1 = [some [97, 34, 98]] ∧
    csv_scan 34 34 44 none [[34, 97, 34, 34, 98, 34, 44, 99, 10]] =
      .ok [[some [97, 34, 98], some [99]]] :=
  ⟨⟨by decide, by decide, by decide, by decide, by decide⟩,
   c8_quote_doubling (csv_open 34 34 44 none) initCsvState [97, 34, 98]
     (by decide) (by decide) (by decide) (by decide) (by decide),
   by rfl⟩

end Csv
